import Mathlib

/-! Pretty printer of the ASDL runtime (`prebuilt/asdl/runtime.mycpp.cc`)

A shallow embedding of the measure algebra, the document builders, the
stack-driven printer `PrettyPrinter::PrintDoc` and the `HNodeEncoder`, followed
by theorems about them.

Modelling conventions

* `BigStr` is a byte string.  It is modelled as the list of its bytes, each byte
  held in a `Char`; `len` is the number of elements.
* C++ `int` is modelled by `Int`.  Widths and indentations stay far below
  `2^31` for every document that fits in memory, so no wrap-around is modelled.
* A `List<T>*` that is only appended to is modelled by a `List T` threaded
  through the loop; the fragment stack of the printer is a `List` whose head is
  the top of the stack (the last element of the C++ list).
* Garbage-collector bookkeeping (`StackRoot`, `MaybeCollect`) has no effect on
  values and is dropped.
-/

set_option autoImplicit false

/-- A byte string (`BigStr*`). -/
abbrev BigStr := List Char

/-- The builtin `len` on strings. -/
def len (s : BigStr) : Int := (s.length : Int)

/-- The builtin `max` on `int`. -/
def max_int (a b : Int) : Int := if a < b then b else a

/-- Modelled from the spec: `str_repeat(s, times)` is only declared in
`mycpp/gc_builtins.h` (`' ' * 3`); it is the Python repetition `s * times`,
empty when `times <= 0`. -/
def str_repeat (s : BigStr) (times : Int) : BigStr :=
  (List.replicate times.toNat s).flatten

/-- Modelled from the spec: `BufWriter::write_spaces(n)` lies outside the
translated sources; it appends `n` bytes `0x20` (nothing when `n <= 0`). -/
def write_spaces (buf : BigStr) (n : Int) : BigStr :=
  buf ++ List.replicate n.toNat ' '

/-! ## `pretty_asdl`: measures and documents -/

/-- The struct `pretty_asdl::Measure`. -/
structure Measure where
  flat : Int
  nonflat : Int
deriving DecidableEq

mutual
/-- The sum type `pretty_asdl::doc_t`.  The variant `Group` is the class `MeasuredDoc` itself
and the variant `Concat` is `List_Measured`. -/
inductive doc_t where
  | Break (string : BigStr)
  | Text (string : BigStr)
  | Indent (indent : Int) (mdoc : MeasuredDoc)
  | Group (mdoc : MeasuredDoc)
  | Flat (mdoc : MeasuredDoc)
  | IfFlat (flat_mdoc : MeasuredDoc) (nonflat_mdoc : MeasuredDoc)
  | Concat (mdocs : List MeasuredDoc)
/-- The struct `pretty_asdl::MeasuredDoc`: a document and its measure. -/
inductive MeasuredDoc where
  | mk (doc : doc_t) (measure : Measure)
end

/-- Field `doc` of a `MeasuredDoc`. -/
def MeasuredDoc.doc : MeasuredDoc → doc_t
  | .mk d _ => d

/-- Field `measure` of a `MeasuredDoc`. -/
def MeasuredDoc.measure : MeasuredDoc → Measure
  | .mk _ m => m

/-- The struct `pretty_asdl::DocFragment`. -/
structure DocFragment where
  mdoc : MeasuredDoc
  indent : Int
  is_flat : Bool
  measure : Measure

/-! ## `ansi` -/

namespace ansi

def ESC : Char := Char.ofNat 27

def RESET : BigStr := ESC :: "[0;0m".toList
def BOLD : BigStr := ESC :: "[1m".toList
def UNDERLINE : BigStr := ESC :: "[4m".toList
def REVERSE : BigStr := ESC :: "[7m".toList
def RED : BigStr := ESC :: "[31m".toList
def GREEN : BigStr := ESC :: "[32m".toList
def YELLOW : BigStr := ESC :: "[33m".toList
def BLUE : BigStr := ESC :: "[34m".toList
def MAGENTA : BigStr := ESC :: "[35m".toList
def CYAN : BigStr := ESC :: "[36m".toList
def WHITE : BigStr := ESC :: "[37m".toList

end ansi

/-! ## `pretty`: measure algebra, builders, printer -/

namespace pretty

def _EmptyMeasure : Measure := ⟨0, -1⟩

def _FlattenMeasure (measure : Measure) : Measure := ⟨measure.flat, -1⟩

/-- The function `_ConcatMeasure`, with its additions taken over the integers:
it is the function of the source as long as no sum leaves the range of `int`.
`int32._ConcatMeasure` is the same function with the wrap-around of a 32-bit
`int`. -/
def _ConcatMeasure (m1 m2 : Measure) : Measure :=
  if m1.nonflat ≠ -1 then
    ⟨m1.flat + m2.flat, m1.nonflat⟩
  else if m2.nonflat ≠ -1 then
    ⟨m1.flat + m2.flat, m1.flat + m2.nonflat⟩
  else
    ⟨m1.flat + m2.flat, -1⟩

def _SuffixLen (measure : Measure) : Int :=
  if measure.nonflat ≠ -1 then measure.nonflat else measure.flat

def AsciiText (string : BigStr) : MeasuredDoc :=
  .mk (.Text string) ⟨len string, -1⟩

def _Break (string : BigStr) : MeasuredDoc :=
  .mk (.Break string) ⟨len string, 0⟩

def _Indent (indent : Int) (mdoc : MeasuredDoc) : MeasuredDoc :=
  .mk (.Indent indent mdoc) mdoc.measure

mutual
/-- The `for` loop of `_Splice`, from the current `out` and the measure
accumulated so far; returns the final `out` and the measure. -/
def _Splice.loop : List MeasuredDoc → List MeasuredDoc → Measure → List MeasuredDoc × Measure
  | [], out, measure => (out, measure)
  | mdoc :: rest, out, measure =>
    _Splice.loop rest (_Splice.item mdoc out) (_ConcatMeasure measure mdoc.measure)
/-- The `switch` in the body of the loop of `_Splice`: a `Concat` is spliced
into `out` (the measure returned by the recursive call is dropped), any other
document is appended. -/
def _Splice.item : MeasuredDoc → List MeasuredDoc → List MeasuredDoc
  | .mk (.Concat child) _, out => (_Splice.loop child out _EmptyMeasure).1
  | .mk (.Break s) m, out => out ++ [.mk (.Break s) m]
  | .mk (.Text s) m, out => out ++ [.mk (.Text s) m]
  | .mk (.Indent k d) m, out => out ++ [.mk (.Indent k d) m]
  | .mk (.Group d) m, out => out ++ [.mk (.Group d) m]
  | .mk (.Flat d) m, out => out ++ [.mk (.Flat d) m]
  | .mk (.IfFlat a b) m, out => out ++ [.mk (.IfFlat a b) m]
end

/-- The function `_Splice(out, mdocs)`: returns the mutated `out` and the measure. -/
def _Splice (out mdocs : List MeasuredDoc) : List MeasuredDoc × Measure :=
  _Splice.loop mdocs out _EmptyMeasure

def _Concat (mdocs : List MeasuredDoc) : MeasuredDoc :=
  let r := _Splice [] mdocs
  .mk (.Concat r.1) r.2

def _Group (mdoc : MeasuredDoc) : MeasuredDoc :=
  .mk (.Group mdoc) mdoc.measure

def _IfFlat (flat_mdoc nonflat_mdoc : MeasuredDoc) : MeasuredDoc :=
  .mk (.IfFlat flat_mdoc nonflat_mdoc) ⟨flat_mdoc.measure.flat, nonflat_mdoc.measure.nonflat⟩

def _Flat (mdoc : MeasuredDoc) : MeasuredDoc :=
  .mk (.Flat mdoc) (_FlattenMeasure mdoc.measure)

/-- The method `PrettyPrinter::_Fits`; `group` is the document inside the `Group`. -/
def _Fits (max_width : Int) (prefix_len : Int) (group : MeasuredDoc)
    (suffix_measure : Measure) : Bool :=
  let measure := _ConcatMeasure (_FlattenMeasure group.measure) suffix_measure
  decide (prefix_len + _SuffixLen measure ≤ max_width)

/-- The local state of `PrintDoc`: the output buffer, `prefix_len` and the
fragment stack (head = top). -/
structure PrinterState where
  buf : BigStr
  prefix_len : Int
  fragments : List DocFragment

/-- The `Concat` case of `PrintDoc`: the reverse iteration pushing one fragment
per child, given the children in reverse order. -/
def PrintDoc.pushConcat (indent : Int) (is_flat : Bool) :
    List MeasuredDoc → Measure → List DocFragment → List DocFragment
  | [], _, fragments => fragments
  | mdoc :: rest, measure, fragments =>
    PrintDoc.pushConcat indent is_flat rest (_ConcatMeasure mdoc.measure measure)
      (⟨mdoc, indent, is_flat, measure⟩ :: fragments)

/-- One iteration of the `while` loop of `PrintDoc` (identity on the empty
stack, where the loop has stopped).  The statistic `max_stack` is never read
and is dropped. -/
def PrintDoc.step (max_width : Int) (st : PrinterState) : PrinterState :=
  match st.fragments with
  | [] => st
  | frag :: fragments =>
    match frag.mdoc.doc with
    | .Text string =>
      ⟨st.buf ++ string, st.prefix_len + frag.mdoc.measure.flat, fragments⟩
    | .Break string =>
      if frag.is_flat then
        ⟨st.buf ++ string, st.prefix_len + frag.mdoc.measure.flat, fragments⟩
      else
        ⟨write_spaces (st.buf ++ ['\n']) frag.indent, frag.indent, fragments⟩
    | .Indent indent mdoc =>
      ⟨st.buf, st.prefix_len,
        ⟨mdoc, frag.indent + indent, frag.is_flat, frag.measure⟩ :: fragments⟩
    | .Concat concat =>
      ⟨st.buf, st.prefix_len,
        PrintDoc.pushConcat frag.indent frag.is_flat concat.reverse frag.measure fragments⟩
    | .Group group =>
      let is_flat := _Fits max_width st.prefix_len group frag.measure
      ⟨st.buf, st.prefix_len, ⟨group, frag.indent, is_flat, frag.measure⟩ :: fragments⟩
    | .IfFlat flat_mdoc nonflat_mdoc =>
      let subdoc := if frag.is_flat then flat_mdoc else nonflat_mdoc
      ⟨st.buf, st.prefix_len, ⟨subdoc, frag.indent, frag.is_flat, frag.measure⟩ :: fragments⟩
    | .Flat mdoc =>
      ⟨st.buf, st.prefix_len, ⟨mdoc, frag.indent, true, frag.measure⟩ :: fragments⟩

/-- The `while (len(fragments) > 0)` loop, cut off after `n` iterations. -/
def PrintDoc.loop (max_width : Int) : Nat → PrinterState → PrinterState
  | 0, st => st
  | n + 1, st =>
    if st.fragments.isEmpty then st else PrintDoc.loop max_width n (PrintDoc.step max_width st)

/-- The state of `PrintDoc` on entry to the loop. -/
def PrintDoc.init (document : MeasuredDoc) : PrinterState :=
  ⟨[], 0, [⟨_Group document, 0, false, _EmptyMeasure⟩]⟩

end pretty

/-! ## `format`: diagnostic counters -/

namespace format

mutual
/-- The function `format::_DocCount`. -/
def _DocCount : doc_t → Nat
  | .Break _ => 1
  | .Text _ => 1
  | .Indent _ d => 1 + _DocCount.mdoc d
  | .Group d => 1 + _DocCount.mdoc d
  | .Flat d => 1 + _DocCount.mdoc d
  | .IfFlat a b => 1 + _DocCount.mdoc a + _DocCount.mdoc b
  | .Concat l => 1 + _DocCount.sum l
/-- The count `_DocCount(d->doc)` of a measured document. -/
def _DocCount.mdoc : MeasuredDoc → Nat
  | .mk d _ => _DocCount d
/-- The `for` loop of the `Concat` case of `_DocCount`. -/
def _DocCount.sum : List MeasuredDoc → Nat
  | [] => 0
  | d :: l => _DocCount.mdoc d + _DocCount.sum l
end

end format

namespace pretty

/-- The method `PrettyPrinter::PrintDoc` on a fresh buffer: the bytes written.  The loop
pops every node of `Group(document)` at most once, so `_DocCount + 1`
iterations suffice to empty the stack (`printDoc_run`). -/
def PrintDoc (max_width : Int) (document : MeasuredDoc) : BigStr :=
  (PrintDoc.loop max_width (format._DocCount document.doc + 1) (PrintDoc.init document)).buf

end pretty

/-! ## `hnode_asdl`: the input trees -/

namespace hnode_asdl

/-- The enumeration `hnode_asdl::color_e`. -/
inductive color_e where
  | TypeName
  | StringConst
  | OtherConst
  | External
  | UserType
deriving DecidableEq

mutual
/-- The sum type `hnode_asdl::hnode_t`.  `unnamed_fields` may be `nullptr` (`none`). -/
inductive hnode_t where
  | AlreadySeen (heap_id : Int)
  | Leaf (s : BigStr) (color : color_e)
  | Array (children : List hnode_t)
  | Record (node_type : BigStr) (left : BigStr) (right : BigStr) (fields : List Field)
      (unnamed_fields : Option (List hnode_t))
/-- The struct `hnode_asdl::Field`. -/
inductive Field where
  | mk (name : BigStr) (val : hnode_t)
end

end hnode_asdl

open hnode_asdl (color_e hnode_t)

/-! ## `j8_lite` -/

/-- Functions of the runtime that the translated sources call but do not
define (`fastfunc::CanOmitQuotes`, `fastfunc::J8EncodeString`,
`mylib::hex_lower`); they are taken as parameters. -/
structure Runtime where
  CanOmitQuotes : BigStr → Bool
  J8EncodeString : BigStr → Int → BigStr
  hex_lower : Int → BigStr

namespace j8_lite

def EncodeString (rt : Runtime) (s : BigStr) (unquoted_ok : Bool) : BigStr :=
  if unquoted_ok && rt.CanOmitQuotes s then s else rt.J8EncodeString s 1

end j8_lite

/-! ## `pp_hnode`: the encoder -/

namespace pp_hnode

open pretty

/-- The configuration held by `HNodeEncoder` (fields of `BaseEncoder` and
`HNodeEncoder`; `visiting` is cleared and never read, and is dropped). -/
structure HNodeEncoder where
  indent : Int
  use_styles : Bool
  max_tabular_width : Int
  type_color : BigStr
  field_color : BigStr

/-- The constructors `BaseEncoder::BaseEncoder` and `HNodeEncoder::HNodeEncoder`. -/
def HNodeEncoder.new : HNodeEncoder :=
  { indent := 4, use_styles := true, max_tabular_width := 22,
    type_color := ansi.YELLOW, field_color := ansi.MAGENTA }

def HNodeEncoder.SetIndent (enc : HNodeEncoder) (indent : Int) : HNodeEncoder :=
  { enc with indent := indent }

def HNodeEncoder.SetUseStyles (enc : HNodeEncoder) (use_styles : Bool) : HNodeEncoder :=
  { enc with use_styles := use_styles }

def HNodeEncoder.SetMaxTabularWidth (enc : HNodeEncoder) (max_tabular_width : Int) :
    HNodeEncoder :=
  { enc with max_tabular_width := max_tabular_width }

/-- A fresh encoder after the three setters: an encoder configuration. -/
def HNodeEncoder.config (indent : Int) (use_styles : Bool) (max_tabular_width : Int) :
    HNodeEncoder :=
  ((HNodeEncoder.new.SetIndent indent).SetUseStyles use_styles).SetMaxTabularWidth
    max_tabular_width

def _Styled (enc : HNodeEncoder) (style : BigStr) (mdoc : MeasuredDoc) : MeasuredDoc :=
  if enc.use_styles then
    _Concat [.mk (.Text style) _EmptyMeasure, mdoc, .mk (.Text ansi.RESET) _EmptyMeasure]
  else
    mdoc

def _StyledAscii (enc : HNodeEncoder) (style : BigStr) (s : BigStr) : MeasuredDoc :=
  let measure : Measure := ⟨len s, -1⟩
  let s := if enc.use_styles then style ++ s ++ ansi.RESET else s
  .mk (.Text s) measure

def _Surrounded (enc : HNodeEncoder) (left : BigStr) (mdoc : MeasuredDoc) (right : BigStr) :
    MeasuredDoc :=
  _Group (_Concat [AsciiText left, _Indent enc.indent (_Concat [_Break [], mdoc]),
    _Break [], AsciiText right])

def _SurroundedAndPrefixed (enc : HNodeEncoder) (left : BigStr) (pfx : MeasuredDoc)
    (sep : BigStr) (mdoc : MeasuredDoc) (right : BigStr) : MeasuredDoc :=
  _Group (_Concat [AsciiText left, pfx, _Indent enc.indent (_Concat [_Break sep, mdoc]),
    _Break [], AsciiText right])

/-- The loop of `_Join`: `i` is the index and `seq` the list built so far. -/
def _Join.loop (sep space : BigStr) : List MeasuredDoc → Nat → List MeasuredDoc → List MeasuredDoc
  | [], _, seq => seq
  | item :: rest, i, seq =>
    let seq := if i ≠ 0 then (seq ++ [AsciiText sep]) ++ [_Break space] else seq
    _Join.loop sep space rest (i + 1) (seq ++ [item])

def _Join (items : List MeasuredDoc) (sep space : BigStr) : MeasuredDoc :=
  _Concat (_Join.loop sep space items 0 [])

/-- The first loop of `_Tabular`: builds `seq` and `max_flat_len`. -/
def _Tabular.loop1 (sep : BigStr) :
    List MeasuredDoc → Nat → List MeasuredDoc → Int → List MeasuredDoc × Int
  | [], _, seq, max_flat_len => (seq, max_flat_len)
  | item :: rest, i, seq, max_flat_len =>
    let seq := if i ≠ 0 then (seq ++ [AsciiText sep]) ++ [_Break [' ']] else seq
    _Tabular.loop1 sep rest (i + 1) (seq ++ [item]) (max_int max_flat_len item.measure.flat)

/-- The second loop of `_Tabular`: builds `tabular_seq`; `n` is `len(items)`. -/
def _Tabular.loop2 (sep : BigStr) (max_flat_len : Int) (n : Nat) :
    List MeasuredDoc → Nat → List MeasuredDoc → List MeasuredDoc
  | [], _, tabular_seq => tabular_seq
  | item :: rest, i, tabular_seq =>
    let tabular_seq := tabular_seq ++ [_Flat item]
    let tabular_seq :=
      if (i : Int) ≠ (n : Int) - 1 then
        let padding := max_flat_len - item.measure.flat + 1
        (tabular_seq ++ [AsciiText sep]) ++ [_Group (_Break (str_repeat [' '] padding))]
      else tabular_seq
    _Tabular.loop2 sep max_flat_len n rest (i + 1) tabular_seq

def _Tabular (enc : HNodeEncoder) (items : List MeasuredDoc) (sep : BigStr) : MeasuredDoc :=
  if items.length = 0 then AsciiText []
  else
    let r := _Tabular.loop1 sep items 0 [] 0
    let non_tabular := _Concat r.1
    let max_flat_len := r.2
    let sep_width := len sep
    if max_flat_len + sep_width + 1 ≤ enc.max_tabular_width then
      let tabular := _Concat (_Tabular.loop2 sep max_flat_len items.length items 0 [])
      _Group (_IfFlat non_tabular tabular)
    else
      non_tabular

/-- The colour chosen for a leaf in `_HNode`. -/
def leafColor : color_e → BigStr
  | .TypeName => ansi.YELLOW
  | .StringConst => ansi.BOLD
  | .OtherConst => ansi.GREEN
  | .External => ansi.BOLD ++ ansi.BLUE
  | .UserType => ansi.GREEN

/-- The tail of the `Record` case of `_HNode`, once `type_name` (`none` for
`nullptr`) and `mdocs` (`none` for `nullptr`) are computed. -/
def _HNode.record (enc : HNodeEncoder) (left right : BigStr) (type_name : Option MeasuredDoc)
    (mdocs : Option (List MeasuredDoc)) : MeasuredDoc :=
  match mdocs with
  | none =>
    let m := [AsciiText left]
    let m := match type_name with
      | some t => m ++ [t]
      | none => m
    let m := m ++ [AsciiText right]
    _Concat m
  | some mdocs =>
    let child := _Join mdocs [] [' ']
    match type_name with
    | some t => _SurroundedAndPrefixed enc left t [' '] child right
    | none => _Surrounded enc left child right

mutual
/-- The method `HNodeEncoder::_HNode`. -/
def _HNode (rt : Runtime) (enc : HNodeEncoder) : hnode_t → MeasuredDoc
  | .AlreadySeen heap_id => AsciiText ("...0x".toList ++ rt.hex_lower heap_id)
  | .Leaf s color =>
    _StyledAscii enc (leafColor color) (j8_lite.EncodeString rt s true)
  | .Array children =>
    if children.length = 0 then AsciiText "[]".toList
    else _Surrounded enc ['['] (_Tabular enc (_HNode.items rt enc children) []) [']']
  | .Record node_type left right fields unnamed_fields =>
    let type_name : Option MeasuredDoc :=
      if node_type.length ≠ 0 then some (_StyledAscii enc enc.type_color node_type) else none
    let mdocs : Option (List MeasuredDoc) :=
      match unnamed_fields with
      | some (u :: us) => some (_HNode.items rt enc (u :: us))
      | _ => if fields.length ≠ 0 then some (_Field.items rt enc fields) else none
    _HNode.record enc left right type_name mdocs
/-- The loops `for item in ...: out.append(self._HNode(item))`. -/
def _HNode.items (rt : Runtime) (enc : HNodeEncoder) : List hnode_t → List MeasuredDoc
  | [] => []
  | item :: rest => _HNode rt enc item :: _HNode.items rt enc rest
/-- The method `HNodeEncoder::_Field`. -/
def _Field (rt : Runtime) (enc : HNodeEncoder) : hnode_asdl.Field → MeasuredDoc
  | .mk name val => _Concat [AsciiText (name ++ [':']), _HNode rt enc val]
/-- The loop `for field in h.fields: mdocs.append(self._Field(field))`. -/
def _Field.items (rt : Runtime) (enc : HNodeEncoder) : List hnode_asdl.Field → List MeasuredDoc
  | [] => []
  | field :: rest => _Field rt enc field :: _Field.items rt enc rest
end

/-- The method `HNodeEncoder::HNode`. -/
def HNode (rt : Runtime) (enc : HNodeEncoder) (h : hnode_t) : MeasuredDoc :=
  _HNode rt enc h

end pp_hnode

/-! ## Specification-level definitions used to state the properties -/

namespace pretty

/-- The state after `n` iterations of the loop body of `PrintDoc`. -/
def PrintDoc.run (max_width : Int) (n : Nat) (st : PrinterState) : PrinterState :=
  (PrintDoc.step max_width)^[n] st

mutual
/-- The in-order sequence of the non-`Concat` documents reached by expanding a
document that is a `Concat` (recursively), or the document itself. -/
def expandConcat : MeasuredDoc → List MeasuredDoc
  | .mk (.Concat l) _ => expandConcats l
  | .mk (.Break s) m => [.mk (.Break s) m]
  | .mk (.Text s) m => [.mk (.Text s) m]
  | .mk (.Indent k d) m => [.mk (.Indent k d) m]
  | .mk (.Group d) m => [.mk (.Group d) m]
  | .mk (.Flat d) m => [.mk (.Flat d) m]
  | .mk (.IfFlat a b) m => [.mk (.IfFlat a b) m]
/-- The expansion of every document of a list, in order. -/
def expandConcats : List MeasuredDoc → List MeasuredDoc
  | [] => []
  | d :: l => expandConcat d ++ expandConcats l
end

/-- Whether the document is a `Concat`. -/
def isConcat : MeasuredDoc → Bool
  | .mk (.Concat _) _ => true
  | _ => false

/-- Whether the document is a `Group`. -/
def isGroup : MeasuredDoc → Bool
  | .mk (.Group _) _ => true
  | _ => false

/-- The measure of a sequence of documents followed by something of measure
`suffix`: `_ConcatMeasure` folded from the right. -/
def suffixOf (l : List MeasuredDoc) (suffix : Measure) : Measure :=
  l.foldr (fun d m => _ConcatMeasure d.measure m) suffix

/-- The measure accumulated by the loop of `_Splice` over a list. -/
def measureOf (l : List MeasuredDoc) : Measure :=
  l.foldl (fun m d => _ConcatMeasure m d.measure) _EmptyMeasure

mutual
/-- Reference renderer: the bytes written for one document and the value of
`prefix_len` afterwards, by recursion on the document.  `Text` writes its
string; `Break` writes its string when flat and a newline plus the indentation
otherwise; `Concat` renders its children in order, each with the measure of
its later siblings and of the parent suffix as suffix; `Group` recomputes
`is_flat` by `_Fits`; `IfFlat` selects by `is_flat`; `Flat` sets `is_flat`. -/
def render (max_width : Int) : MeasuredDoc → Int → Bool → Measure → Int → BigStr × Int
  | .mk (.Text s) m, _, _, _, p => (s, p + m.flat)
  | .mk (.Break s) m, indent, is_flat, _, p =>
    if is_flat then (s, p + m.flat) else ('\n' :: List.replicate indent.toNat ' ', indent)
  | .mk (.Indent k d) _, indent, is_flat, suffix, p =>
    render max_width d (indent + k) is_flat suffix p
  | .mk (.Concat l) _, indent, is_flat, suffix, p =>
    renderList max_width l indent is_flat suffix p
  | .mk (.Group d) _, indent, _, suffix, p =>
    render max_width d indent (_Fits max_width p d suffix) suffix p
  | .mk (.IfFlat a b) _, indent, is_flat, suffix, p =>
    if is_flat then render max_width a indent true suffix p
    else render max_width b indent false suffix p
  | .mk (.Flat d) _, indent, _, suffix, p =>
    render max_width d indent true suffix p
/-- Reference renderer for the children of a `Concat`. -/
def renderList (max_width : Int) : List MeasuredDoc → Int → Bool → Measure → Int → BigStr × Int
  | [], _, _, _, p => ([], p)
  | d :: l, indent, is_flat, suffix, p =>
    let r1 := render max_width d indent is_flat (suffixOf l suffix) p
    let r2 := renderList max_width l indent is_flat suffix r1.2
    (r1.1 ++ r2.1, r2.2)
end

mutual
/-- The bytes of a document laid out flat: every `Text` and `Break` string in
order, taking the flat branch of every `IfFlat`. -/
def flatText : MeasuredDoc → BigStr
  | .mk (.Text s) _ => s
  | .mk (.Break s) _ => s
  | .mk (.Indent _ d) _ => flatText d
  | .mk (.Concat l) _ => flatTexts l
  | .mk (.Group d) _ => flatText d
  | .mk (.IfFlat a _) _ => flatText a
  | .mk (.Flat d) _ => flatText d
/-- The flat text of a sequence of documents. -/
def flatTexts : List MeasuredDoc → BigStr
  | [] => []
  | d :: l => flatText d ++ flatTexts l
end

mutual
/-- All sub-documents of a document, itself included. -/
def subdocs : MeasuredDoc → List MeasuredDoc
  | .mk (.Text s) m => [.mk (.Text s) m]
  | .mk (.Break s) m => [.mk (.Break s) m]
  | .mk (.Indent k d) m => .mk (.Indent k d) m :: subdocs d
  | .mk (.Concat l) m => .mk (.Concat l) m :: subdocsList l
  | .mk (.Group d) m => .mk (.Group d) m :: subdocs d
  | .mk (.IfFlat a b) m => .mk (.IfFlat a b) m :: (subdocs a ++ subdocs b)
  | .mk (.Flat d) m => .mk (.Flat d) m :: subdocs d
/-- All sub-documents of the documents of a list. -/
def subdocsList : List MeasuredDoc → List MeasuredDoc
  | [] => []
  | d :: l => subdocs d ++ subdocsList l
end

end pretty

/-- The property holds of every sub-document. -/
def MeasuredDoc.All (P : MeasuredDoc → Prop) (d : MeasuredDoc) : Prop :=
  ∀ x ∈ pretty.subdocs d, P x

/-- Measure invariant of the data model: `flat` is a width, `nonflat` is a
width or the sentinel `-1`. -/
def Measure.Valid (m : Measure) : Prop := 0 ≤ m.flat ∧ -1 ≤ m.nonflat

/-- A valid measure whose first-line width does not exceed its flat width. -/
def Measure.WF (m : Measure) : Prop := 0 ≤ m.flat ∧ -1 ≤ m.nonflat ∧ m.nonflat ≤ m.flat

namespace pretty

/-- The measure of the node is the one its builder computes from the measures
of its children; a `Text` has met no break and a `Break` is one (the flat width
of a `Text` is left free: a styled text is wider than its measure). -/
def ExactMeasure : MeasuredDoc → Prop
  | .mk (.Text _) m => m.nonflat = -1
  | .mk (.Break _) m => m.nonflat = 0
  | .mk (.Indent _ d) m => m = d.measure
  | .mk (.Concat l) m => m = measureOf l
  | .mk (.Group d) m => m = d.measure
  | .mk (.IfFlat a b) m => m = ⟨a.measure.flat, b.measure.nonflat⟩
  | .mk (.Flat d) m => m = _FlattenMeasure d.measure

/-- The flat width of a `Text` or `Break` is the length of its string. -/
def TrueWidth : MeasuredDoc → Prop
  | .mk (.Text s) m => m.flat = len s
  | .mk (.Break s) m => m.flat = len s
  | _ => True

/-- The string of a `Text` or `Break` node does not contain the byte `c`. -/
def StringAvoids (c : Char) : MeasuredDoc → Prop
  | .mk (.Text s) _ => c ∉ s
  | .mk (.Break s) _ => c ∉ s
  | _ => True

/-- Documents built with the builders `AsciiText`, `_Break`, `_Concat` and
`_Indent`, and with `_Group`, `_IfFlat`, `_Flat` when the corresponding switch
is on. -/
inductive BuiltWith (useGroup useIfFlat useFlat : Bool) : MeasuredDoc → Prop where
  | text (s : BigStr) : BuiltWith useGroup useIfFlat useFlat (AsciiText s)
  | brk (s : BigStr) : BuiltWith useGroup useIfFlat useFlat (_Break s)
  | concat (l : List MeasuredDoc) :
    (∀ d ∈ l, BuiltWith useGroup useIfFlat useFlat d) →
      BuiltWith useGroup useIfFlat useFlat (_Concat l)
  | indent (k : Int) (d : MeasuredDoc) :
    BuiltWith useGroup useIfFlat useFlat d → BuiltWith useGroup useIfFlat useFlat (_Indent k d)
  | group (d : MeasuredDoc) : useGroup = true →
    BuiltWith useGroup useIfFlat useFlat d → BuiltWith useGroup useIfFlat useFlat (_Group d)
  | ifFlat (a b : MeasuredDoc) : useIfFlat = true →
    BuiltWith useGroup useIfFlat useFlat a → BuiltWith useGroup useIfFlat useFlat b →
      BuiltWith useGroup useIfFlat useFlat (_IfFlat a b)
  | flat (d : MeasuredDoc) : useFlat = true →
    BuiltWith useGroup useIfFlat useFlat d → BuiltWith useGroup useIfFlat useFlat (_Flat d)

/-- Documents built with the seven builders of `pretty`. -/
abbrev Built : MeasuredDoc → Prop := BuiltWith true true true

end pretty

namespace pretty

/-- The fragments pushed by the `Concat` case of `PrintDoc` for the children
`l`, top of the stack first. -/
def fragsOf (indent : Int) (is_flat : Bool) : List MeasuredDoc → Measure → List DocFragment
  | [], _ => []
  | d :: l, suffix => ⟨d, indent, is_flat, suffixOf l suffix⟩ :: fragsOf indent is_flat l suffix

end pretty

namespace pretty

/-- Node invariant of the documents of the encoder: a well-formed measure that
is the one the builder computes. -/
def GoodNode (x : MeasuredDoc) : Prop := x.measure.WF ∧ ExactMeasure x

/-- Every node of the document satisfies `GoodNode`. -/
def Good (d : MeasuredDoc) : Prop := d.All GoodNode

/-- Every node of the document has a valid measure, the one its builder
computes. -/
def Sound (d : MeasuredDoc) : Prop := d.All (fun x => x.measure.Valid ∧ ExactMeasure x)

/-- The sum of the flat widths of a sequence of documents. -/
def flatSum (l : List MeasuredDoc) : Int := (l.map (fun d => d.measure.flat)).sum

end pretty

namespace pretty

/-- No sub-document is a `Group`. -/
def GroupFree (d : MeasuredDoc) : Prop := d.All (fun x => isGroup x = false)

/-- No `Text` or `Break` string of the document contains the byte `c`. -/
def Avoids (c : Char) (d : MeasuredDoc) : Prop := d.All (StringAvoids c)

end pretty

namespace pretty

mutual
/-- The document holds a `Break` that no `Group`, `Flat` or `IfFlat` encloses:
laid out in non-flat mode it always starts a new line. -/
def bareBreak : MeasuredDoc → Bool
  | .mk (.Break _) _ => true
  | .mk (.Text _) _ => false
  | .mk (.Indent _ d) _ => bareBreak d
  | .mk (.Concat l) _ => bareBreakAny l
  | .mk (.Group _) _ => false
  | .mk (.IfFlat _ _) _ => false
  | .mk (.Flat _) _ => false
/-- Some document of the list has a bare `Break`. -/
def bareBreakAny : List MeasuredDoc → Bool
  | [] => false
  | d :: l => bareBreak d || bareBreakAny l
end

end pretty

namespace pp_hnode

/-- A non-empty `Array`, or a `Record` with at least one named or unnamed
field. -/
def hasChildren : hnode_t → Bool
  | .Array children => !children.isEmpty
  | .Record _ _ _ fields unnamed_fields =>
    !fields.isEmpty || (match unnamed_fields with
      | some (_ :: _) => true
      | _ => false)
  | _ => false

end pp_hnode

/-- A runtime for evaluating concrete examples: every string may stay unquoted
(so `EncodeString(s, true) = s`) and `hex_lower` gives the lower-case
hexadecimal digits of a non-negative id. -/
def Runtime.sample : Runtime :=
  { CanOmitQuotes := fun _ => true
    J8EncodeString := fun s _ => s
    hex_lower := fun i => Nat.toDigits 16 i.toNat }

instance (m : Measure) : Decidable m.Valid := by
  unfold Measure.Valid; infer_instance

instance (m : Measure) : Decidable m.WF := by
  unfold Measure.WF; infer_instance

instance (c : Char) (d : MeasuredDoc) : Decidable (pretty.StringAvoids c d) := by
  cases d with
  | mk dd m => cases dd <;> unfold pretty.StringAvoids <;> infer_instance

instance (c : Char) (d : MeasuredDoc) : Decidable (pretty.Avoids c d) := by
  unfold pretty.Avoids MeasuredDoc.All; infer_instance

namespace pp_hnode

/-- The value of `mdocs` in the `Record` case of `_HNode`: the encoded unnamed
fields when there are some, else the encoded named fields when there are some,
else `nullptr`. -/
def recordMdocs (rt : Runtime) (enc : HNodeEncoder) (fields : List hnode_asdl.Field)
    (unnamed_fields : Option (List hnode_t)) : Option (List MeasuredDoc) :=
  match unnamed_fields with
  | some (u :: us) => some (_HNode.items rt enc (u :: us))
  | _ => if fields.length ≠ 0 then some (_Field.items rt enc fields) else none

/-- The value of `type_name` in the `Record` case of `_HNode`. -/
def recordTypeName (enc : HNodeEncoder) (node_type : BigStr) : Option MeasuredDoc :=
  if node_type.length ≠ 0 then some (_StyledAscii enc enc.type_color node_type) else none

end pp_hnode

namespace pretty

end pretty

/-! ## Stripping CSI sequences -/

/-- The state of the scan for CSI sequences: in plain text, just after an
`ESC`, or inside a sequence `ESC [ ...` that its final byte has not closed. -/
inductive CsiState where
  | text
  | esc
  | csi
deriving DecidableEq

/-- The final byte of a CSI sequence: `0x40` to `0x7E` (`m` for SGR). -/
def isCsiFinal (c : Char) : Bool := decide (0x40 ≤ c.toNat) && decide (c.toNat ≤ 0x7E)

/-- The scan removing CSI sequences, from a given state. -/
def stripFrom : CsiState → BigStr → BigStr
  | .text, [] => []
  | .text, c :: cs => if c = ansi.ESC then stripFrom .esc cs else c :: stripFrom .text cs
  | .esc, [] => [ansi.ESC]
  | .esc, c :: cs =>
    if c = '[' then stripFrom .csi cs
    else if c = ansi.ESC then ansi.ESC :: stripFrom .esc cs
    else ansi.ESC :: c :: stripFrom .text cs
  | .csi, [] => []
  | .csi, c :: cs => if isCsiFinal c then stripFrom .text cs else stripFrom .csi cs

/-- The string without its CSI sequences: every `ESC [`, the parameter and
intermediate bytes after it and the final byte that closes it are removed; all
other bytes are kept. -/
def stripCSI (s : BigStr) : BigStr := stripFrom .text s

/-- The string is removed whole by `stripCSI`, whatever follows it. -/
def ansi.IsStyle (style : BigStr) : Prop := ∀ rest, stripCSI (style ++ rest) = stripCSI rest

namespace pretty

mutual
/-- The document with the CSI sequences removed from every `Text`; the
measures are kept. -/
def unstyle : MeasuredDoc → MeasuredDoc
  | .mk (.Text s) m => .mk (.Text (stripCSI s)) m
  | .mk (.Break s) m => .mk (.Break s) m
  | .mk (.Indent k d) m => .mk (.Indent k (unstyle d)) m
  | .mk (.Concat l) m => .mk (.Concat (unstyleList l)) m
  | .mk (.Group d) m => .mk (.Group (unstyle d)) m
  | .mk (.IfFlat a b) m => .mk (.IfFlat (unstyle a) (unstyle b)) m
  | .mk (.Flat d) m => .mk (.Flat (unstyle d)) m
/-- The list with `unstyle` applied to every document. -/
def unstyleList : List MeasuredDoc → List MeasuredDoc
  | [] => []
  | d :: l => unstyle d :: unstyleList l
end

/-- Removing the CSI sequences of `t ++ rest` removes those of `t` and those of
`rest`: no sequence is left open at the end of `t`. -/
def Complete (t : BigStr) : Prop :=
  ∀ rest, stripCSI (t ++ rest) = stripCSI t ++ stripCSI rest

/-- A `Text` holds only complete CSI sequences and a `Break` holds no `ESC`. -/
def CleanNode : MeasuredDoc → Prop
  | .mk (.Text s) _ => Complete s
  | .mk (.Break s) _ => ansi.ESC ∉ s
  | _ => True

/-- Every node of the document is clean. -/
def Clean (d : MeasuredDoc) : Prop := d.All CleanNode

end pretty

namespace pp_hnode

mutual
/-- The strings that `_HNode` puts into the document of a tree, before
styling: the back-reference text, the encoded leaf strings, the type names,
the delimiters and the field names. -/
def hnodeStrings (rt : Runtime) : hnode_t → List BigStr
  | .AlreadySeen heap_id => ["...0x".toList ++ rt.hex_lower heap_id]
  | .Leaf s _ => [j8_lite.EncodeString rt s true]
  | .Array children => hnodeStrings.list rt children
  | .Record node_type left right fields unnamed_fields =>
    node_type :: left :: right ::
      (hnodeStrings.fields rt fields ++ hnodeStrings.opt rt unnamed_fields)
/-- The strings of a list of trees. -/
def hnodeStrings.list (rt : Runtime) : List hnode_t → List BigStr
  | [] => []
  | h :: l => hnodeStrings rt h ++ hnodeStrings.list rt l
/-- The strings of a field: its name and those of its value. -/
def hnodeStrings.field (rt : Runtime) : hnode_asdl.Field → List BigStr
  | .mk name val => name :: hnodeStrings rt val
/-- The strings of a list of fields. -/
def hnodeStrings.fields (rt : Runtime) : List hnode_asdl.Field → List BigStr
  | [] => []
  | f :: l => hnodeStrings.field rt f ++ hnodeStrings.fields rt l
/-- The strings of the unnamed fields, when present. -/
def hnodeStrings.opt (rt : Runtime) : Option (List hnode_t) → List BigStr
  | none => []
  | some l => hnodeStrings.list rt l
end

end pp_hnode

/-! ## Definitions for the rendering of particular nodes -/

namespace pretty

mutual
/-- The bytes the printer writes for a document that holds no `Group`, in a
given mode and at a given indentation: a `Text` gives its string, a `Break` its
string when flat and a newline followed by the indentation otherwise, an
`Indent` adds to the indentation, an `IfFlat` selects by the mode and a `Flat`
switches to the flat mode.  (A `Group` is passed through in the current mode:
the function is meant for documents without one.) -/
def layout : MeasuredDoc → Int → Bool → BigStr
  | .mk (.Text s) _, _, _ => s
  | .mk (.Break s) _, indent, is_flat =>
    if is_flat then s else '\n' :: List.replicate indent.toNat ' '
  | .mk (.Indent k d) _, indent, is_flat => layout d (indent + k) is_flat
  | .mk (.Concat l) _, indent, is_flat => layoutList l indent is_flat
  | .mk (.Group d) _, indent, is_flat => layout d indent is_flat
  | .mk (.IfFlat a b) _, indent, is_flat =>
    if is_flat then layout a indent true else layout b indent false
  | .mk (.Flat d) _, indent, _ => layout d indent true
/-- The layout of a sequence of documents. -/
def layoutList : List MeasuredDoc → Int → Bool → BigStr
  | [], _, _ => []
  | d :: l, indent, is_flat => layout d indent is_flat ++ layoutList l indent is_flat
end

end pretty

/-- The strings `e_1 + sep + e_2 + ... + sep + e_n`. -/
def joinWith (sep : BigStr) : List BigStr → BigStr
  | [] => []
  | [a] => a
  | a :: b :: l => a ++ sep ++ joinWith sep (b :: l)

/-- The sum of the lengths of the strings of a list. -/
def totalLen (l : List BigStr) : Int := (l.map len).sum

namespace mylib

/-- Modelled from the spec: `mylib::hex_lower` is not under `src/`; the
specification calls it a collaborator that gives the lower-case hexadecimal
digits of an integer identity.  A negative argument, which the specification
leaves open, is given the digits of zero. -/
def hex_lower (i : Int) : BigStr := Nat.toDigits 16 i.toNat

/-- The lower-case hexadecimal digits. -/
def hexDigits : BigStr := "0123456789abcdef".toList

/-- The value of a hexadecimal digit: its position among the sixteen digits. -/
def hexDigitValue (c : Char) : Nat := hexDigits.indexOf c

/-- The number a string of hexadecimal digits denotes, most significant digit
first. -/
def hexValue (s : BigStr) : Nat := s.foldl (fun acc c => 16 * acc + hexDigitValue c) 0

end mylib

namespace pp_hnode

/-- The `Leaf` nodes with the given strings and colours. -/
def leafNodes (leaves : List (BigStr × color_e)) : List hnode_t :=
  leaves.map (fun x => hnode_t.Leaf x.1 x.2)

/-- The encoded strings `EncodeString(s_i, true)` of a list of leaves. -/
def leafTexts (rt : Runtime) (leaves : List (BigStr × color_e)) : List BigStr :=
  leaves.map (fun x => j8_lite.EncodeString rt x.1 true)

/-- The named fields `(name_i, Leaf v_i)` with the given names, strings and
colours. -/
def leafFields (named : List (BigStr × BigStr × color_e)) : List hnode_asdl.Field :=
  named.map (fun x => hnode_asdl.Field.mk x.1 (hnode_t.Leaf x.2.1 x.2.2))

/-- The strings `name_i + ":" + e_i` of a list of named leaf fields, where
`e_i = EncodeString(v_i, true)`. -/
def fieldTexts (rt : Runtime) (named : List (BigStr × BigStr × color_e)) : List BigStr :=
  named.map (fun x => x.1 ++ [':'] ++ j8_lite.EncodeString rt x.2.1 true)

/-- The document `_Field` builds for a named leaf field when styles are off. -/
def leafFieldDoc (rt : Runtime) (x : BigStr × BigStr × color_e) : MeasuredDoc :=
  pretty._Concat [pretty.AsciiText (x.1 ++ [':']),
    pretty.AsciiText (j8_lite.EncodeString rt x.2.1 true)]

/-- The flat width the specification states for a record with a type name and
named leaf fields: `len(left) + len(t) + len(right)` plus, for every field,
`1 + len(name_i) + 1 + len(e_i)`. -/
def recordFlatWidth (rt : Runtime) (left t right : BigStr)
    (named : List (BigStr × BigStr × color_e)) : Int :=
  len left + len t + len right
    + (named.map (fun x => 1 + len x.1 + 1 + len (j8_lite.EncodeString rt x.2.1 true))).sum

end pp_hnode

/-! ## Definitions for the column form, the escaping and the entry point -/

namespace pp_hnode

/-- The value of `max_flat_len` after the first loop of `_Tabular`: the
largest flat width of an item, and `0` at least. -/
def maxFlatLen (items : List MeasuredDoc) : Int :=
  items.foldl (fun m x => max_int m x.measure.flat) 0

/-- The plain join: the items in order, every item but the first preceded by
`Text(sep)` and `Break(" ")`. -/
def plainSeq (sep : BigStr) : List MeasuredDoc → List MeasuredDoc
  | [] => []
  | [x] => [x]
  | x :: y :: l => x :: pretty.AsciiText sep :: pretty._Break [' '] :: plainSeq sep (y :: l)

/-- The padding `p = max_flat_len - item.flat + 1` of a column cell. -/
def padding (max_flat_len : Int) (item : MeasuredDoc) : Int :=
  max_flat_len - item.measure.flat + 1

/-- The column form: every item wrapped in `Flat`, and every item but the last
followed by `Text(sep)` and a `Group(Break(p spaces))`. -/
def tabularSeq (sep : BigStr) (max_flat_len : Int) : List MeasuredDoc → List MeasuredDoc
  | [] => []
  | [x] => [pretty._Flat x]
  | x :: y :: l =>
    pretty._Flat x :: pretty.AsciiText sep ::
      pretty._Group (pretty._Break (List.replicate (padding max_flat_len x).toNat ' ')) ::
      tabularSeq sep max_flat_len (y :: l)

end pp_hnode

/-- Modelled from the spec: the method `BigStr::replace(old, new)` is not under
`src/`; it is the whole-string replacement of Python, which scans from the left
and replaces every occurrence of `old` (not empty) that does not overlap an
earlier one.  The counter is the number of characters of a matched occurrence
still to be skipped. -/
def BigStr.replace.go (old new : BigStr) : BigStr → Nat → BigStr
  | [], _ => []
  | _ :: cs, k + 1 => BigStr.replace.go old new cs k
  | c :: cs, 0 =>
    if old.isPrefixOf (c :: cs) then new ++ BigStr.replace.go old new cs (old.length - 1)
    else c :: BigStr.replace.go old new cs 0

/-- Modelled from the spec: `s.replace(old, new)`, see `BigStr.replace.go`. -/
def BigStr.replace (s old new : BigStr) : BigStr := BigStr.replace.go old new s 0

namespace cgi

/-- The function `cgi::escape`: three whole-string replacements in sequence. -/
def escape (s : BigStr) : BigStr :=
  let s := BigStr.replace s ['&'] "&amp;".toList
  let s := BigStr.replace s ['<'] "&lt;".toList
  let s := BigStr.replace s ['>'] "&gt;".toList
  s

/-- The substitution of one character stated by the specification. -/
def escapeChar (c : Char) : BigStr :=
  if c = '&' then "&amp;".toList
  else if c = '<' then "&lt;".toList
  else if c = '>' then "&gt;".toList
  else [c]

/-- Per-character escaping, as the specification states it: every character
of the string is mapped independently by `escapeChar`. -/
def escape_spec (s : BigStr) : BigStr := (s.map escapeChar).flatten

end cgi

namespace mylib

/-- Modelled from the spec: the class `mylib::Writer` is not under `src/`; a
writer says whether it is a terminal and collects the strings written to
it. -/
structure Writer where
  isatty : Bool
  written : BigStr

/-- Modelled from the spec: `Writer::write(s)` appends the string to what the
writer holds. -/
def Writer.write (f : Writer) (s : BigStr) : Writer :=
  { f with written := f.written ++ s }

end mylib

namespace format

/-- The body of `format::_HNodePrettyPrint`.  The lines printed to stderr
under `perf_stats` (node and document counts, GC statistics) do not reach the
writer and are dropped.  `PrettyTree`, which turns a document into a tree for
debugging and is not under `src/`, is a parameter; `again` stands for the
nested call `_HNodePrettyPrint(perf_stats, false, p, f)`. -/
def _HNodePrettyPrint.body (rt : Runtime) (PrettyTree : MeasuredDoc → hnode_t)
    (again : hnode_t → mylib.Writer → mylib.Writer) (perf_stats doc_debug : Bool)
    (node : hnode_t) (f : mylib.Writer) (max_width : Int) : mylib.Writer :=
  let enc := pp_hnode.HNodeEncoder.new
  let enc := enc.SetUseStyles f.isatty
  let enc := enc.SetIndent 2
  let d := pp_hnode.HNode rt enc node
  let f := if perf_stats then (if doc_debug then again (PrettyTree d) f else f) else f
  let buf := pretty.PrintDoc max_width d
  let f := f.write buf
  let f := f.write ['\n']
  f

/-- The function `format::_HNodePrettyPrint`: the nested call has
`doc_debug = false`, so it does not call itself again, and it uses the default
`max_width = 80` of the declaration. -/
def _HNodePrettyPrint (rt : Runtime) (PrettyTree : MeasuredDoc → hnode_t)
    (perf_stats doc_debug : Bool) (node : hnode_t) (f : mylib.Writer) (max_width : Int) :
    mylib.Writer :=
  _HNodePrettyPrint.body rt PrettyTree
    (fun p f => _HNodePrettyPrint.body rt PrettyTree (fun _ f => f) perf_stats false p f 80)
    perf_stats doc_debug node f max_width

/-- The function `format::HNodePrettyPrint`. -/
def HNodePrettyPrint (rt : Runtime) (PrettyTree : MeasuredDoc → hnode_t) (node : hnode_t)
    (f : mylib.Writer) (max_width : Int) : mylib.Writer :=
  _HNodePrettyPrint rt PrettyTree false true node f max_width

end format

namespace pretty

/-- The measure a fragment pushed on top of the stack `fs` has to store: the
measure of everything that remains to be printed, which is the empty measure
on the empty stack and otherwise the measure of the top document followed by
what its fragment stores. -/
def below : List DocFragment → Measure
  | [] => _EmptyMeasure
  | l :: _ => _ConcatMeasure l.mdoc.measure l.measure

/-- Every fragment of the stack stores the measure of what lies below it. -/
def SuffixInv : List DocFragment → Prop
  | [] => True
  | u :: fs => u.measure = below fs ∧ SuffixInv fs

end pretty

namespace format

mutual
/-- The function `format::_HNodeCount`. -/
def _HNodeCount : hnode_t → Nat
  | .AlreadySeen _ => 1
  | .Leaf _ _ => 1
  | .Array children => 1 + _HNodeCount.sum children
  | .Record _ _ _ fields unnamed_fields =>
    1 + _HNodeCount.fields fields + _HNodeCount.opt unnamed_fields
/-- The loops `for child in ...: n += _HNodeCount(child)`. -/
def _HNodeCount.sum : List hnode_t → Nat
  | [] => 0
  | child :: rest => _HNodeCount child + _HNodeCount.sum rest
/-- The term `_HNodeCount(field.val)`. -/
def _HNodeCount.field : hnode_asdl.Field → Nat
  | .mk _ val => _HNodeCount val
/-- The loop `for field in h.fields: n += _HNodeCount(field.val)`. -/
def _HNodeCount.fields : List hnode_asdl.Field → Nat
  | [] => 0
  | field :: rest => _HNodeCount.field field + _HNodeCount.fields rest
/-- The loop over `h.unnamed_fields`, skipped when it is `nullptr`. -/
def _HNodeCount.opt : Option (List hnode_t) → Nat
  | none => 0
  | some l => _HNodeCount.sum l
end

end format

/-- The function `int_cmp` of `gc_builtins.h`. -/
def int_cmp (a b : Int) : Int :=
  if a = b then 0 else if a < b then -1 else 1

/-- The function `str_cmp` of `gc_builtins.h`.  `memcmp` of the C library is a
parameter; `std::min(x, y)` is `y` when `y < x` and `x` otherwise. -/
def str_cmp (memcmp : BigStr → BigStr → Int → Int) (a b : BigStr) : Int :=
  let len_a := len a
  let len_b := len b
  let min := if len_b < len_a then len_b else len_a
  if min = 0 then int_cmp len_a len_b
  else
    let comp := memcmp a b min
    if comp = 0 then int_cmp len_a len_b else comp

/-- The function `_cmp` of `gc_builtins.h`. -/
def _cmp (memcmp : BigStr → BigStr → Int → Int) (a b : BigStr) : Bool :=
  decide (str_cmp memcmp a b < 0)

/-- The sign (`-1`, `0` or `1`) of the lexicographic comparison of two byte
strings: the first position where they differ decides, by the values of the
bytes; without one the shorter string is the smaller. -/
def lexSign : BigStr → BigStr → Int
  | [], [] => 0
  | [], _ :: _ => -1
  | _ :: _, [] => 1
  | x :: xs, y :: ys =>
    if x.toNat < y.toNat then -1 else if y.toNat < x.toNat then 1 else lexSign xs ys

/-- The contract of `memcmp` in the C standard: on two buffers of at least `n`
bytes the sign of the result is the sign of the lexicographic comparison of
their first `n` bytes (the value itself is not fixed). -/
def MemcmpSpec (memcmp : BigStr → BigStr → Int → Int) : Prop :=
  ∀ (a b : BigStr) (n : Int), 0 ≤ n → n ≤ len a → n ≤ len b →
    Int.sign (memcmp a b n) = lexSign (a.take n.toNat) (b.take n.toNat)

/-- A `memcmp` that returns the sign itself. -/
def memcmp_sample (a b : BigStr) (n : Int) : Int :=
  lexSign (a.take n.toNat) (b.take n.toNat)

/-- The string without its spaces and newlines. -/
def squeeze (s : BigStr) : BigStr := s.filter (fun c => c != ' ' && c != '\n')

namespace pretty

/-- A `Break` holds only spaces and newlines, and the two branches of an
`IfFlat` have the same flat text up to spaces and newlines. -/
def SteadyNode : MeasuredDoc → Prop
  | .mk (.Break s) _ => squeeze s = []
  | .mk (.IfFlat a b) _ => squeeze (flatText a) = squeeze (flatText b)
  | _ => True

/-- Every node of the document is steady: the layout can change only spaces
and newlines. -/
def Steady (d : MeasuredDoc) : Prop := d.All SteadyNode

end pretty

/-! ## The measure additions as 32-bit `int` additions -/

namespace pretty

namespace int32

/-- The value an `int` takes when the mathematical result of an addition is
`x`: the compiled program wraps around modulo `2^32` into
`-2^31 .. 2^31 - 1`. -/
def wrap (x : Int) : Int := (x + 2147483648) % 4294967296 - 2147483648

/-- The function `_ConcatMeasure` with its additions as they are computed on
`int`.  (`pretty._ConcatMeasure` is the same function over the integers; the
two agree as long as no sum leaves the range of `int`.) -/
def _ConcatMeasure (m1 m2 : Measure) : Measure :=
  if m1.nonflat ≠ -1 then
    ⟨wrap (m1.flat + m2.flat), m1.nonflat⟩
  else if m2.nonflat ≠ -1 then
    ⟨wrap (m1.flat + m2.flat), wrap (m1.flat + m2.nonflat)⟩
  else
    ⟨wrap (m1.flat + m2.flat), -1⟩

mutual
/-- The `for` loop of `_Splice`, with the `int` additions of
`int32._ConcatMeasure`. -/
def _Splice.loop : List MeasuredDoc → List MeasuredDoc → Measure → List MeasuredDoc × Measure
  | [], out, measure => (out, measure)
  | mdoc :: rest, out, measure =>
    _Splice.loop rest (_Splice.item mdoc out) (int32._ConcatMeasure measure mdoc.measure)
/-- The `switch` in the body of the loop of `_Splice`. -/
def _Splice.item : MeasuredDoc → List MeasuredDoc → List MeasuredDoc
  | .mk (.Concat child) _, out => (_Splice.loop child out _EmptyMeasure).1
  | .mk (.Break s) m, out => out ++ [.mk (.Break s) m]
  | .mk (.Text s) m, out => out ++ [.mk (.Text s) m]
  | .mk (.Indent k d) m, out => out ++ [.mk (.Indent k d) m]
  | .mk (.Group d) m, out => out ++ [.mk (.Group d) m]
  | .mk (.Flat d) m, out => out ++ [.mk (.Flat d) m]
  | .mk (.IfFlat a b) m, out => out ++ [.mk (.IfFlat a b) m]
end

/-- The function `_Splice(out, mdocs)` on `int`. -/
def _Splice (out mdocs : List MeasuredDoc) : List MeasuredDoc × Measure :=
  int32._Splice.loop mdocs out _EmptyMeasure

/-- The function `_Concat` on `int`. -/
def _Concat (mdocs : List MeasuredDoc) : MeasuredDoc :=
  let r := int32._Splice [] mdocs
  .mk (.Concat r.1) r.2

/-- A document of `2 k + 1` builder nodes whose flat width doubles at every
level: a one-character `Text`, and `k` times a `Group` of the `Concat` of the
previous document with itself. -/
def doubled : Nat → MeasuredDoc
  | 0 => AsciiText ['a']
  | k + 1 =>
    let d := doubled k
    _Group (int32._Concat [d, d])

end int32

end pretty

/-! # Theorems -/

/-! ## Basic facts -/

namespace pretty

@[simp] theorem doc_mk (d : doc_t) (m : Measure) : (MeasuredDoc.mk d m).doc = d := rfl

@[simp] theorem measure_mk (d : doc_t) (m : Measure) : (MeasuredDoc.mk d m).measure = m := rfl

/-- Induction over documents and lists of documents together. -/
theorem doc_induction {P : MeasuredDoc → Prop} {Q : List MeasuredDoc → Prop}
    (hBreak : ∀ s m, P (.mk (.Break s) m))
    (hText : ∀ s m, P (.mk (.Text s) m))
    (hIndent : ∀ k d m, P d → P (.mk (.Indent k d) m))
    (hGroup : ∀ d m, P d → P (.mk (.Group d) m))
    (hFlat : ∀ d m, P d → P (.mk (.Flat d) m))
    (hIfFlat : ∀ a b m, P a → P b → P (.mk (.IfFlat a b) m))
    (hConcat : ∀ l m, Q l → P (.mk (.Concat l) m))
    (hNil : Q [])
    (hCons : ∀ d l, P d → Q l → Q (d :: l)) :
    (∀ d, P d) ∧ (∀ l, Q l) := by
  constructor
  · intro d
    exact @MeasuredDoc.rec (fun d => ∀ m, P (.mk d m)) P Q
      (fun s m => hBreak s m) (fun s m => hText s m)
      (fun k d ih m => hIndent k d m ih) (fun d ih m => hGroup d m ih)
      (fun d ih m => hFlat d m ih) (fun a b iha ihb m => hIfFlat a b m iha ihb)
      (fun l ih m => hConcat l m ih) (fun d m ih => ih m) hNil
      (fun d l ihd ihl => hCons d l ihd ihl) d
  · intro l
    exact @doc_t.rec_1 (fun d => ∀ m, P (.mk d m)) P Q
      (fun s m => hBreak s m) (fun s m => hText s m)
      (fun k d ih m => hIndent k d m ih) (fun d ih m => hGroup d m ih)
      (fun d ih m => hFlat d m ih) (fun a b iha ihb m => hIfFlat a b m iha ihb)
      (fun l ih m => hConcat l m ih) (fun d m ih => ih m) hNil
      (fun d l ihd ihl => hCons d l ihd ihl) l

/-- Induction over documents, with the hypothesis for every child of a `Concat`. -/
theorem doc_induction_mem {P : MeasuredDoc → Prop}
    (hBreak : ∀ s m, P (.mk (.Break s) m))
    (hText : ∀ s m, P (.mk (.Text s) m))
    (hIndent : ∀ k d m, P d → P (.mk (.Indent k d) m))
    (hGroup : ∀ d m, P d → P (.mk (.Group d) m))
    (hFlat : ∀ d m, P d → P (.mk (.Flat d) m))
    (hIfFlat : ∀ a b m, P a → P b → P (.mk (.IfFlat a b) m))
    (hConcat : ∀ l m, (∀ c ∈ l, P c) → P (.mk (.Concat l) m)) :
    ∀ d, P d :=
  (doc_induction (Q := fun l => ∀ c ∈ l, P c) hBreak hText hIndent hGroup hFlat hIfFlat hConcat
    (by intro c hc; cases hc)
    (by
      intro d l hd hl c hc
      rcases List.mem_cons.1 hc with h | h
      · exact h ▸ hd
      · exact hl c h)).1

/-! ### Measure algebra -/

theorem concat_empty_left (a : Measure) : _ConcatMeasure _EmptyMeasure a = a := by
  cases a with
  | mk f n =>
    by_cases h : n = -1
    · simp [_ConcatMeasure, _EmptyMeasure, h]
    · simp [_ConcatMeasure, _EmptyMeasure, h]

theorem concat_empty_right (a : Measure) : _ConcatMeasure a _EmptyMeasure = a := by
  cases a with
  | mk f n =>
    by_cases h : n = -1
    · simp [_ConcatMeasure, _EmptyMeasure, h]
    · simp [_ConcatMeasure, _EmptyMeasure, h]

theorem concat_flat (a b : Measure) : (_ConcatMeasure a b).flat = a.flat + b.flat := by
  unfold _ConcatMeasure
  split_ifs <;> rfl

theorem concat_assoc (a b c : Measure) (ha : a.Valid) (hb : b.Valid) (hc : c.Valid) :
    _ConcatMeasure (_ConcatMeasure a b) c = _ConcatMeasure a (_ConcatMeasure b c) := by
  cases a with
  | mk fa na =>
  cases b with
  | mk fb nb =>
  cases c with
  | mk fc nc =>
    simp only [Measure.Valid] at ha hb hc
    by_cases h1 : na = -1 <;> by_cases h2 : nb = -1 <;> by_cases h3 : nc = -1 <;>
      simp [_ConcatMeasure, h1, h2, h3, add_assoc]
    · rw [if_neg (by omega)]
    · intro h; omega
    · intro h; omega

theorem concat_valid (a b : Measure) (ha : a.Valid) (hb : b.Valid) :
    (_ConcatMeasure a b).Valid := by
  cases a with
  | mk fa na =>
  cases b with
  | mk fb nb =>
    simp only [Measure.Valid] at ha hb ⊢
    unfold _ConcatMeasure
    split_ifs <;> simp <;> omega

theorem concat_wf (a b : Measure) (ha : a.WF) (hb : b.WF) : (_ConcatMeasure a b).WF := by
  cases a with
  | mk fa na =>
  cases b with
  | mk fb nb =>
    simp only [Measure.WF] at ha hb ⊢
    unfold _ConcatMeasure
    split_ifs <;> simp <;> omega

theorem wf_valid (a : Measure) (ha : a.WF) : a.Valid := ⟨ha.1, ha.2.1⟩

theorem empty_wf : _EmptyMeasure.WF := by simp [Measure.WF, _EmptyMeasure]

theorem empty_valid : _EmptyMeasure.Valid := by simp [Measure.Valid, _EmptyMeasure]

/-- With a well-formed first measure, the suffix length of a concatenation is at
most the flat width of the first part plus the suffix length of the rest. -/
theorem suffixLen_concat_le (m s : Measure) (hm : m.WF) (hs : s.Valid) :
    _SuffixLen (_ConcatMeasure m s) ≤ m.flat + _SuffixLen s := by
  cases m with
  | mk fm nm =>
  cases s with
  | mk fs ns =>
    simp only [Measure.WF, Measure.Valid] at hm hs
    unfold _ConcatMeasure _SuffixLen
    by_cases h1 : nm = -1 <;> by_cases h2 : ns = -1 <;> simp [h1, h2] <;>
      (try split_ifs) <;> omega

/-- The suffix length after a flattened measure. -/
theorem suffixLen_flatten_concat (m s : Measure) (hm : 0 ≤ m.flat) (hs : s.Valid) :
    _SuffixLen (_ConcatMeasure (_FlattenMeasure m) s) = m.flat + _SuffixLen s := by
  cases m with
  | mk fm nm =>
  cases s with
  | mk fs ns =>
    simp only [Measure.Valid] at hm hs
    unfold _ConcatMeasure _SuffixLen _FlattenMeasure
    by_cases h2 : ns = -1 <;> simp [h2]
    omega

theorem fits_iff (W p : Int) (g : MeasuredDoc) (s : Measure) (hg : 0 ≤ g.measure.flat)
    (hs : s.Valid) : _Fits W p g s = true ↔ p + g.measure.flat + _SuffixLen s ≤ W := by
  unfold _Fits
  simp only [decide_eq_true_eq]
  rw [suffixLen_flatten_concat _ _ hg hs]
  omega

end pretty

/-! ## The loop of `PrintDoc` and the reference renderer -/

namespace pretty

theorem run_zero (W : Int) (st : PrinterState) : PrintDoc.run W 0 st = st := rfl

theorem run_succ (W : Int) (n : Nat) (st : PrinterState) :
    PrintDoc.run W (n + 1) st = PrintDoc.run W n (PrintDoc.step W st) := by
  simp [PrintDoc.run, Function.iterate_succ_apply]

theorem run_succ_last (W : Int) (n : Nat) (st : PrinterState) :
    PrintDoc.run W (n + 1) st = PrintDoc.step W (PrintDoc.run W n st) := by
  simp [PrintDoc.run, Function.iterate_succ_apply']

theorem run_add (W : Int) (m n : Nat) (st : PrinterState) :
    PrintDoc.run W (m + n) st = PrintDoc.run W n (PrintDoc.run W m st) := by
  simp only [PrintDoc.run]
  rw [Nat.add_comm, Function.iterate_add_apply]

theorem step_of_nil (W : Int) (st : PrinterState) (h : st.fragments = []) :
    PrintDoc.step W st = st := by
  unfold PrintDoc.step
  rw [h]

theorem run_of_nil (W : Int) (n : Nat) (st : PrinterState) (h : st.fragments = []) :
    PrintDoc.run W n st = st := by
  induction n with
  | zero => rfl
  | succ n ih => rw [run_succ, step_of_nil W st h, ih]

/-- The guarded loop is the iteration of the loop body. -/
theorem loop_eq_run (W : Int) (n : Nat) (st : PrinterState) :
    PrintDoc.loop W n st = PrintDoc.run W n st := by
  induction n generalizing st with
  | zero => rfl
  | succ n ih =>
    rw [PrintDoc.loop, run_succ]
    by_cases h : st.fragments.isEmpty
    · rw [if_pos h]
      have h2 : st.fragments = [] := List.isEmpty_iff.1 h
      rw [step_of_nil W st h2, run_of_nil W n st h2]
    · rw [if_neg h, ih]

theorem suffixOf_append (a b : List MeasuredDoc) (s : Measure) :
    suffixOf (a ++ b) s = suffixOf a (suffixOf b s) := by
  simp [suffixOf, List.foldr_append]

theorem fragsOf_append (indent : Int) (fl : Bool) (a b : List MeasuredDoc) (s : Measure) :
    fragsOf indent fl (a ++ b) s = fragsOf indent fl a (suffixOf b s) ++ fragsOf indent fl b s := by
  induction a with
  | nil => rfl
  | cons d a ih =>
    show fragsOf indent fl (d :: (a ++ b)) s = _
    simp only [fragsOf, ih, suffixOf_append, List.cons_append]

theorem pushConcat_eq (indent : Int) (fl : Bool) (r : List MeasuredDoc) (s : Measure)
    (F : List DocFragment) :
    PrintDoc.pushConcat indent fl r s F = fragsOf indent fl r.reverse s ++ F := by
  induction r generalizing s F with
  | nil => rfl
  | cons x r ih =>
    rw [PrintDoc.pushConcat, ih, List.reverse_cons, fragsOf_append]
    simp [fragsOf, suffixOf]

theorem step_concat (W : Int) (buf : BigStr) (p : Int) (l : List MeasuredDoc) (m : Measure)
    (indent : Int) (fl : Bool) (suf : Measure) (rest : List DocFragment) :
    PrintDoc.step W ⟨buf, p, ⟨.mk (.Concat l) m, indent, fl, suf⟩ :: rest⟩ =
      ⟨buf, p, fragsOf indent fl l suf ++ rest⟩ := by
  simp [PrintDoc.step, pushConcat_eq]

/-- Small-step and big-step agree: the loop, started with a fragment on top of
the stack, pops it and everything it pushes in at most `_DocCount` iterations,
having written what the reference renderer gives. -/
theorem run_render (W : Int) :
    (∀ d : MeasuredDoc, ∀ (indent : Int) (fl : Bool) (suf : Measure) (buf : BigStr) (p : Int)
      (rest : List DocFragment), ∃ n, 1 ≤ n ∧ n ≤ format._DocCount.mdoc d ∧
        PrintDoc.run W n ⟨buf, p, ⟨d, indent, fl, suf⟩ :: rest⟩ =
          ⟨buf ++ (render W d indent fl suf p).1, (render W d indent fl suf p).2, rest⟩) ∧
    (∀ l : List MeasuredDoc, ∀ (indent : Int) (fl : Bool) (suf : Measure) (buf : BigStr) (p : Int)
      (rest : List DocFragment), ∃ n, n ≤ format._DocCount.sum l ∧
        PrintDoc.run W n ⟨buf, p, fragsOf indent fl l suf ++ rest⟩ =
          ⟨buf ++ (renderList W l indent fl suf p).1, (renderList W l indent fl suf p).2,
            rest⟩) := by
  apply doc_induction
  · intro s m indent fl suf buf p rest
    refine ⟨1, le_refl _, ?_, ?_⟩
    · simp [format._DocCount.mdoc, format._DocCount]
    · cases fl <;> simp [PrintDoc.run, PrintDoc.step, render, write_spaces]
  · intro s m indent fl suf buf p rest
    refine ⟨1, le_refl _, ?_, ?_⟩
    · simp [format._DocCount.mdoc, format._DocCount]
    · simp [PrintDoc.run, PrintDoc.step, render]
  · intro k d m ih indent fl suf buf p rest
    obtain ⟨n, _, h2, h3⟩ := ih (indent + k) fl suf buf p rest
    refine ⟨n + 1, by omega, ?_, ?_⟩
    · simp only [format._DocCount.mdoc, format._DocCount] at h2 ⊢; omega
    · rw [run_succ]
      simpa [PrintDoc.step, render] using h3
  · intro d m ih indent fl suf buf p rest
    obtain ⟨n, _, h2, h3⟩ := ih indent (_Fits W p d suf) suf buf p rest
    refine ⟨n + 1, by omega, ?_, ?_⟩
    · simp only [format._DocCount.mdoc, format._DocCount] at h2 ⊢; omega
    · rw [run_succ]
      simpa [PrintDoc.step, render] using h3
  · intro d m ih indent fl suf buf p rest
    obtain ⟨n, _, h2, h3⟩ := ih indent true suf buf p rest
    refine ⟨n + 1, by omega, ?_, ?_⟩
    · simp only [format._DocCount.mdoc, format._DocCount] at h2 ⊢; omega
    · rw [run_succ]
      simpa [PrintDoc.step, render] using h3
  · intro a b m iha ihb indent fl suf buf p rest
    cases fl with
    | true =>
      obtain ⟨n, _, h2, h3⟩ := iha indent true suf buf p rest
      refine ⟨n + 1, by omega, ?_, ?_⟩
      · simp only [format._DocCount.mdoc, format._DocCount] at h2 ⊢; omega
      · rw [run_succ]
        simpa [PrintDoc.step, render] using h3
    | false =>
      obtain ⟨n, _, h2, h3⟩ := ihb indent false suf buf p rest
      refine ⟨n + 1, by omega, ?_, ?_⟩
      · simp only [format._DocCount.mdoc, format._DocCount] at h2 ⊢; omega
      · rw [run_succ]
        simpa [PrintDoc.step, render] using h3
  · intro l m ih indent fl suf buf p rest
    obtain ⟨n, h2, h3⟩ := ih indent fl suf buf p rest
    refine ⟨n + 1, by omega, ?_, ?_⟩
    · simp only [format._DocCount.mdoc, format._DocCount] at h2 ⊢; omega
    · rw [run_succ, step_concat]
      simpa [render] using h3
  · intro indent fl suf buf p rest
    exact ⟨0, Nat.zero_le _, by simp [fragsOf, renderList, run_zero]⟩
  · intro d l ihd ihl indent fl suf buf p rest
    obtain ⟨n1, _, h2, h3⟩ := ihd indent fl (suffixOf l suf) buf p
      (fragsOf indent fl l suf ++ rest)
    obtain ⟨n2, k2, k3⟩ := ihl indent fl suf (buf ++ (render W d indent fl (suffixOf l suf) p).1)
      (render W d indent fl (suffixOf l suf) p).2 rest
    refine ⟨n1 + n2, ?_, ?_⟩
    · simp only [format._DocCount.sum]; omega
    · rw [run_add]
      simp only [fragsOf, List.cons_append]
      rw [h3, k3]
      simp [renderList, List.append_assoc]

/-- The loop of `PrintDoc` empties the fragment stack within `_DocCount + 1`
iterations, and the bytes written are those of the reference renderer started
on `Group(document)` with indentation 0, `is_flat = false`, the empty suffix
and `prefix_len = 0`. -/
theorem printDoc_run (W : Int) (d : MeasuredDoc) :
    ∃ n, 1 ≤ n ∧ n ≤ format._DocCount d.doc + 1 ∧
      PrintDoc.run W n (PrintDoc.init d) =
        ⟨(render W (_Group d) 0 false _EmptyMeasure 0).1,
          (render W (_Group d) 0 false _EmptyMeasure 0).2, []⟩ := by
  obtain ⟨n, h1, h2, h3⟩ := (run_render W).1 (_Group d) 0 false _EmptyMeasure [] 0 []
  refine ⟨n, h1, ?_, ?_⟩
  · cases d with
    | mk dd m =>
      simp only [_Group, format._DocCount.mdoc, format._DocCount, doc_mk] at h2 ⊢
      omega
  · simpa [PrintDoc.init] using h3

theorem run_stable (W : Int) (n m : Nat) (st : PrinterState) (hnm : n ≤ m)
    (h : (PrintDoc.run W n st).fragments = []) : PrintDoc.run W m st = PrintDoc.run W n st := by
  obtain ⟨k, rfl⟩ := Nat.exists_eq_add_of_le hnm
  rw [run_add, run_of_nil W k _ h]

theorem PrintDoc_eq_render (W : Int) (d : MeasuredDoc) :
    PrintDoc W d = (render W (_Group d) 0 false _EmptyMeasure 0).1 := by
  obtain ⟨n, _, h2, h3⟩ := printDoc_run W d
  unfold PrintDoc
  rw [loop_eq_run, run_stable W n _ _ h2 (by rw [h3]), h3]

end pretty

/-! ## `_Splice` and `_Concat` -/

namespace pretty

theorem measureOf_foldl (l : List MeasuredDoc) (m : Measure) :
    l.foldl (fun m d => _ConcatMeasure m d.measure) (_ConcatMeasure _EmptyMeasure m) =
      l.foldl (fun m d => _ConcatMeasure m d.measure) m := by
  rw [concat_empty_left]

/-- What `_Splice` computes: the expansion is appended to `out`, and the measure
is the left fold of `_ConcatMeasure` over the measures of `mdocs` themselves. -/
theorem splice_spec :
    (∀ d : MeasuredDoc, ∀ out, _Splice.item d out = out ++ expandConcat d) ∧
    (∀ l : List MeasuredDoc, ∀ out m, _Splice.loop l out m =
      (out ++ expandConcats l, l.foldl (fun m d => _ConcatMeasure m d.measure) m)) := by
  apply doc_induction
  · intro s m out; simp [_Splice.item, expandConcat]
  · intro s m out; simp [_Splice.item, expandConcat]
  · intro k d m _ out; simp [_Splice.item, expandConcat]
  · intro d m _ out; simp [_Splice.item, expandConcat]
  · intro d m _ out; simp [_Splice.item, expandConcat]
  · intro a b m _ _ out; simp [_Splice.item, expandConcat]
  · intro l m ih out
    simp [_Splice.item, expandConcat, ih]
  · intro out m; simp [_Splice.loop, expandConcats]
  · intro d l ihd ihl out m
    rw [_Splice.loop, ihd, ihl]
    simp [expandConcats, List.append_assoc]

theorem concat_eq (l : List MeasuredDoc) :
    _Concat l = .mk (.Concat (expandConcats l)) (measureOf l) := by
  simp [_Concat, _Splice, splice_spec.2, measureOf]

theorem expand_no_concat :
    (∀ d : MeasuredDoc, ∀ c ∈ expandConcat d, isConcat c = false) ∧
    (∀ l : List MeasuredDoc, ∀ c ∈ expandConcats l, isConcat c = false) := by
  apply doc_induction
  · intro s m c hc; simp [expandConcat] at hc; subst hc; rfl
  · intro s m c hc; simp [expandConcat] at hc; subst hc; rfl
  · intro k d m _ c hc; simp [expandConcat] at hc; subst hc; rfl
  · intro d m _ c hc; simp [expandConcat] at hc; subst hc; rfl
  · intro d m _ c hc; simp [expandConcat] at hc; subst hc; rfl
  · intro a b m _ _ c hc; simp [expandConcat] at hc; subst hc; rfl
  · intro l m ih c hc
    rw [expandConcat] at hc
    exact ih c hc
  · intro c hc; simp [expandConcats] at hc
  · intro d l ihd ihl c hc
    rw [expandConcats, List.mem_append] at hc
    rcases hc with h | h
    · exact ihd c h
    · exact ihl c h

theorem expand_of_not_concat (d : MeasuredDoc) (h : isConcat d = false) :
    expandConcat d = [d] := by
  cases d with
  | mk dd m =>
    cases dd <;> simp [expandConcat, isConcat] at h ⊢

theorem expands_of_no_concat (l : List MeasuredDoc) (h : ∀ c ∈ l, isConcat c = false) :
    expandConcats l = l := by
  induction l with
  | nil => rfl
  | cons d l ih =>
    rw [expandConcats, expand_of_not_concat d (h d (List.mem_cons_self _ _)),
      ih (fun c hc => h c (List.mem_cons_of_mem _ hc))]
    rfl

theorem expands_append (a b : List MeasuredDoc) :
    expandConcats (a ++ b) = expandConcats a ++ expandConcats b := by
  induction a with
  | nil => rfl
  | cons d a ih =>
    show expandConcats (d :: (a ++ b)) = _
    simp [expandConcats, ih, List.append_assoc]

theorem expands_idem (l : List MeasuredDoc) : expandConcats (expandConcats l) = expandConcats l :=
  expands_of_no_concat _ (expand_no_concat.2 l)

theorem expand_concat (l : List MeasuredDoc) : expandConcat (_Concat l) = expandConcats l := by
  rw [concat_eq, expandConcat, expands_idem]

theorem measure_concat (l : List MeasuredDoc) : (_Concat l).measure = measureOf l := by
  rw [concat_eq]; rfl

end pretty

/-! ## Sub-documents -/

namespace pretty

theorem self_mem_subdocs (d : MeasuredDoc) : d ∈ subdocs d := by
  cases d with
  | mk dd m => cases dd <;> simp [subdocs]

theorem mem_subdocsList (l : List MeasuredDoc) (x : MeasuredDoc) :
    x ∈ subdocsList l ↔ ∃ c ∈ l, x ∈ subdocs c := by
  induction l with
  | nil => simp [subdocsList]
  | cons d l ih => simp [subdocsList, ih]

theorem subdocs_trans (y : MeasuredDoc) :
    (∀ d : MeasuredDoc, ∀ x, x ∈ subdocs d → y ∈ subdocs x → y ∈ subdocs d) ∧
    (∀ l : List MeasuredDoc, ∀ x, x ∈ subdocsList l → y ∈ subdocs x → y ∈ subdocsList l) := by
  apply doc_induction
  · intro s m x hx hy
    simp only [subdocs, List.mem_singleton] at hx
    subst hx; exact hy
  · intro s m x hx hy
    simp only [subdocs, List.mem_singleton] at hx
    subst hx; exact hy
  · intro k d m ih x hx hy
    simp only [subdocs, List.mem_cons] at hx
    rcases hx with h | h
    · subst h; exact hy
    · simp only [subdocs, List.mem_cons]; exact Or.inr (ih x h hy)
  · intro d m ih x hx hy
    simp only [subdocs, List.mem_cons] at hx
    rcases hx with h | h
    · subst h; exact hy
    · simp only [subdocs, List.mem_cons]; exact Or.inr (ih x h hy)
  · intro d m ih x hx hy
    simp only [subdocs, List.mem_cons] at hx
    rcases hx with h | h
    · subst h; exact hy
    · simp only [subdocs, List.mem_cons]; exact Or.inr (ih x h hy)
  · intro a b m iha ihb x hx hy
    simp only [subdocs, List.mem_cons, List.mem_append] at hx
    rcases hx with h | h | h
    · subst h; exact hy
    · simp only [subdocs, List.mem_cons, List.mem_append]; exact Or.inr (Or.inl (iha x h hy))
    · simp only [subdocs, List.mem_cons, List.mem_append]; exact Or.inr (Or.inr (ihb x h hy))
  · intro l m ih x hx hy
    simp only [subdocs, List.mem_cons] at hx
    rcases hx with h | h
    · subst h; exact hy
    · simp only [subdocs, List.mem_cons]; exact Or.inr (ih x h hy)
  · intro x hx; simp [subdocsList] at hx
  · intro d l ihd ihl x hx hy
    simp only [subdocsList, List.mem_append] at hx ⊢
    rcases hx with h | h
    · exact Or.inl (ihd x h hy)
    · exact Or.inr (ihl x h hy)

theorem expand_subdocs :
    (∀ d : MeasuredDoc, ∀ x ∈ expandConcat d, x ∈ subdocs d) ∧
    (∀ l : List MeasuredDoc, ∀ x ∈ expandConcats l, x ∈ subdocsList l) := by
  apply doc_induction
  · intro s m x hx; simpa [expandConcat, subdocs] using hx
  · intro s m x hx; simpa [expandConcat, subdocs] using hx
  · intro k d m _ x hx
    simp only [expandConcat, List.mem_singleton] at hx
    subst hx; exact self_mem_subdocs _
  · intro d m _ x hx
    simp only [expandConcat, List.mem_singleton] at hx
    subst hx; exact self_mem_subdocs _
  · intro d m _ x hx
    simp only [expandConcat, List.mem_singleton] at hx
    subst hx; exact self_mem_subdocs _
  · intro a b m _ _ x hx
    simp only [expandConcat, List.mem_singleton] at hx
    subst hx; exact self_mem_subdocs _
  · intro l m ih x hx
    rw [expandConcat] at hx
    simp only [subdocs, List.mem_cons]
    exact Or.inr (ih x hx)
  · intro x hx; simp [expandConcats] at hx
  · intro d l ihd ihl x hx
    simp only [expandConcats, subdocsList, List.mem_append] at hx ⊢
    rcases hx with h | h
    · exact Or.inl (ihd x h)
    · exact Or.inr (ihl x h)

end pretty

namespace MeasuredDoc

open pretty

theorem All.self {P : MeasuredDoc → Prop} {d : MeasuredDoc} (h : d.All P) : P d :=
  h d (self_mem_subdocs d)

theorem All.mono {P Q : MeasuredDoc → Prop} {d : MeasuredDoc} (h : d.All P)
    (hPQ : ∀ x, P x → Q x) : d.All Q :=
  fun x hx => hPQ x (h x hx)

theorem All.sub {P : MeasuredDoc → Prop} {d x : MeasuredDoc} (h : d.All P)
    (hx : x ∈ subdocs d) : x.All P :=
  fun y hy => h y ((subdocs_trans y).1 d x hx hy)

theorem all_text {P : MeasuredDoc → Prop} (s : BigStr) (m : Measure) :
    (MeasuredDoc.mk (.Text s) m).All P ↔ P (.mk (.Text s) m) := by
  simp [MeasuredDoc.All, subdocs]

theorem all_break {P : MeasuredDoc → Prop} (s : BigStr) (m : Measure) :
    (MeasuredDoc.mk (.Break s) m).All P ↔ P (.mk (.Break s) m) := by
  simp [MeasuredDoc.All, subdocs]

theorem all_indent {P : MeasuredDoc → Prop} (k : Int) (d : MeasuredDoc) (m : Measure) :
    (MeasuredDoc.mk (.Indent k d) m).All P ↔ P (.mk (.Indent k d) m) ∧ d.All P := by
  simp [MeasuredDoc.All, subdocs]

theorem all_group {P : MeasuredDoc → Prop} (d : MeasuredDoc) (m : Measure) :
    (MeasuredDoc.mk (.Group d) m).All P ↔ P (.mk (.Group d) m) ∧ d.All P := by
  simp [MeasuredDoc.All, subdocs]

theorem all_flat {P : MeasuredDoc → Prop} (d : MeasuredDoc) (m : Measure) :
    (MeasuredDoc.mk (.Flat d) m).All P ↔ P (.mk (.Flat d) m) ∧ d.All P := by
  simp [MeasuredDoc.All, subdocs]

theorem all_ifFlat {P : MeasuredDoc → Prop} (a b : MeasuredDoc) (m : Measure) :
    (MeasuredDoc.mk (.IfFlat a b) m).All P ↔
      P (.mk (.IfFlat a b) m) ∧ a.All P ∧ b.All P := by
  simp only [MeasuredDoc.All, subdocs, List.mem_cons, List.mem_append]
  constructor
  · intro h
    exact ⟨h _ (Or.inl rfl), fun x hx => h x (Or.inr (Or.inl hx)),
      fun x hx => h x (Or.inr (Or.inr hx))⟩
  · rintro ⟨h1, h2, h3⟩ x (hx | hx | hx)
    · exact hx ▸ h1
    · exact h2 x hx
    · exact h3 x hx

theorem all_concat {P : MeasuredDoc → Prop} (l : List MeasuredDoc) (m : Measure) :
    (MeasuredDoc.mk (.Concat l) m).All P ↔ P (.mk (.Concat l) m) ∧ ∀ c ∈ l, c.All P := by
  simp only [MeasuredDoc.All, subdocs, List.mem_cons, mem_subdocsList]
  constructor
  · intro h
    exact ⟨h _ (Or.inl rfl), fun c hc x hx => h x (Or.inr ⟨c, hc, hx⟩)⟩
  · rintro ⟨h1, h2⟩ x (hx | ⟨c, hc, hx⟩)
    · exact hx ▸ h1
    · exact h2 c hc x hx

/-- Every sub-document of `_Concat l` satisfies `P` when those of the documents
of `l` do and the new node does. -/
theorem all_Concat {P : MeasuredDoc → Prop} (l : List MeasuredDoc)
    (h : ∀ c ∈ l, c.All P) (hnode : P (_Concat l)) : (_Concat l).All P := by
  have hnode2 := hnode
  rw [concat_eq] at hnode2 ⊢
  rw [all_concat]
  refine ⟨hnode2, ?_⟩
  intro c hc
  obtain ⟨c0, hc0, hx⟩ := (mem_subdocsList l c).1 (expand_subdocs.2 l c hc)
  exact (h c0 hc0).sub hx

end MeasuredDoc

/-! ## Measures of sequences -/

namespace pretty

theorem foldl_concat_flat (l : List MeasuredDoc) (m : Measure) :
    (l.foldl (fun m d => _ConcatMeasure m d.measure) m).flat = m.flat + flatSum l := by
  induction l generalizing m with
  | nil => simp [flatSum]
  | cons d l ih =>
    rw [List.foldl_cons, ih, concat_flat]
    simp [flatSum, add_assoc]

theorem measureOf_flat (l : List MeasuredDoc) : (measureOf l).flat = flatSum l := by
  rw [measureOf, foldl_concat_flat]
  simp [_EmptyMeasure]

theorem suffixOf_flat (l : List MeasuredDoc) (s : Measure) :
    (suffixOf l s).flat = flatSum l + s.flat := by
  induction l with
  | nil => simp [suffixOf, flatSum]
  | cons d l ih =>
    have : suffixOf (d :: l) s = _ConcatMeasure d.measure (suffixOf l s) := rfl
    rw [this, concat_flat, ih]
    simp [flatSum, add_assoc]

theorem flatSum_cons (d : MeasuredDoc) (l : List MeasuredDoc) :
    flatSum (d :: l) = d.measure.flat + flatSum l := by
  simp [flatSum]

theorem flatSum_append (a b : List MeasuredDoc) : flatSum (a ++ b) = flatSum a + flatSum b := by
  simp [flatSum]

theorem flatSum_nonneg (l : List MeasuredDoc) (h : ∀ c ∈ l, 0 ≤ c.measure.flat) :
    0 ≤ flatSum l := by
  induction l with
  | nil => simp [flatSum]
  | cons d l ih =>
    rw [flatSum_cons]
    have h1 := h d (List.mem_cons_self _ _)
    have h2 := ih (fun c hc => h c (List.mem_cons_of_mem _ hc))
    omega

theorem foldl_concat_valid (l : List MeasuredDoc) (m : Measure) (hm : m.Valid)
    (h : ∀ c ∈ l, c.measure.Valid) :
    (l.foldl (fun m d => _ConcatMeasure m d.measure) m).Valid := by
  induction l generalizing m with
  | nil => exact hm
  | cons d l ih =>
    rw [List.foldl_cons]
    exact ih _ (concat_valid _ _ hm (h d (List.mem_cons_self _ _)))
      (fun c hc => h c (List.mem_cons_of_mem _ hc))

theorem foldl_concat_wf (l : List MeasuredDoc) (m : Measure) (hm : m.WF)
    (h : ∀ c ∈ l, c.measure.WF) :
    (l.foldl (fun m d => _ConcatMeasure m d.measure) m).WF := by
  induction l generalizing m with
  | nil => exact hm
  | cons d l ih =>
    rw [List.foldl_cons]
    exact ih _ (concat_wf _ _ hm (h d (List.mem_cons_self _ _)))
      (fun c hc => h c (List.mem_cons_of_mem _ hc))

theorem measureOf_valid (l : List MeasuredDoc) (h : ∀ c ∈ l, c.measure.Valid) :
    (measureOf l).Valid :=
  foldl_concat_valid l _ empty_valid h

theorem measureOf_wf (l : List MeasuredDoc) (h : ∀ c ∈ l, c.measure.WF) : (measureOf l).WF :=
  foldl_concat_wf l _ empty_wf h

/-- The left fold from `m` is `m` followed by the measure of the list. -/
theorem foldl_concat_eq (l : List MeasuredDoc) (m : Measure) (hm : m.Valid)
    (h : ∀ c ∈ l, c.measure.Valid) :
    l.foldl (fun m d => _ConcatMeasure m d.measure) m = _ConcatMeasure m (measureOf l) := by
  induction l generalizing m with
  | nil => simp [measureOf, concat_empty_right]
  | cons d l ih =>
    have hd := h d (List.mem_cons_self _ _)
    have hl : ∀ c ∈ l, c.measure.Valid := fun c hc => h c (List.mem_cons_of_mem _ hc)
    have e1 : measureOf (d :: l) = _ConcatMeasure d.measure (measureOf l) := by
      rw [measureOf, List.foldl_cons, concat_empty_left, ih _ hd hl]
    rw [List.foldl_cons, ih _ (concat_valid _ _ hm hd) hl, e1,
      concat_assoc _ _ _ hm hd (measureOf_valid l hl)]

theorem measureOf_cons (d : MeasuredDoc) (l : List MeasuredDoc) (hd : d.measure.Valid)
    (h : ∀ c ∈ l, c.measure.Valid) :
    measureOf (d :: l) = _ConcatMeasure d.measure (measureOf l) := by
  rw [measureOf, List.foldl_cons, concat_empty_left, foldl_concat_eq l _ hd h]

theorem measureOf_append (a b : List MeasuredDoc) (ha : ∀ c ∈ a, c.measure.Valid)
    (hb : ∀ c ∈ b, c.measure.Valid) :
    measureOf (a ++ b) = _ConcatMeasure (measureOf a) (measureOf b) := by
  rw [measureOf, List.foldl_append]
  exact foldl_concat_eq b _ (measureOf_valid a ha) hb

theorem suffixOf_eq (l : List MeasuredDoc) (s : Measure) (hs : s.Valid)
    (h : ∀ c ∈ l, c.measure.Valid) :
    suffixOf l s = _ConcatMeasure (measureOf l) s := by
  induction l with
  | nil => simp [suffixOf, measureOf, concat_empty_left]
  | cons d l ih =>
    have hd := h d (List.mem_cons_self _ _)
    have hl : ∀ c ∈ l, c.measure.Valid := fun c hc => h c (List.mem_cons_of_mem _ hc)
    have : suffixOf (d :: l) s = _ConcatMeasure d.measure (suffixOf l s) := rfl
    rw [this, ih hl, measureOf_cons d l hd hl, concat_assoc _ _ _ hd (measureOf_valid l hl) hs]

theorem suffixOf_valid (l : List MeasuredDoc) (s : Measure) (hs : s.Valid)
    (h : ∀ c ∈ l, c.measure.Valid) : (suffixOf l s).Valid := by
  rw [suffixOf_eq l s hs h]
  exact concat_valid _ _ (measureOf_valid l h) hs

theorem suffixLen_suffixOf_le (l : List MeasuredDoc) (s : Measure) (hs : s.Valid)
    (h : ∀ c ∈ l, c.measure.WF) :
    _SuffixLen (suffixOf l s) ≤ flatSum l + _SuffixLen s := by
  have hv : ∀ c ∈ l, c.measure.Valid := fun c hc => wf_valid _ (h c hc)
  rw [suffixOf_eq l s hs hv]
  have := suffixLen_concat_le (measureOf l) s (measureOf_wf l h) hs
  rw [measureOf_flat] at this
  exact this

/-- Once a break has been met the first-line width no longer changes. -/
theorem foldl_concat_nonflat (l : List MeasuredDoc) (m : Measure) (hm : m.nonflat ≠ -1) :
    (l.foldl (fun m d => _ConcatMeasure m d.measure) m).nonflat = m.nonflat := by
  induction l generalizing m with
  | nil => rfl
  | cons d l ih =>
    have e : (_ConcatMeasure m d.measure).nonflat = m.nonflat := by
      simp [_ConcatMeasure, hm]
    rw [List.foldl_cons, ih _ (by rw [e]; exact hm), e]

end pretty

/-! ## The builders keep the node invariant -/

namespace pretty

open MeasuredDoc

theorem Good.wf {d : MeasuredDoc} (h : Good d) : d.measure.WF := (All.self h).1

theorem Good.valid {d : MeasuredDoc} (h : Good d) : d.measure.Valid := wf_valid _ h.wf

theorem good_AsciiText (s : BigStr) : Good (AsciiText s) := by
  unfold Good AsciiText
  rw [all_text]
  refine ⟨?_, rfl⟩
  simp only [Measure.WF, len, measure_mk]
  omega

theorem good_Break (s : BigStr) : Good (_Break s) := by
  unfold Good _Break
  rw [all_break]
  refine ⟨?_, rfl⟩
  simp only [Measure.WF, len, measure_mk]
  omega

theorem good_text_len (t s : BigStr) : Good (.mk (.Text t) ⟨len s, -1⟩) := by
  unfold Good
  rw [all_text]
  refine ⟨?_, rfl⟩
  simp only [Measure.WF, len, measure_mk]
  omega

theorem good_Indent (k : Int) (d : MeasuredDoc) (h : Good d) : Good (_Indent k d) := by
  unfold Good _Indent
  rw [all_indent]
  exact ⟨⟨h.wf, rfl⟩, h⟩

theorem good_Group (d : MeasuredDoc) (h : Good d) : Good (_Group d) := by
  unfold Good _Group
  rw [all_group]
  exact ⟨⟨h.wf, rfl⟩, h⟩

theorem good_Flat (d : MeasuredDoc) (h : Good d) : Good (_Flat d) := by
  unfold Good _Flat
  rw [all_flat]
  refine ⟨⟨?_, rfl⟩, h⟩
  have := h.wf
  simp only [Measure.WF, _FlattenMeasure, measure_mk] at this ⊢
  omega

theorem good_IfFlat (a b : MeasuredDoc) (ha : Good a) (hb : Good b)
    (hab : b.measure.nonflat ≤ a.measure.flat) : Good (_IfFlat a b) := by
  unfold Good _IfFlat
  rw [all_ifFlat]
  refine ⟨⟨?_, rfl⟩, ha, hb⟩
  have h1 := ha.wf
  have h2 := hb.wf
  simp only [Measure.WF, measure_mk] at h1 h2 ⊢
  omega

theorem Good.sound {d : MeasuredDoc} (h : Good d) : Sound d :=
  All.mono h (fun _ hx => ⟨wf_valid _ hx.1, hx.2⟩)

theorem sound_valid {d : MeasuredDoc} (h : Sound d) : d.measure.Valid := (All.self h).1

theorem sound_expand_valid (l : List MeasuredDoc) (h : ∀ c ∈ l, Sound c) :
    ∀ x ∈ expandConcats l, x.measure.Valid := by
  intro x hx
  obtain ⟨c, hc, hxc⟩ := (mem_subdocsList l x).1 (expand_subdocs.2 l x hx)
  exact sound_valid (All.sub (h c hc) hxc)

/-- Splicing does not change the accumulated measure. -/
theorem measureOf_expand :
    (∀ d : MeasuredDoc, Sound d → measureOf (expandConcat d) = d.measure) ∧
    (∀ l : List MeasuredDoc, (∀ c ∈ l, Sound c) →
      measureOf (expandConcats l) = measureOf l) := by
  apply doc_induction
  · intro s m _; simp [expandConcat, measureOf, concat_empty_left]
  · intro s m _; simp [expandConcat, measureOf, concat_empty_left]
  · intro k d m _ _; simp [expandConcat, measureOf, concat_empty_left]
  · intro d m _ _; simp [expandConcat, measureOf, concat_empty_left]
  · intro d m _ _; simp [expandConcat, measureOf, concat_empty_left]
  · intro a b m _ _ _; simp [expandConcat, measureOf, concat_empty_left]
  · intro l m ih h
    have h2 := (all_concat l m).1 h
    rw [expandConcat, ih h2.2]
    exact h2.1.2.symm
  · intro _; rfl
  · intro d l ihd ihl h
    have hd := h d (List.mem_cons_self _ _)
    have hl : ∀ c ∈ l, Sound c := fun c hc => h c (List.mem_cons_of_mem _ hc)
    have hv1 : ∀ x ∈ expandConcat d, x.measure.Valid := by
      intro x hx
      exact sound_valid (All.sub hd (expand_subdocs.1 d x hx))
    rw [expandConcats, measureOf_append _ _ hv1 (sound_expand_valid l hl), ihd hd, ihl hl,
      measureOf_cons d l (sound_valid hd) (fun c hc => sound_valid (hl c hc))]

theorem sound_Concat (l : List MeasuredDoc) (h : ∀ c ∈ l, Sound c) : Sound (_Concat l) := by
  apply all_Concat l h
  rw [concat_eq]
  refine ⟨measureOf_valid l (fun c hc => sound_valid (h c hc)), ?_⟩
  exact (measureOf_expand.2 l h).symm

theorem good_Concat (l : List MeasuredDoc) (h : ∀ c ∈ l, Good c) : Good (_Concat l) := by
  apply all_Concat l h
  rw [concat_eq]
  refine ⟨measureOf_wf l (fun c hc => (h c hc).wf), ?_⟩
  exact (measureOf_expand.2 l (fun c hc => (h c hc).sound)).symm

theorem flat_Concat (l : List MeasuredDoc) : (_Concat l).measure.flat = flatSum l := by
  rw [measure_concat, measureOf_flat]

/-! ### `_Join` and `_Tabular` -/

open pp_hnode

theorem join_loop_all (P : MeasuredDoc → Prop) (sep space : BigStr) (hsep : P (AsciiText sep))
    (hsp : P (_Break space)) (items : List MeasuredDoc) (i : Nat) (seq : List MeasuredDoc)
    (hitems : ∀ c ∈ items, P c) (hseq : ∀ c ∈ seq, P c) :
    ∀ c ∈ _Join.loop sep space items i seq, P c := by
  induction items generalizing i seq with
  | nil => simpa [_Join.loop] using hseq
  | cons x items ih =>
    rw [_Join.loop]
    apply ih
    · exact fun c hc => hitems c (List.mem_cons_of_mem _ hc)
    · intro c hc
      by_cases hi : i = 0
      · simp only [hi, ne_eq, not_true_eq_false, if_false, List.mem_append,
          List.mem_singleton] at hc
        rcases hc with h | h
        · exact hseq c h
        · exact h ▸ hitems x (List.mem_cons_self _ _)
      · simp only [ne_eq, hi, not_false_eq_true, if_true, List.mem_append,
          List.mem_singleton] at hc
        rcases hc with ((h | h) | h) | h
        · exact hseq c h
        · exact h ▸ hsep
        · exact h ▸ hsp
        · exact h ▸ hitems x (List.mem_cons_self _ _)

theorem good_Join (items : List MeasuredDoc) (sep space : BigStr) (h : ∀ c ∈ items, Good c) :
    Good (_Join items sep space) := by
  unfold _Join
  apply good_Concat
  exact join_loop_all Good sep space (good_AsciiText sep) (good_Break space) items 0 [] h
    (by intro c hc; cases hc)

theorem tabular_loop1_all (P : MeasuredDoc → Prop) (sep : BigStr) (hsep : P (AsciiText sep))
    (hsp : P (_Break [' '])) (items : List MeasuredDoc) (i : Nat) (seq : List MeasuredDoc)
    (mx : Int) (hitems : ∀ c ∈ items, P c) (hseq : ∀ c ∈ seq, P c) :
    ∀ c ∈ (_Tabular.loop1 sep items i seq mx).1, P c := by
  induction items generalizing i seq mx with
  | nil => simpa [_Tabular.loop1] using hseq
  | cons x items ih =>
    rw [_Tabular.loop1]
    apply ih
    · exact fun c hc => hitems c (List.mem_cons_of_mem _ hc)
    · intro c hc
      by_cases hi : i = 0
      · simp only [hi, ne_eq, not_true_eq_false, if_false, List.mem_append,
          List.mem_singleton] at hc
        rcases hc with h | h
        · exact hseq c h
        · exact h ▸ hitems x (List.mem_cons_self _ _)
      · simp only [ne_eq, hi, not_false_eq_true, if_true, List.mem_append,
          List.mem_singleton] at hc
        rcases hc with ((h | h) | h) | h
        · exact hseq c h
        · exact h ▸ hsep
        · exact h ▸ hsp
        · exact h ▸ hitems x (List.mem_cons_self _ _)

theorem tabular_loop2_all (P : MeasuredDoc → Prop) (sep : BigStr) (mx : Int) (n : Nat)
    (hsep : P (AsciiText sep)) (hpad : ∀ k : Int, P (_Group (_Break (str_repeat [' '] k))))
    (items : List MeasuredDoc) (i : Nat) (seq : List MeasuredDoc)
    (hitems : ∀ c ∈ items, P (_Flat c)) (hseq : ∀ c ∈ seq, P c) :
    ∀ c ∈ _Tabular.loop2 sep mx n items i seq, P c := by
  induction items generalizing i seq with
  | nil => simpa [_Tabular.loop2] using hseq
  | cons x items ih =>
    rw [_Tabular.loop2]
    apply ih
    · exact fun c hc => hitems c (List.mem_cons_of_mem _ hc)
    · intro c hc
      by_cases hi : (i : Int) = (n : Int) - 1
      · simp only [hi, ne_eq, not_true_eq_false, if_false, List.mem_append,
          List.mem_singleton] at hc
        rcases hc with h | h
        · exact hseq c h
        · exact h ▸ hitems x (List.mem_cons_self _ _)
      · simp only [ne_eq, hi, not_false_eq_true, if_true, List.mem_append,
          List.mem_singleton] at hc
        rcases hc with ((h | h) | h) | h
        · exact hseq c h
        · exact h ▸ hitems x (List.mem_cons_self _ _)
        · exact h ▸ hsep
        · exact h ▸ hpad _

theorem tabular_loop1_extends (sep : BigStr) (items : List MeasuredDoc) (i : Nat)
    (seq : List MeasuredDoc) (mx : Int) :
    ∃ t, (_Tabular.loop1 sep items i seq mx).1 = seq ++ t := by
  induction items generalizing i seq mx with
  | nil => exact ⟨[], by simp [_Tabular.loop1]⟩
  | cons x items ih =>
    rw [_Tabular.loop1]
    obtain ⟨t, ht⟩ := ih (i + 1)
      ((if i ≠ 0 then (seq ++ [AsciiText sep]) ++ [_Break [' ']] else seq) ++ [x])
      (max_int mx x.measure.flat)
    rw [ht]
    by_cases hi : i = 0
    · exact ⟨[x] ++ t, by simp [hi]⟩
    · exact ⟨[AsciiText sep, _Break [' '], x] ++ t, by simp [hi]⟩

theorem tabular_loop2_extends (sep : BigStr) (mx : Int) (n : Nat) (items : List MeasuredDoc)
    (i : Nat) (seq : List MeasuredDoc) :
    ∃ t, _Tabular.loop2 sep mx n items i seq = seq ++ t := by
  induction items generalizing i seq with
  | nil => exact ⟨[], by simp [_Tabular.loop2]⟩
  | cons x items ih =>
    rw [_Tabular.loop2]
    by_cases hi : (i : Int) = (n : Int) - 1
    · obtain ⟨t, ht⟩ := ih (i + 1) (seq ++ [_Flat x])
      exact ⟨[_Flat x] ++ t, by simp [hi, ht]⟩
    · obtain ⟨t, ht⟩ := ih (i + 1) ((seq ++ [_Flat x] ++ [AsciiText sep]) ++
        [_Group (_Break (str_repeat [' '] (mx - x.measure.flat + 1)))])
      refine ⟨[_Flat x, AsciiText sep,
        _Group (_Break (str_repeat [' '] (mx - x.measure.flat + 1)))] ++ t, ?_⟩
      simp only [ne_eq, hi, not_false_eq_true, if_true]
      rw [ht]
      simp

end pretty

namespace pretty

open MeasuredDoc pp_hnode

/-- In the column form built by `_Tabular`, the first-line width is at most the
flat width of the plain join. -/
theorem tabular_bound (sep : BigStr) (mx : Int) (items : List MeasuredDoc)
    (h : ∀ c ∈ items, Good c) :
    (_Concat (_Tabular.loop2 sep mx items.length items 0 [])).measure.nonflat ≤
      (_Concat (_Tabular.loop1 sep items 0 [] 0).1).measure.flat := by
  have hseq : ∀ c ∈ (_Tabular.loop1 sep items 0 [] 0).1, Good c :=
    tabular_loop1_all Good sep (good_AsciiText sep) (good_Break _) items 0 [] 0 h
      (by intro c hc; cases hc)
  rw [measure_concat, measure_concat, measureOf_flat]
  cases items with
  | nil =>
    simp [_Tabular.loop2, _Tabular.loop1, measureOf, flatSum, _EmptyMeasure]
  | cons x1 rest =>
    have hx1 := (h x1 (List.mem_cons_self _ _)).wf
    cases rest with
    | nil =>
      have h0 := flatSum_nonneg _ (fun c hc => (hseq c hc).wf.1)
      have e : (measureOf (_Tabular.loop2 sep mx [x1].length [x1] 0 [])).nonflat = -1 := by
        simp [_Tabular.loop2, measureOf, _Flat, _FlattenMeasure, _ConcatMeasure, _EmptyMeasure]
      rw [e]
      omega
    | cons x2 rest =>
      have hx2 := (h x2 (List.mem_cons_of_mem _ (List.mem_cons_self _ _))).wf
      have e1 : _Tabular.loop1 sep (x1 :: x2 :: rest) 0 [] 0 =
          _Tabular.loop1 sep rest 2 [x1, AsciiText sep, _Break [' '], x2]
            (max_int (max_int 0 x1.measure.flat) x2.measure.flat) := by
        simp [_Tabular.loop1]
      have e2 : _Tabular.loop2 sep mx (x1 :: x2 :: rest).length (x1 :: x2 :: rest) 0 [] =
          _Tabular.loop2 sep mx (x1 :: x2 :: rest).length (x2 :: rest) 1
            [_Flat x1, AsciiText sep,
              _Group (_Break (str_repeat [' '] (mx - x1.measure.flat + 1)))] := by
        have hn : ¬ ((0 : Int) = (rest.length : Int) + 1) := by omega
        rw [_Tabular.loop2]
        simp [hn]
      obtain ⟨t, ht⟩ := tabular_loop2_extends sep mx (x1 :: x2 :: rest).length (x2 :: rest) 1
        [_Flat x1, AsciiText sep, _Group (_Break (str_repeat [' '] (mx - x1.measure.flat + 1)))]
      obtain ⟨t2, ht2⟩ := tabular_loop1_extends sep rest 2 [x1, AsciiText sep, _Break [' '], x2]
        (max_int (max_int 0 x1.measure.flat) x2.measure.flat)
      rw [e1, ht2] at hseq
      rw [e1, ht2, e2, ht]
      have hlen : 0 ≤ len sep := by simp [len]
      have hA : (measureOf [_Flat x1, AsciiText sep,
          _Group (_Break (str_repeat [' '] (mx - x1.measure.flat + 1)))]).nonflat =
            x1.measure.flat + len sep := by
        simp only [measureOf, List.foldl_cons, List.foldl_nil, concat_empty_left]
        simp only [_Flat, _FlattenMeasure, AsciiText, _Group, _Break, measure_mk, _ConcatMeasure]
        simp
      have hA2 : (measureOf [_Flat x1, AsciiText sep,
          _Group (_Break (str_repeat [' '] (mx - x1.measure.flat + 1)))]).nonflat ≠ -1 := by
        rw [hA]
        have := hx1.1
        omega
      have e : (measureOf ([_Flat x1, AsciiText sep,
          _Group (_Break (str_repeat [' '] (mx - x1.measure.flat + 1)))] ++ t)).nonflat =
            x1.measure.flat + len sep := by
        have e3 : measureOf ([_Flat x1, AsciiText sep,
            _Group (_Break (str_repeat [' '] (mx - x1.measure.flat + 1)))] ++ t) =
            t.foldl (fun m d => _ConcatMeasure m d.measure) (measureOf [_Flat x1, AsciiText sep,
              _Group (_Break (str_repeat [' '] (mx - x1.measure.flat + 1)))]) := by
          rw [measureOf, List.foldl_append]; rfl
        rw [e3, foldl_concat_nonflat t _ hA2]
        exact hA
      rw [e]
      have ht0 : 0 ≤ flatSum t2 := flatSum_nonneg _ (fun c hc =>
        (hseq c (List.mem_append_right _ hc)).wf.1)
      rw [flatSum_append]
      have eB : flatSum [x1, AsciiText sep, _Break [' '], x2] =
          x1.measure.flat + len sep + 1 + x2.measure.flat := by
        simp [flatSum, AsciiText, _Break, len]
        ring
      rw [eB]
      have := hx2.1
      omega

theorem good_Tabular (enc : HNodeEncoder) (items : List MeasuredDoc) (sep : BigStr)
    (h : ∀ c ∈ items, Good c) : Good (_Tabular enc items sep) := by
  have hseq : ∀ c ∈ (_Tabular.loop1 sep items 0 [] 0).1, Good c :=
    tabular_loop1_all Good sep (good_AsciiText sep) (good_Break _) items 0 [] 0 h
      (by intro c hc; cases hc)
  have hnt := good_Concat _ hseq
  unfold _Tabular
  by_cases h0 : items.length = 0
  · rw [if_pos h0]; exact good_AsciiText _
  · rw [if_neg h0]
    simp only
    split_ifs
    · apply good_Group
      apply good_IfFlat _ _ hnt
      · apply good_Concat
        exact tabular_loop2_all Good sep _ _ (good_AsciiText sep)
          (fun _ => good_Group _ (good_Break _)) items 0 []
          (fun c hc => good_Flat c (h c hc)) (by intro c hc; cases hc)
      · exact tabular_bound sep _ items h
    · exact hnt

theorem good_Surrounded (enc : HNodeEncoder) (left right : BigStr) (d : MeasuredDoc)
    (h : Good d) : Good (_Surrounded enc left d right) := by
  unfold _Surrounded
  apply good_Group
  apply good_Concat
  intro c hc
  simp only [List.mem_cons, List.mem_singleton, List.not_mem_nil, or_false] at hc
  rcases hc with rfl | rfl | rfl | rfl
  · exact good_AsciiText _
  · apply good_Indent
    apply good_Concat
    intro c hc
    simp only [List.mem_cons, List.mem_singleton, List.not_mem_nil, or_false] at hc
    rcases hc with rfl | rfl
    · exact good_Break _
    · exact h
  · exact good_Break _
  · exact good_AsciiText _

theorem good_SurroundedAndPrefixed (enc : HNodeEncoder) (left right sep : BigStr)
    (pfx d : MeasuredDoc) (hp : Good pfx) (h : Good d) :
    Good (_SurroundedAndPrefixed enc left pfx sep d right) := by
  unfold _SurroundedAndPrefixed
  apply good_Group
  apply good_Concat
  intro c hc
  simp only [List.mem_cons, List.mem_singleton, List.not_mem_nil, or_false] at hc
  rcases hc with rfl | rfl | rfl | rfl | rfl
  · exact good_AsciiText _
  · exact hp
  · apply good_Indent
    apply good_Concat
    intro c hc
    simp only [List.mem_cons, List.mem_singleton, List.not_mem_nil, or_false] at hc
    rcases hc with rfl | rfl
    · exact good_Break _
    · exact h
  · exact good_Break _
  · exact good_AsciiText _

theorem good_StyledAscii (enc : HNodeEncoder) (style s : BigStr) :
    Good (_StyledAscii enc style s) := by
  unfold _StyledAscii
  exact good_text_len _ _

theorem good_record (enc : HNodeEncoder) (left right : BigStr) (type_name : Option MeasuredDoc)
    (mdocs : Option (List MeasuredDoc)) (ht : ∀ t, type_name = some t → Good t)
    (hm : ∀ l, mdocs = some l → ∀ c ∈ l, Good c) :
    Good (_HNode.record enc left right type_name mdocs) := by
  unfold _HNode.record
  cases mdocs with
  | none =>
    apply good_Concat
    intro c hc
    cases type_name with
    | none =>
      simp only [List.mem_append, List.mem_singleton] at hc
      rcases hc with rfl | rfl
      · exact good_AsciiText _
      · exact good_AsciiText _
    | some t =>
      simp only [List.mem_append, List.mem_singleton] at hc
      rcases hc with (rfl | rfl) | rfl
      · exact good_AsciiText _
      · exact ht _ rfl
      · exact good_AsciiText _
  | some l =>
    have hj := good_Join l [] [' '] (hm l rfl)
    cases type_name with
    | none => exact good_Surrounded enc _ _ _ hj
    | some t => exact good_SurroundedAndPrefixed enc _ _ _ _ _ (ht t rfl) hj

end pretty

/-! ## The documents of the encoder -/

namespace pp_hnode

open pretty MeasuredDoc

/-- Induction over `hnode_t` trees, their lists, fields and lists of fields. -/
theorem hnode_induction {P : hnode_t → Prop} {Q : List hnode_t → Prop}
    {F : hnode_asdl.Field → Prop} {G : List hnode_asdl.Field → Prop}
    (hSeen : ∀ heap_id, P (.AlreadySeen heap_id))
    (hLeaf : ∀ s color, P (.Leaf s color))
    (hArray : ∀ children, Q children → P (.Array children))
    (hRecord : ∀ node_type left right fields unnamed_fields, G fields →
      (∀ u, unnamed_fields = some u → Q u) →
      P (.Record node_type left right fields unnamed_fields))
    (hField : ∀ name val, P val → F (.mk name val))
    (hNil : Q []) (hCons : ∀ h l, P h → Q l → Q (h :: l))
    (gNil : G []) (gCons : ∀ f l, F f → G l → G (f :: l)) :
    ∀ h, P h := by
  intro h
  exact @hnode_t.rec P F Q G (fun o => ∀ u, o = some u → Q u)
    hSeen hLeaf hArray hRecord hField hNil hCons gNil gCons
    (by intro u hu; cases hu)
    (by intro val hval u hu; cases hu; exact hval) h

theorem items_nil (rt : Runtime) (enc : HNodeEncoder) : _HNode.items rt enc [] = [] := by
  rw [_HNode.items]

theorem items_cons (rt : Runtime) (enc : HNodeEncoder) (h : hnode_t) (l : List hnode_t) :
    _HNode.items rt enc (h :: l) = _HNode rt enc h :: _HNode.items rt enc l := by
  rw [_HNode.items]

theorem fields_nil (rt : Runtime) (enc : HNodeEncoder) : _Field.items rt enc [] = [] := by
  rw [_Field.items]

theorem fields_cons (rt : Runtime) (enc : HNodeEncoder) (f : hnode_asdl.Field)
    (l : List hnode_asdl.Field) :
    _Field.items rt enc (f :: l) = _Field rt enc f :: _Field.items rt enc l := by
  rw [_Field.items]

/-- The `Record` case of `_HNode`. -/
theorem record_eq (rt : Runtime) (enc : HNodeEncoder) (node_type left right : BigStr)
    (fields : List hnode_asdl.Field) (unnamed_fields : Option (List hnode_t)) :
    _HNode rt enc (.Record node_type left right fields unnamed_fields) =
      _HNode.record enc left right (recordTypeName enc node_type)
        (recordMdocs rt enc fields unnamed_fields) := by
  unfold recordTypeName recordMdocs
  cases unnamed_fields with
  | none => simp only [_HNode]
  | some u =>
    cases u with
    | nil => simp only [_HNode]
    | cons u us => simp only [_HNode]

theorem recordMdocs_none (rt : Runtime) (enc : HNodeEncoder) (fields : List hnode_asdl.Field) :
    recordMdocs rt enc fields none =
      if fields.length ≠ 0 then some (_Field.items rt enc fields) else none := rfl

theorem recordMdocs_nil (rt : Runtime) (enc : HNodeEncoder) (fields : List hnode_asdl.Field) :
    recordMdocs rt enc fields (some []) =
      if fields.length ≠ 0 then some (_Field.items rt enc fields) else none := rfl

theorem recordMdocs_cons (rt : Runtime) (enc : HNodeEncoder) (fields : List hnode_asdl.Field)
    (u : hnode_t) (us : List hnode_t) :
    recordMdocs rt enc fields (some (u :: us)) = some (_HNode.items rt enc (u :: us)) := rfl

/-- Every node of an encoded tree has a well-formed measure, the one its
builder computes. -/
theorem good_HNode (rt : Runtime) (enc : HNodeEncoder) (h : hnode_t) :
    Good (_HNode rt enc h) := by
  apply hnode_induction (P := fun h => Good (_HNode rt enc h))
    (Q := fun l => ∀ c ∈ _HNode.items rt enc l, Good c)
    (F := fun f => Good (_Field rt enc f))
    (G := fun l => ∀ c ∈ _Field.items rt enc l, Good c)
  · intro heap_id
    rw [_HNode]; exact good_AsciiText _
  · intro s color
    rw [_HNode]; exact good_StyledAscii _ _ _
  · intro children ih
    rw [_HNode]
    split_ifs
    · exact good_AsciiText _
    · exact good_Surrounded enc _ _ _ (good_Tabular enc _ _ ih)
  · intro node_type left right fields unnamed_fields ihf ihu
    rw [record_eq]
    apply good_record
    · intro t ht
      unfold recordTypeName at ht
      split_ifs at ht
      cases ht
      exact good_StyledAscii _ _ _
    · intro l hl
      cases unnamed_fields with
      | none =>
        rw [recordMdocs_none] at hl
        split_ifs at hl
        cases hl
        exact ihf
      | some u =>
        cases u with
        | nil =>
          rw [recordMdocs_nil] at hl
          split_ifs at hl
          cases hl
          exact ihf
        | cons u us =>
          rw [recordMdocs_cons] at hl
          cases hl
          exact ihu _ rfl
  · intro name val ih
    rw [_Field]
    apply good_Concat
    intro c hc
    simp only [List.mem_cons, List.mem_singleton, List.not_mem_nil, or_false] at hc
    rcases hc with rfl | rfl
    · exact good_AsciiText _
    · exact ih
  · intro c hc; rw [items_nil] at hc; cases hc
  · intro h l ihh ihl c hc
    rw [items_cons] at hc
    rcases List.mem_cons.1 hc with rfl | h2
    · exact ihh
    · exact ihl c h2
  · intro c hc; rw [fields_nil] at hc; cases hc
  · intro f l ihf ihl c hc
    rw [fields_cons] at hc
    rcases List.mem_cons.1 hc with rfl | h2
    · exact ihf
    · exact ihl c h2

end pp_hnode

/-! ## Rendering in flat mode -/

namespace pretty

open MeasuredDoc

theorem render_text (W : Int) (s : BigStr) (m : Measure) (indent : Int) (fl : Bool)
    (suf : Measure) (p : Int) :
    render W (.mk (.Text s) m) indent fl suf p = (s, p + m.flat) := by
  rw [render]

theorem render_break_flat (W : Int) (s : BigStr) (m : Measure) (indent : Int)
    (suf : Measure) (p : Int) :
    render W (.mk (.Break s) m) indent true suf p = (s, p + m.flat) := by
  rw [render]; simp

theorem render_break_nonflat (W : Int) (s : BigStr) (m : Measure) (indent : Int)
    (suf : Measure) (p : Int) :
    render W (.mk (.Break s) m) indent false suf p =
      ('\n' :: List.replicate indent.toNat ' ', indent) := by
  rw [render]; simp

theorem render_indent (W : Int) (k : Int) (d : MeasuredDoc) (m : Measure) (indent : Int)
    (fl : Bool) (suf : Measure) (p : Int) :
    render W (.mk (.Indent k d) m) indent fl suf p = render W d (indent + k) fl suf p := by
  rw [render]

theorem render_concat (W : Int) (l : List MeasuredDoc) (m : Measure) (indent : Int)
    (fl : Bool) (suf : Measure) (p : Int) :
    render W (.mk (.Concat l) m) indent fl suf p = renderList W l indent fl suf p := by
  rw [render]

theorem render_group (W : Int) (d : MeasuredDoc) (m : Measure) (indent : Int)
    (fl : Bool) (suf : Measure) (p : Int) :
    render W (.mk (.Group d) m) indent fl suf p =
      render W d indent (_Fits W p d suf) suf p := by
  rw [render]

theorem render_ifFlat_flat (W : Int) (a b : MeasuredDoc) (m : Measure) (indent : Int)
    (suf : Measure) (p : Int) :
    render W (.mk (.IfFlat a b) m) indent true suf p = render W a indent true suf p := by
  rw [render]; simp

theorem render_ifFlat_nonflat (W : Int) (a b : MeasuredDoc) (m : Measure) (indent : Int)
    (suf : Measure) (p : Int) :
    render W (.mk (.IfFlat a b) m) indent false suf p = render W b indent false suf p := by
  rw [render]; simp

theorem render_flat_node (W : Int) (d : MeasuredDoc) (m : Measure) (indent : Int)
    (fl : Bool) (suf : Measure) (p : Int) :
    render W (.mk (.Flat d) m) indent fl suf p = render W d indent true suf p := by
  rw [render]

theorem renderList_nil (W : Int) (indent : Int) (fl : Bool) (suf : Measure) (p : Int) :
    renderList W [] indent fl suf p = ([], p) := by
  rw [renderList]

theorem renderList_cons (W : Int) (d : MeasuredDoc) (l : List MeasuredDoc) (indent : Int)
    (fl : Bool) (suf : Measure) (p : Int) :
    renderList W (d :: l) indent fl suf p =
      ((render W d indent fl (suffixOf l suf) p).1 ++
          (renderList W l indent fl suf (render W d indent fl (suffixOf l suf) p).2).1,
        (renderList W l indent fl suf (render W d indent fl (suffixOf l suf) p).2).2) := by
  rw [renderList]

/-- In flat mode, when the document and what follows it up to the next break
fit, every nested `Group` fits too: the document is written flat. -/
theorem render_flat_fits (W : Int) :
    (∀ d : MeasuredDoc, Good d → ∀ (indent : Int) (suf : Measure) (p : Int), suf.Valid →
      p + d.measure.flat + _SuffixLen suf ≤ W →
      render W d indent true suf p = (flatText d, p + d.measure.flat)) ∧
    (∀ l : List MeasuredDoc, (∀ c ∈ l, Good c) → ∀ (indent : Int) (suf : Measure) (p : Int),
      suf.Valid → p + flatSum l + _SuffixLen suf ≤ W →
      renderList W l indent true suf p = (flatTexts l, p + flatSum l)) := by
  apply doc_induction
  · intro s m _ indent suf p _ _
    rw [render_break_flat, flatText]; rfl
  · intro s m _ indent suf p _ _
    rw [render_text, flatText]; rfl
  · intro k d m ih h indent suf p hs hw
    have h2 := (all_indent k d m).1 h
    have e : m = d.measure := h2.1.2
    subst e
    rw [render_indent, flatText]
    exact ih h2.2 _ suf p hs hw
  · intro d m ih h indent suf p hs hw
    have h2 := (all_group d m).1 h
    have e : m = d.measure := h2.1.2
    subst e
    have hf : _Fits W p d suf = true :=
      (fits_iff W p d suf (Good.wf h2.2).1 hs).2 hw
    rw [render_group, hf, flatText]
    exact ih h2.2 _ suf p hs hw
  · intro d m ih h indent suf p hs hw
    have h2 := (all_flat d m).1 h
    have e : m = _FlattenMeasure d.measure := h2.1.2
    subst e
    rw [render_flat_node, flatText]
    exact ih h2.2 _ suf p hs hw
  · intro a b m iha _ h indent suf p hs hw
    have h2 := (all_ifFlat a b m).1 h
    have e : m = ⟨a.measure.flat, b.measure.nonflat⟩ := h2.1.2
    subst e
    rw [render_ifFlat_flat, flatText]
    exact iha h2.2.1 _ suf p hs hw
  · intro l m ih h indent suf p hs hw
    have h2 := (all_concat l m).1 h
    have e : m = measureOf l := h2.1.2
    subst e
    rw [render_concat, flatText]
    simp only [measure_mk, measureOf_flat] at hw ⊢
    exact ih h2.2 _ suf p hs hw
  · intro _ indent suf p _ _
    rw [renderList_nil, flatTexts]; simp [flatSum]
  · intro d l ihd ihl h indent suf p hs hw
    have hd := h d (List.mem_cons_self _ _)
    have hl : ∀ c ∈ l, Good c := fun c hc => h c (List.mem_cons_of_mem _ hc)
    have hv : ∀ c ∈ l, c.measure.Valid := fun c hc => (hl c hc).valid
    have hle := suffixLen_suffixOf_le l suf hs (fun c hc => (hl c hc).wf)
    rw [flatSum_cons] at hw
    rw [renderList_cons, ihd hd indent _ p (suffixOf_valid l suf hs hv) (by omega)]
    simp only
    rw [ihl hl indent suf _ hs (by omega), flatTexts, flatSum_cons]
    simp [add_assoc]

/-- The flat text contains no byte that the strings of the document avoid. -/
theorem flatText_avoids (c : Char) :
    (∀ d : MeasuredDoc, Avoids c d → c ∉ flatText d) ∧
    (∀ l : List MeasuredDoc, (∀ x ∈ l, Avoids c x) → c ∉ flatTexts l) := by
  apply doc_induction
  · intro s m h
    rw [flatText]; exact (all_break s m).1 h
  · intro s m h
    rw [flatText]; exact (all_text s m).1 h
  · intro k d m ih h
    rw [flatText]; exact ih ((all_indent k d m).1 h).2
  · intro d m ih h
    rw [flatText]; exact ih ((all_group d m).1 h).2
  · intro d m ih h
    rw [flatText]; exact ih ((all_flat d m).1 h).2
  · intro a b m iha _ h
    rw [flatText]; exact iha ((all_ifFlat a b m).1 h).2.1
  · intro l m ih h
    rw [flatText]; exact ih ((all_concat l m).1 h).2
  · intro _; simp [flatTexts]
  · intro d l ihd ihl h
    rw [flatTexts, List.mem_append, not_or]
    exact ⟨ihd (h d (List.mem_cons_self _ _)), ihl (fun x hx => h x (List.mem_cons_of_mem _ hx))⟩

/-- The flat text has as many bytes as the flat width says, when the width of
every `Text` and `Break` is the length of its string. -/
theorem flatText_length :
    (∀ d : MeasuredDoc, Sound d → d.All TrueWidth → len (flatText d) = d.measure.flat) ∧
    (∀ l : List MeasuredDoc, (∀ c ∈ l, Sound c) → (∀ c ∈ l, c.All TrueWidth) →
      len (flatTexts l) = flatSum l) := by
  apply doc_induction
  · intro s m _ t
    rw [flatText]; exact ((all_break s m).1 t).symm
  · intro s m _ t
    rw [flatText]; exact ((all_text s m).1 t).symm
  · intro k d m ih h t
    have h2 := (all_indent k d m).1 h
    have e : m = d.measure := h2.1.2
    subst e
    rw [flatText]; exact ih h2.2 ((all_indent k d _).1 t).2
  · intro d m ih h t
    have h2 := (all_group d m).1 h
    have e : m = d.measure := h2.1.2
    subst e
    rw [flatText]; exact ih h2.2 ((all_group d _).1 t).2
  · intro d m ih h t
    have h2 := (all_flat d m).1 h
    have e : m = _FlattenMeasure d.measure := h2.1.2
    subst e
    rw [flatText]; exact ih h2.2 ((all_flat d _).1 t).2
  · intro a b m iha _ h t
    have h2 := (all_ifFlat a b m).1 h
    have e : m = ⟨a.measure.flat, b.measure.nonflat⟩ := h2.1.2
    subst e
    rw [flatText]; exact iha h2.2.1 ((all_ifFlat a b _).1 t).2.1
  · intro l m ih h t
    have h2 := (all_concat l m).1 h
    have e : m = measureOf l := h2.1.2
    subst e
    rw [flatText]
    simp only [measure_mk, measureOf_flat]
    exact ih h2.2 ((all_concat l _).1 t).2
  · intro _ _; simp [flatTexts, flatSum, len]
  · intro d l ihd ihl h t
    have e1 := ihd (h d (List.mem_cons_self _ _)) (t d (List.mem_cons_self _ _))
    have e2 := ihl (fun c hc => h c (List.mem_cons_of_mem _ hc))
      (fun c hc => t c (List.mem_cons_of_mem _ hc))
    rw [flatTexts, flatSum_cons, ← e1, ← e2]
    simp [len]

end pretty

/-! ## Documents built with the builders -/

namespace pretty

open MeasuredDoc

theorem sound_AsciiText (s : BigStr) : Sound (AsciiText s) := (good_AsciiText s).sound

theorem sound_Break (s : BigStr) : Sound (_Break s) := (good_Break s).sound

theorem sound_Indent (k : Int) (d : MeasuredDoc) (h : Sound d) : Sound (_Indent k d) := by
  unfold Sound _Indent
  rw [all_indent]
  exact ⟨⟨(sound_valid h : d.measure.Valid), rfl⟩, h⟩

theorem sound_Group (d : MeasuredDoc) (h : Sound d) : Sound (_Group d) := by
  unfold Sound _Group
  rw [all_group]
  exact ⟨⟨(sound_valid h : d.measure.Valid), rfl⟩, h⟩

theorem sound_Flat (d : MeasuredDoc) (h : Sound d) : Sound (_Flat d) := by
  unfold Sound _Flat
  rw [all_flat]
  refine ⟨⟨?_, rfl⟩, h⟩
  have := sound_valid h
  simp only [Measure.Valid, _FlattenMeasure, measure_mk] at this ⊢
  omega

theorem sound_IfFlat (a b : MeasuredDoc) (ha : Sound a) (hb : Sound b) :
    Sound (_IfFlat a b) := by
  unfold Sound _IfFlat
  rw [all_ifFlat]
  refine ⟨⟨?_, rfl⟩, ha, hb⟩
  have h1 := sound_valid ha
  have h2 := sound_valid hb
  simp only [Measure.Valid, measure_mk] at h1 h2 ⊢
  omega

/-- The measures of a built document are valid and exact. -/
theorem built_sound {g i f : Bool} {d : MeasuredDoc} (h : BuiltWith g i f d) : Sound d := by
  induction h with
  | text s => exact sound_AsciiText s
  | brk s => exact sound_Break s
  | concat l _ ih => exact sound_Concat l ih
  | indent k d _ ih => exact sound_Indent k d ih
  | group d _ _ ih => exact sound_Group d ih
  | ifFlat a b _ _ _ iha ihb => exact sound_IfFlat a b iha ihb
  | flat d _ _ ih => exact sound_Flat d ih

/-- In a built document the flat width of every `Text` and `Break` is the
length of its string. -/
theorem built_trueWidth {g i f : Bool} {d : MeasuredDoc} (h : BuiltWith g i f d) :
    d.All TrueWidth := by
  induction h with
  | text s => unfold AsciiText; rw [all_text]; rfl
  | brk s => unfold _Break; rw [all_break]; rfl
  | concat l _ ih =>
    apply all_Concat l ih
    rw [concat_eq]; trivial
  | indent k d _ ih => unfold _Indent; rw [all_indent]; exact ⟨trivial, ih⟩
  | group d _ _ ih => unfold _Group; rw [all_group]; exact ⟨trivial, ih⟩
  | ifFlat a b _ _ _ iha ihb => unfold _IfFlat; rw [all_ifFlat]; exact ⟨trivial, iha, ihb⟩
  | flat d _ _ ih => unfold _Flat; rw [all_flat]; exact ⟨trivial, ih⟩

/-- Without the builder `_Group` no sub-document is a `Group`. -/
theorem built_groupFree {i f : Bool} {d : MeasuredDoc} (h : BuiltWith false i f d) :
    GroupFree d := by
  unfold GroupFree
  induction h with
  | text s => unfold AsciiText; rw [all_text]; rfl
  | brk s => unfold _Break; rw [all_break]; rfl
  | concat l _ ih =>
    apply all_Concat l ih
    rw [concat_eq]; rfl
  | indent k d _ ih => unfold _Indent; rw [all_indent]; exact ⟨rfl, ih⟩
  | group d hg _ _ => cases hg
  | ifFlat a b _ _ _ iha ihb => unfold _IfFlat; rw [all_ifFlat]; exact ⟨rfl, iha, ihb⟩
  | flat d _ _ ih => unfold _Flat; rw [all_flat]; exact ⟨rfl, ih⟩

theorem fits_top (W : Int) (d : MeasuredDoc) (h : 0 ≤ d.measure.flat) :
    _Fits W 0 d _EmptyMeasure = true ↔ d.measure.flat ≤ W := by
  rw [fits_iff W 0 d _ h empty_valid]
  simp [_SuffixLen, _EmptyMeasure]

/-- The printer renders the document with the flag decided by the first fit
test. -/
theorem PrintDoc_eq (W : Int) (d : MeasuredDoc) :
    PrintDoc W d = (render W d 0 (_Fits W 0 d _EmptyMeasure) _EmptyMeasure 0).1 := by
  rw [PrintDoc_eq_render, _Group, render_group]

theorem PrintDoc_Flat (W : Int) (d : MeasuredDoc) :
    PrintDoc W (_Flat d) = (render W d 0 true _EmptyMeasure 0).1 := by
  rw [PrintDoc_eq, _Flat, render_flat_node]

/-- With sufficient width a document with well-formed exact measures is
written flat. -/
theorem PrintDoc_wide (W : Int) (d : MeasuredDoc) (hd : Good d) (hW : d.measure.flat ≤ W) :
    PrintDoc W d = flatText d := by
  rw [PrintDoc_eq, (fits_top W d hd.wf.1).2 hW,
    (render_flat_fits W).1 d hd 0 _ 0 empty_valid
      (by simp only [_SuffixLen, _EmptyMeasure]; simp; omega)]

theorem bareBreak_newline (W : Int) :
    (∀ d : MeasuredDoc, bareBreak d = true → ∀ (indent : Int) (suf : Measure) (p : Int),
      '\n' ∈ (render W d indent false suf p).1) ∧
    (∀ l : List MeasuredDoc, bareBreakAny l = true → ∀ (indent : Int) (suf : Measure) (p : Int),
      '\n' ∈ (renderList W l indent false suf p).1) := by
  apply doc_induction
  · intro s m _ indent suf p
    rw [render_break_nonflat]; simp
  · intro s m h; simp [bareBreak] at h
  · intro k d m ih h indent suf p
    rw [bareBreak] at h
    rw [render_indent]; exact ih h _ _ _
  · intro d m _ h; simp [bareBreak] at h
  · intro d m _ h; simp [bareBreak] at h
  · intro a b m _ _ h; simp [bareBreak] at h
  · intro l m ih h indent suf p
    rw [bareBreak] at h
    rw [render_concat]; exact ih h _ _ _
  · intro h; simp [bareBreakAny] at h
  · intro d l ihd ihl h indent suf p
    rw [bareBreakAny, Bool.or_eq_true] at h
    rw [renderList_cons]
    simp only [List.mem_append]
    rcases h with h | h
    · exact Or.inl (ihd h _ _ _)
    · exact Or.inr (ihl h _ _ _)

theorem mem_expand_of_not_concat (l : List MeasuredDoc) (c : MeasuredDoc) (hc : c ∈ l)
    (h : isConcat c = false) : c ∈ expandConcats l := by
  induction l with
  | nil => cases hc
  | cons d l ih =>
    rw [expandConcats, List.mem_append]
    rcases List.mem_cons.1 hc with rfl | h2
    · left; rw [expand_of_not_concat c h]; simp
    · right; exact ih h2

theorem bareBreakAny_of_mem (l : List MeasuredDoc) (c : MeasuredDoc) (hc : c ∈ l)
    (h : bareBreak c = true) : bareBreakAny l = true := by
  induction l with
  | nil => cases hc
  | cons d l ih =>
    rw [bareBreakAny, Bool.or_eq_true]
    rcases List.mem_cons.1 hc with rfl | h2
    · exact Or.inl h
    · exact Or.inr (ih h2)

/-- A group around a concatenation holding a bare `Break`, too wide for the
line, is written with a newline. -/
theorem PrintDoc_narrow (W : Int) (l : List MeasuredDoc) (s : BigStr) (hs : _Break s ∈ l)
    (hflat : 0 ≤ (_Concat l).measure.flat) (hW : W < (_Concat l).measure.flat) :
    '\n' ∈ PrintDoc W (_Group (_Concat l)) := by
  have hn : _Fits W 0 (_Concat l) _EmptyMeasure = false := by
    rw [← Bool.not_eq_true, fits_top W _ hflat]; omega
  have hn2 : _Fits W 0 (_Group (_Concat l)) _EmptyMeasure = false := hn
  rw [PrintDoc_eq, hn2]
  have e : _Group (_Concat l) = .mk (.Group (_Concat l)) (_Concat l).measure := rfl
  rw [e, render_group, hn]
  apply (bareBreak_newline W).1
  rw [concat_eq, bareBreak]
  apply bareBreakAny_of_mem _ (_Break s) (mem_expand_of_not_concat l _ hs rfl)
  rfl

end pretty

/-! ## Shape of the documents of arrays and records -/

namespace pp_hnode

open pretty MeasuredDoc

/-- A non-empty array or a record with fields is encoded as a `Group` around a
concatenation that holds the bare `Break("")` before the closing delimiter. -/
theorem HNode_shape (rt : Runtime) (enc : HNodeEncoder) (h : hnode_t)
    (hc : hasChildren h = true) :
    ∃ l, HNode rt enc h = _Group (_Concat l) ∧ _Break [] ∈ l := by
  unfold HNode
  cases h with
  | AlreadySeen heap_id => simp [hasChildren] at hc
  | Leaf s color => simp [hasChildren] at hc
  | Array children =>
    cases children with
    | nil => simp [hasChildren] at hc
    | cons c cs =>
      rw [_HNode]
      simp only [List.length_cons, Nat.add_one_ne_zero, if_false]
      exact ⟨_, rfl, by simp⟩
  | Record node_type left right fields unnamed_fields =>
    rw [record_eq]
    have hm : ∃ l, recordMdocs rt enc fields unnamed_fields = some l := by
      cases unnamed_fields with
      | none =>
        cases fields with
        | nil => simp [hasChildren] at hc
        | cons f fs => exact ⟨_Field.items rt enc (f :: fs), by rw [recordMdocs_none]; simp⟩
      | some u =>
        cases u with
        | nil =>
          cases fields with
          | nil => simp [hasChildren] at hc
          | cons f fs => exact ⟨_Field.items rt enc (f :: fs), by rw [recordMdocs_nil]; simp⟩
        | cons u us => exact ⟨_, rfl⟩
    obtain ⟨l, hl⟩ := hm
    rw [hl]
    unfold _HNode.record
    simp only
    cases recordTypeName enc node_type with
    | none => exact ⟨_, rfl, by simp⟩
    | some t => exact ⟨_, rfl, by simp⟩

end pp_hnode

/-! ## Width respect: an invariant of the loop -/

namespace pretty

open MeasuredDoc

end pretty

namespace pretty

open MeasuredDoc

theorem step_text (W : Int) (buf : BigStr) (p : Int) (s : BigStr) (m : Measure) (indent : Int)
    (fl : Bool) (suf : Measure) (fs : List DocFragment) :
    PrintDoc.step W ⟨buf, p, ⟨.mk (.Text s) m, indent, fl, suf⟩ :: fs⟩ =
      ⟨buf ++ s, p + m.flat, fs⟩ := rfl

theorem step_break_flat (W : Int) (buf : BigStr) (p : Int) (s : BigStr) (m : Measure)
    (indent : Int) (suf : Measure) (fs : List DocFragment) :
    PrintDoc.step W ⟨buf, p, ⟨.mk (.Break s) m, indent, true, suf⟩ :: fs⟩ =
      ⟨buf ++ s, p + m.flat, fs⟩ := rfl

theorem step_break_nonflat (W : Int) (buf : BigStr) (p : Int) (s : BigStr) (m : Measure)
    (indent : Int) (suf : Measure) (fs : List DocFragment) :
    PrintDoc.step W ⟨buf, p, ⟨.mk (.Break s) m, indent, false, suf⟩ :: fs⟩ =
      ⟨write_spaces (buf ++ ['\n']) indent, indent, fs⟩ := rfl

theorem step_indent (W : Int) (buf : BigStr) (p : Int) (k : Int) (c : MeasuredDoc) (m : Measure)
    (indent : Int) (fl : Bool) (suf : Measure) (fs : List DocFragment) :
    PrintDoc.step W ⟨buf, p, ⟨.mk (.Indent k c) m, indent, fl, suf⟩ :: fs⟩ =
      ⟨buf, p, ⟨c, indent + k, fl, suf⟩ :: fs⟩ := rfl

theorem step_group (W : Int) (buf : BigStr) (p : Int) (c : MeasuredDoc) (m : Measure)
    (indent : Int) (fl : Bool) (suf : Measure) (fs : List DocFragment) :
    PrintDoc.step W ⟨buf, p, ⟨.mk (.Group c) m, indent, fl, suf⟩ :: fs⟩ =
      ⟨buf, p, ⟨c, indent, _Fits W p c suf, suf⟩ :: fs⟩ := rfl

end pretty

namespace pretty

open MeasuredDoc

end pretty


/-! ## Style transparency -/

theorem stripFrom_text_cons (c : Char) (cs : BigStr) (h : c ≠ ansi.ESC) :
    stripFrom .text (c :: cs) = c :: stripFrom .text cs := by
  rw [stripFrom, if_neg h]

/-- A string without `ESC` is kept as it is. -/
theorem strip_plain (s : BigStr) (h : ansi.ESC ∉ s) (rest : BigStr) :
    stripCSI (s ++ rest) = s ++ stripCSI rest := by
  unfold stripCSI
  induction s with
  | nil => rfl
  | cons c cs ih =>
    have hc : c ≠ ansi.ESC := fun e => h (e ▸ List.mem_cons_self _ _)
    have hcs : ansi.ESC ∉ cs := fun e => h (List.mem_cons_of_mem _ e)
    rw [List.cons_append, stripFrom_text_cons c _ hc, ih hcs]
    rfl

theorem strip_plain_self (s : BigStr) (h : ansi.ESC ∉ s) : stripCSI s = s := by
  have := strip_plain s h []
  simpa [stripCSI, stripFrom] using this

namespace ansi

theorem isStyle_RESET : IsStyle RESET := fun _ => rfl

theorem isStyle_BOLD : IsStyle BOLD := fun _ => rfl

theorem isStyle_YELLOW : IsStyle YELLOW := fun _ => rfl

theorem isStyle_GREEN : IsStyle GREEN := fun _ => rfl

theorem isStyle_BLUE : IsStyle BLUE := fun _ => rfl

theorem isStyle_append (a b : BigStr) (ha : IsStyle a) (hb : IsStyle b) : IsStyle (a ++ b) := by
  intro rest
  rw [List.append_assoc, ha, hb]

end ansi

namespace pretty

open MeasuredDoc

theorem unstyle_measure (d : MeasuredDoc) : (unstyle d).measure = d.measure := by
  cases d with
  | mk dd m => cases dd <;> rw [unstyle] <;> rfl

theorem unstyleList_eq_map (l : List MeasuredDoc) : unstyleList l = l.map unstyle := by
  induction l with
  | nil => rfl
  | cons d l ih => rw [unstyleList, ih]; rfl

theorem suffixOf_unstyle (l : List MeasuredDoc) (s : Measure) :
    suffixOf (unstyleList l) s = suffixOf l s := by
  induction l with
  | nil => rfl
  | cons d l ih =>
    rw [unstyleList]
    show _ConcatMeasure (unstyle d).measure (suffixOf (unstyleList l) s) = _
    rw [ih, unstyle_measure]
    rfl

theorem measureOf_unstyle (l : List MeasuredDoc) : measureOf (unstyleList l) = measureOf l := by
  unfold measureOf
  generalize _EmptyMeasure = m
  induction l generalizing m with
  | nil => rfl
  | cons d l ih =>
    rw [unstyleList, List.foldl_cons, List.foldl_cons, unstyle_measure, ih]

theorem fits_unstyle (W p : Int) (d : MeasuredDoc) (s : Measure) :
    _Fits W p (unstyle d) s = _Fits W p d s := by
  unfold _Fits
  rw [unstyle_measure]

theorem strip_newline_spaces (n : Nat) (rest : BigStr) :
    stripCSI (('\n' :: List.replicate n ' ') ++ rest) =
      ('\n' :: List.replicate n ' ') ++ stripCSI rest := by
  apply strip_plain
  intro h
  rcases List.mem_cons.1 h with h1 | h1
  · revert h1; decide
  · have := List.eq_of_mem_replicate h1
    revert this; decide

/-- The renderer writes, for the unstyled document, what it writes for the
document itself with the CSI sequences removed, and leaves the same
`prefix_len`. -/
theorem render_unstyle (W : Int) :
    (∀ d : MeasuredDoc, Clean d → ∀ (indent : Int) (fl : Bool) (suf : Measure) (p : Int),
      (render W (unstyle d) indent fl suf p).2 = (render W d indent fl suf p).2 ∧
      ∀ rest, stripCSI ((render W d indent fl suf p).1 ++ rest) =
        (render W (unstyle d) indent fl suf p).1 ++ stripCSI rest) ∧
    (∀ l : List MeasuredDoc, (∀ c ∈ l, Clean c) →
      ∀ (indent : Int) (fl : Bool) (suf : Measure) (p : Int),
      (renderList W (unstyleList l) indent fl suf p).2 = (renderList W l indent fl suf p).2 ∧
      ∀ rest, stripCSI ((renderList W l indent fl suf p).1 ++ rest) =
        (renderList W (unstyleList l) indent fl suf p).1 ++ stripCSI rest) := by
  apply doc_induction
  · intro s m h indent fl suf p
    have hs : ansi.ESC ∉ s := (all_break s m).1 h
    rw [unstyle]
    cases fl with
    | true =>
      rw [render_break_flat]
      exact ⟨rfl, fun rest => strip_plain s hs rest⟩
    | false =>
      rw [render_break_nonflat]
      exact ⟨rfl, fun rest => strip_newline_spaces _ rest⟩
  · intro s m h indent fl suf p
    have hs : Complete s := (all_text s m).1 h
    rw [unstyle, render_text, render_text]
    exact ⟨rfl, fun rest => hs rest⟩
  · intro k d m ih h indent fl suf p
    rw [unstyle, render_indent, render_indent]
    exact ih ((all_indent k d m).1 h).2 _ _ _ _
  · intro d m ih h indent fl suf p
    rw [unstyle, render_group, render_group, fits_unstyle]
    exact ih ((all_group d m).1 h).2 _ _ _ _
  · intro d m ih h indent fl suf p
    rw [unstyle, render_flat_node, render_flat_node]
    exact ih ((all_flat d m).1 h).2 _ _ _ _
  · intro a b m iha ihb h indent fl suf p
    have h2 := (all_ifFlat a b m).1 h
    rw [unstyle]
    cases fl with
    | true =>
      rw [render_ifFlat_flat, render_ifFlat_flat]
      exact iha h2.2.1 _ _ _ _
    | false =>
      rw [render_ifFlat_nonflat, render_ifFlat_nonflat]
      exact ihb h2.2.2 _ _ _ _
  · intro l m ih h indent fl suf p
    rw [unstyle, render_concat, render_concat]
    exact ih ((all_concat l m).1 h).2 _ _ _ _
  · intro _ indent fl suf p
    rw [unstyleList, renderList_nil]
    exact ⟨rfl, fun rest => rfl⟩
  · intro d l ihd ihl h indent fl suf p
    have h1 := ihd (h d (List.mem_cons_self _ _)) indent fl (suffixOf l suf) p
    rw [unstyleList, renderList_cons, renderList_cons, suffixOf_unstyle, h1.1]
    have h2 := ihl (fun c hc => h c (List.mem_cons_of_mem _ hc)) indent fl suf
      (render W d indent fl (suffixOf l suf) p).2
    refine ⟨h2.1, ?_⟩
    intro rest
    simp only [List.append_assoc]
    rw [h1.2, h2.2]

/-- Printing the unstyled document gives the output of the document itself
with the CSI sequences removed. -/
theorem PrintDoc_unstyle (W : Int) (d : MeasuredDoc) (h : Clean d) :
    PrintDoc W (unstyle d) = stripCSI (PrintDoc W d) := by
  rw [PrintDoc_eq, PrintDoc_eq, fits_unstyle]
  have := ((render_unstyle W).1 d h 0 (_Fits W 0 d _EmptyMeasure) _EmptyMeasure 0).2 []
  simp only [List.append_nil] at this
  rw [this]
  simp [stripCSI, stripFrom]

end pretty

namespace pretty

open MeasuredDoc pp_hnode

theorem expand_unstyle :
    (∀ d : MeasuredDoc, expandConcat (unstyle d) = unstyleList (expandConcat d)) ∧
    (∀ l : List MeasuredDoc, expandConcats (unstyleList l) = unstyleList (expandConcats l)) := by
  apply doc_induction
  · intro s m; simp [unstyle, expandConcat, unstyleList]
  · intro s m; simp [unstyle, expandConcat, unstyleList]
  · intro k d m _; simp [unstyle, expandConcat, unstyleList]
  · intro d m _; simp [unstyle, expandConcat, unstyleList]
  · intro d m _; simp [unstyle, expandConcat, unstyleList]
  · intro a b m _ _; simp [unstyle, expandConcat, unstyleList]
  · intro l m ih
    rw [unstyle, expandConcat, expandConcat, ih]
  · rfl
  · intro d l ihd ihl
    rw [unstyleList, expandConcats, expandConcats, ihd, ihl]
    simp [unstyleList_eq_map]

theorem unstyle_Concat (l : List MeasuredDoc) :
    unstyle (_Concat l) = _Concat (unstyleList l) := by
  rw [concat_eq, concat_eq, unstyle, expand_unstyle.2, measureOf_unstyle]

theorem unstyle_AsciiText (s : BigStr) (h : ansi.ESC ∉ s) : unstyle (AsciiText s) = AsciiText s := by
  rw [AsciiText, unstyle, strip_plain_self s h]

theorem unstyle_Break (s : BigStr) : unstyle (_Break s) = _Break s := by
  rw [_Break, unstyle]

theorem unstyle_Indent (k : Int) (d : MeasuredDoc) :
    unstyle (_Indent k d) = _Indent k (unstyle d) := by
  rw [_Indent, unstyle, _Indent, unstyle_measure]

theorem unstyle_Group (d : MeasuredDoc) : unstyle (_Group d) = _Group (unstyle d) := by
  rw [_Group, unstyle, _Group, unstyle_measure]

theorem unstyle_Flat (d : MeasuredDoc) : unstyle (_Flat d) = _Flat (unstyle d) := by
  rw [_Flat, unstyle, _Flat, unstyle_measure]

theorem unstyle_IfFlat (a b : MeasuredDoc) :
    unstyle (_IfFlat a b) = _IfFlat (unstyle a) (unstyle b) := by
  rw [_IfFlat, unstyle, _IfFlat, unstyle_measure, unstyle_measure]

theorem unstyleList_append (a b : List MeasuredDoc) :
    unstyleList (a ++ b) = unstyleList a ++ unstyleList b := by
  simp [unstyleList_eq_map]

theorem unstyleList_length (l : List MeasuredDoc) : (unstyleList l).length = l.length := by
  simp [unstyleList_eq_map]

theorem unstyle_join_loop (sep space : BigStr) (hsep : ansi.ESC ∉ sep)
    (items : List MeasuredDoc) (i : Nat) (seq : List MeasuredDoc) :
    _Join.loop sep space (unstyleList items) i (unstyleList seq) =
      unstyleList (_Join.loop sep space items i seq) := by
  induction items generalizing i seq with
  | nil => rfl
  | cons x items ih =>
    rw [unstyleList, _Join.loop, _Join.loop, ← ih]
    congr 1
    by_cases hi : i = 0
    · simp [hi, unstyleList_append, unstyleList]
    · simp [hi, unstyleList_append, unstyleList, unstyle_AsciiText sep hsep, unstyle_Break]

theorem unstyle_Join (items : List MeasuredDoc) (sep space : BigStr) (hsep : ansi.ESC ∉ sep) :
    unstyle (_Join items sep space) = _Join (unstyleList items) sep space := by
  rw [_Join, unstyle_Concat, ← unstyle_join_loop sep space hsep, _Join]
  rfl

theorem unstyle_tabular_loop1 (sep : BigStr) (hsep : ansi.ESC ∉ sep)
    (items : List MeasuredDoc) (i : Nat) (seq : List MeasuredDoc) (mx : Int) :
    _Tabular.loop1 sep (unstyleList items) i (unstyleList seq) mx =
      (unstyleList (_Tabular.loop1 sep items i seq mx).1,
        (_Tabular.loop1 sep items i seq mx).2) := by
  induction items generalizing i seq mx with
  | nil => rfl
  | cons x items ih =>
    rw [unstyleList, _Tabular.loop1, _Tabular.loop1, ← ih, unstyle_measure]
    congr 1
    by_cases hi : i = 0
    · simp [hi, unstyleList_append, unstyleList]
    · simp [hi, unstyleList_append, unstyleList, unstyle_AsciiText sep hsep, unstyle_Break]

theorem unstyle_tabular_loop2 (sep : BigStr) (hsep : ansi.ESC ∉ sep) (mx : Int) (n : Nat)
    (items : List MeasuredDoc) (i : Nat) (seq : List MeasuredDoc) :
    _Tabular.loop2 sep mx n (unstyleList items) i (unstyleList seq) =
      unstyleList (_Tabular.loop2 sep mx n items i seq) := by
  induction items generalizing i seq with
  | nil => rfl
  | cons x items ih =>
    rw [unstyleList, _Tabular.loop2, _Tabular.loop2, ← ih, unstyle_measure]
    congr 1
    by_cases hi : (i : Int) = (n : Int) - 1
    · simp [hi, unstyleList_append, unstyleList, unstyle_Flat]
    · simp [hi, unstyleList_append, unstyleList, unstyle_Flat, unstyle_AsciiText sep hsep,
        unstyle_Group, unstyle_Break]

end pretty

namespace pretty

open MeasuredDoc pp_hnode

theorem complete_plain (s : BigStr) (h : ansi.ESC ∉ s) : Complete s := by
  intro rest
  rw [strip_plain s h, strip_plain_self s h]

theorem clean_AsciiText (s : BigStr) (h : ansi.ESC ∉ s) : Clean (AsciiText s) := by
  unfold Clean AsciiText
  rw [all_text]
  exact complete_plain s h

theorem clean_Break (s : BigStr) (h : ansi.ESC ∉ s) : Clean (_Break s) := by
  unfold Clean _Break
  rw [all_break]
  exact h

theorem clean_Indent (k : Int) (d : MeasuredDoc) (h : Clean d) : Clean (_Indent k d) := by
  unfold Clean _Indent
  rw [all_indent]
  exact ⟨trivial, h⟩

theorem clean_Group (d : MeasuredDoc) (h : Clean d) : Clean (_Group d) := by
  unfold Clean _Group
  rw [all_group]
  exact ⟨trivial, h⟩

theorem clean_Flat (d : MeasuredDoc) (h : Clean d) : Clean (_Flat d) := by
  unfold Clean _Flat
  rw [all_flat]
  exact ⟨trivial, h⟩

theorem clean_IfFlat (a b : MeasuredDoc) (ha : Clean a) (hb : Clean b) :
    Clean (_IfFlat a b) := by
  unfold Clean _IfFlat
  rw [all_ifFlat]
  exact ⟨trivial, ha, hb⟩

theorem clean_Concat (l : List MeasuredDoc) (h : ∀ c ∈ l, Clean c) : Clean (_Concat l) := by
  apply all_Concat l h
  rw [concat_eq]
  trivial

theorem esc_not_mem_nil : ansi.ESC ∉ ([] : BigStr) := by
  intro h; cases h

theorem esc_not_mem_space : ansi.ESC ∉ [' '] := by decide

theorem esc_not_mem_spaces (n : Int) : ansi.ESC ∉ str_repeat [' '] n := by
  unfold str_repeat
  intro h
  rw [List.mem_flatten] at h
  obtain ⟨l, hl, hc⟩ := h
  have := List.eq_of_mem_replicate hl
  subst this
  revert hc
  decide

theorem clean_Join (items : List MeasuredDoc) (sep space : BigStr) (hsep : ansi.ESC ∉ sep)
    (hsp : ansi.ESC ∉ space) (h : ∀ c ∈ items, Clean c) : Clean (_Join items sep space) := by
  unfold _Join
  apply clean_Concat
  exact join_loop_all Clean sep space (clean_AsciiText sep hsep) (clean_Break space hsp)
    items 0 [] h (by intro c hc; cases hc)

theorem clean_Tabular (enc : HNodeEncoder) (items : List MeasuredDoc) (sep : BigStr)
    (hsep : ansi.ESC ∉ sep) (h : ∀ c ∈ items, Clean c) : Clean (_Tabular enc items sep) := by
  have hseq : ∀ c ∈ (_Tabular.loop1 sep items 0 [] 0).1, Clean c :=
    tabular_loop1_all Clean sep (clean_AsciiText sep hsep) (clean_Break _ esc_not_mem_space)
      items 0 [] 0 h (by intro c hc; cases hc)
  unfold _Tabular
  by_cases h0 : items.length = 0
  · rw [if_pos h0]; exact clean_AsciiText _ esc_not_mem_nil
  · rw [if_neg h0]
    simp only
    split_ifs
    · apply clean_Group
      apply clean_IfFlat _ _ (clean_Concat _ hseq)
      apply clean_Concat
      exact tabular_loop2_all Clean sep _ _ (clean_AsciiText sep hsep)
        (fun _ => clean_Group _ (clean_Break _ (esc_not_mem_spaces _))) items 0 []
        (fun c hc => clean_Flat c (h c hc)) (by intro c hc; cases hc)
    · exact clean_Concat _ hseq

end pretty

namespace pp_hnode

open pretty MeasuredDoc

theorem unstyle_Tabular (e1 e2 : HNodeEncoder) (hm : e1.max_tabular_width = e2.max_tabular_width)
    (items : List MeasuredDoc) (sep : BigStr) (hsep : ansi.ESC ∉ sep) :
    unstyle (_Tabular e1 items sep) = _Tabular e2 (unstyleList items) sep := by
  have e := unstyle_tabular_loop1 sep hsep items 0 [] 0
  rw [show unstyleList [] = [] from rfl] at e
  unfold _Tabular
  rw [unstyleList_length]
  by_cases h0 : items.length = 0
  · rw [if_pos h0, if_pos h0]
    exact unstyle_AsciiText _ esc_not_mem_nil
  · rw [if_neg h0, if_neg h0]
    simp only
    rw [e, hm]
    simp only
    split_ifs
    · rw [unstyle_Group, unstyle_IfFlat, unstyle_Concat, unstyle_Concat,
        ← unstyle_tabular_loop2 sep hsep]
      rfl
    · rw [unstyle_Concat]

theorem unstyle_Surrounded (e1 e2 : HNodeEncoder) (hi : e1.indent = e2.indent)
    (left right : BigStr) (hl : ansi.ESC ∉ left) (hr : ansi.ESC ∉ right) (d : MeasuredDoc) :
    unstyle (_Surrounded e1 left d right) = _Surrounded e2 left (unstyle d) right := by
  unfold _Surrounded
  rw [unstyle_Group, unstyle_Concat, hi]
  simp only [unstyleList, unstyle_AsciiText left hl, unstyle_AsciiText right hr, unstyle_Break,
    unstyle_Indent, unstyle_Concat]

theorem unstyle_SurroundedAndPrefixed (e1 e2 : HNodeEncoder) (hi : e1.indent = e2.indent)
    (left right sep : BigStr) (hl : ansi.ESC ∉ left) (hr : ansi.ESC ∉ right)
    (pfx d : MeasuredDoc) :
    unstyle (_SurroundedAndPrefixed e1 left pfx sep d right) =
      _SurroundedAndPrefixed e2 left (unstyle pfx) sep (unstyle d) right := by
  unfold _SurroundedAndPrefixed
  rw [unstyle_Group, unstyle_Concat, hi]
  simp only [unstyleList, unstyle_AsciiText left hl, unstyle_AsciiText right hr, unstyle_Break,
    unstyle_Indent, unstyle_Concat]

theorem strip_styled (style s : BigStr) (hst : ansi.IsStyle style) (hs : ansi.ESC ∉ s)
    (rest : BigStr) : stripCSI (style ++ s ++ ansi.RESET ++ rest) = s ++ stripCSI rest := by
  rw [List.append_assoc, List.append_assoc, hst, strip_plain s hs, ansi.isStyle_RESET]

theorem unstyle_StyledAscii (e1 e2 : HNodeEncoder) (h1 : e1.use_styles = true)
    (h2 : e2.use_styles = false) (style s : BigStr) (hst : ansi.IsStyle style)
    (hs : ansi.ESC ∉ s) :
    unstyle (_StyledAscii e1 style s) = _StyledAscii e2 style s := by
  unfold _StyledAscii
  simp only [h1, h2, if_true, Bool.false_eq_true, if_false]
  rw [unstyle]
  have := strip_styled style s hst hs []
  simp only [List.append_nil] at this
  rw [this]
  simp [stripCSI, stripFrom]

theorem clean_StyledAscii (e1 : HNodeEncoder) (h1 : e1.use_styles = true) (style s : BigStr)
    (hst : ansi.IsStyle style) (hs : ansi.ESC ∉ s) : Clean (_StyledAscii e1 style s) := by
  unfold _StyledAscii Clean
  simp only [h1, if_true]
  rw [all_text]
  intro rest
  have e := strip_styled style s hst hs []
  simp only [List.append_nil] at e
  rw [strip_styled style s hst hs rest, e]
  simp [stripCSI, stripFrom]

theorem clean_Surrounded (enc : HNodeEncoder) (left right : BigStr) (hl : ansi.ESC ∉ left)
    (hr : ansi.ESC ∉ right) (d : MeasuredDoc) (h : Clean d) :
    Clean (_Surrounded enc left d right) := by
  unfold _Surrounded
  apply clean_Group
  apply clean_Concat
  intro c hc
  simp only [List.mem_cons, List.mem_singleton, List.not_mem_nil, or_false] at hc
  rcases hc with rfl | rfl | rfl | rfl
  · exact clean_AsciiText _ hl
  · apply clean_Indent
    apply clean_Concat
    intro c hc
    simp only [List.mem_cons, List.mem_singleton, List.not_mem_nil, or_false] at hc
    rcases hc with rfl | rfl
    · exact clean_Break _ esc_not_mem_nil
    · exact h
  · exact clean_Break _ esc_not_mem_nil
  · exact clean_AsciiText _ hr

theorem clean_SurroundedAndPrefixed (enc : HNodeEncoder) (left right sep : BigStr)
    (hl : ansi.ESC ∉ left) (hr : ansi.ESC ∉ right) (hsep : ansi.ESC ∉ sep)
    (pfx d : MeasuredDoc) (hp : Clean pfx) (h : Clean d) :
    Clean (_SurroundedAndPrefixed enc left pfx sep d right) := by
  unfold _SurroundedAndPrefixed
  apply clean_Group
  apply clean_Concat
  intro c hc
  simp only [List.mem_cons, List.mem_singleton, List.not_mem_nil, or_false] at hc
  rcases hc with rfl | rfl | rfl | rfl | rfl
  · exact clean_AsciiText _ hl
  · exact hp
  · apply clean_Indent
    apply clean_Concat
    intro c hc
    simp only [List.mem_cons, List.mem_singleton, List.not_mem_nil, or_false] at hc
    rcases hc with rfl | rfl
    · exact clean_Break _ hsep
    · exact h
  · exact clean_Break _ esc_not_mem_nil
  · exact clean_AsciiText _ hr

/-- The tail of the `Record` case under `unstyle`. -/
theorem unstyle_record (e1 e2 : HNodeEncoder) (hi : e1.indent = e2.indent)
    (left right : BigStr) (hl : ansi.ESC ∉ left) (hr : ansi.ESC ∉ right)
    (tn : Option MeasuredDoc) (md : Option (List MeasuredDoc)) :
    unstyle (_HNode.record e1 left right tn md) =
      _HNode.record e2 left right (tn.map unstyle) (md.map unstyleList) := by
  unfold _HNode.record
  cases md with
  | none =>
    cases tn with
    | none =>
      simp only [Option.map_none']
      rw [unstyle_Concat]
      simp only [List.append_eq, List.cons_append, List.nil_append, unstyleList,
        unstyle_AsciiText left hl, unstyle_AsciiText right hr]
    | some t =>
      simp only [Option.map_none', Option.map_some']
      rw [unstyle_Concat]
      simp only [List.append_eq, List.cons_append, List.nil_append, unstyleList,
        unstyle_AsciiText left hl, unstyle_AsciiText right hr]
  | some l =>
    cases tn with
    | none =>
      simp only [Option.map_none', Option.map_some']
      rw [unstyle_Surrounded e1 e2 hi left right hl hr, unstyle_Join _ _ _ esc_not_mem_nil]
    | some t =>
      simp only [Option.map_some']
      rw [unstyle_SurroundedAndPrefixed e1 e2 hi left right _ hl hr,
        unstyle_Join _ _ _ esc_not_mem_nil]

theorem clean_record (enc : HNodeEncoder) (left right : BigStr) (hl : ansi.ESC ∉ left)
    (hr : ansi.ESC ∉ right) (tn : Option MeasuredDoc) (md : Option (List MeasuredDoc))
    (ht : ∀ t, tn = some t → Clean t) (hm : ∀ l, md = some l → ∀ c ∈ l, Clean c) :
    Clean (_HNode.record enc left right tn md) := by
  unfold _HNode.record
  cases md with
  | none =>
    apply clean_Concat
    intro c hc
    cases tn with
    | none =>
      simp only [List.mem_append, List.mem_singleton] at hc
      rcases hc with rfl | rfl
      · exact clean_AsciiText _ hl
      · exact clean_AsciiText _ hr
    | some t =>
      simp only [List.mem_append, List.mem_singleton] at hc
      rcases hc with (rfl | rfl) | rfl
      · exact clean_AsciiText _ hl
      · exact ht _ rfl
      · exact clean_AsciiText _ hr
  | some l =>
    have hj := clean_Join l [] [' '] esc_not_mem_nil esc_not_mem_space (hm l rfl)
    cases tn with
    | none => exact clean_Surrounded enc _ _ hl hr _ hj
    | some t =>
      exact clean_SurroundedAndPrefixed enc _ _ _ hl hr esc_not_mem_space _ _ (ht t rfl) hj

theorem isStyle_leafColor (color : color_e) : ansi.IsStyle (leafColor color) := by
  cases color
  · exact ansi.isStyle_YELLOW
  · exact ansi.isStyle_BOLD
  · exact ansi.isStyle_GREEN
  · exact ansi.isStyle_append _ _ ansi.isStyle_BOLD ansi.isStyle_BLUE
  · exact ansi.isStyle_GREEN

end pp_hnode

namespace pp_hnode

open pretty MeasuredDoc

theorem hnodeStrings_list_cons (rt : Runtime) (h : hnode_t) (l : List hnode_t) :
    hnodeStrings.list rt (h :: l) = hnodeStrings rt h ++ hnodeStrings.list rt l := by
  rw [hnodeStrings.list]

theorem hnodeStrings_fields_cons (rt : Runtime) (f : hnode_asdl.Field)
    (l : List hnode_asdl.Field) :
    hnodeStrings.fields rt (f :: l) = hnodeStrings.field rt f ++ hnodeStrings.fields rt l := by
  rw [hnodeStrings.fields]

theorem unstyle_typeName (e1 e2 : HNodeEncoder) (ht : e1.type_color = e2.type_color)
    (h1 : e1.use_styles = true) (h2 : e2.use_styles = false)
    (hst : ansi.IsStyle e1.type_color) (node_type : BigStr) (hn : ansi.ESC ∉ node_type) :
    (recordTypeName e1 node_type).map unstyle = recordTypeName e2 node_type := by
  unfold recordTypeName
  split_ifs
  · simp only [Option.map_some']
    rw [unstyle_StyledAscii e1 e2 h1 h2 _ _ hst hn, ht]
  · rfl

/-- With styles on, the document of a tree whose strings hold no `ESC` is
clean, and removing its CSI sequences gives the document made with styles
off. -/
theorem unstyle_HNode (rt : Runtime) (e1 e2 : HNodeEncoder) (hi : e1.indent = e2.indent)
    (hm : e1.max_tabular_width = e2.max_tabular_width) (ht : e1.type_color = e2.type_color)
    (h1 : e1.use_styles = true) (h2 : e2.use_styles = false)
    (hst : ansi.IsStyle e1.type_color) (h : hnode_t) :
    (∀ s ∈ hnodeStrings rt h, ansi.ESC ∉ s) →
      unstyle (_HNode rt e1 h) = _HNode rt e2 h ∧ Clean (_HNode rt e1 h) := by
  apply hnode_induction
    (P := fun h => (∀ s ∈ hnodeStrings rt h, ansi.ESC ∉ s) →
      unstyle (_HNode rt e1 h) = _HNode rt e2 h ∧ Clean (_HNode rt e1 h))
    (Q := fun l => (∀ s ∈ hnodeStrings.list rt l, ansi.ESC ∉ s) →
      unstyleList (_HNode.items rt e1 l) = _HNode.items rt e2 l ∧
        ∀ c ∈ _HNode.items rt e1 l, Clean c)
    (F := fun f => (∀ s ∈ hnodeStrings.field rt f, ansi.ESC ∉ s) →
      unstyle (_Field rt e1 f) = _Field rt e2 f ∧ Clean (_Field rt e1 f))
    (G := fun l => (∀ s ∈ hnodeStrings.fields rt l, ansi.ESC ∉ s) →
      unstyleList (_Field.items rt e1 l) = _Field.items rt e2 l ∧
        ∀ c ∈ _Field.items rt e1 l, Clean c)
  · intro heap_id hs
    rw [hnodeStrings] at hs
    have h0 := hs _ (List.mem_singleton.2 rfl)
    rw [_HNode, _HNode]
    exact ⟨unstyle_AsciiText _ h0, clean_AsciiText _ h0⟩
  · intro s color hs
    rw [hnodeStrings] at hs
    have h0 := hs _ (List.mem_singleton.2 rfl)
    rw [_HNode, _HNode]
    exact ⟨unstyle_StyledAscii e1 e2 h1 h2 _ _ (isStyle_leafColor color) h0,
      clean_StyledAscii e1 h1 _ _ (isStyle_leafColor color) h0⟩
  · intro children ih hs
    rw [hnodeStrings] at hs
    obtain ⟨e, hc⟩ := ih hs
    rw [_HNode, _HNode]
    split_ifs
    · exact ⟨unstyle_AsciiText _ (by decide), clean_AsciiText _ (by decide)⟩
    · refine ⟨?_, ?_⟩
      · rw [unstyle_Surrounded e1 e2 hi _ _ (by decide) (by decide),
          unstyle_Tabular e1 e2 hm _ _ esc_not_mem_nil, e]
      · exact clean_Surrounded e1 _ _ (by decide) (by decide) _
          (clean_Tabular e1 _ _ esc_not_mem_nil hc)
  · intro node_type left right fields unnamed_fields ihf ihu hs
    rw [hnodeStrings] at hs
    have hnt : ansi.ESC ∉ node_type := hs _ (List.mem_cons_self _ _)
    have hl : ansi.ESC ∉ left := hs _ (List.mem_cons_of_mem _ (List.mem_cons_self _ _))
    have hr : ansi.ESC ∉ right :=
      hs _ (List.mem_cons_of_mem _ (List.mem_cons_of_mem _ (List.mem_cons_self _ _)))
    have hf : ∀ s ∈ hnodeStrings.fields rt fields, ansi.ESC ∉ s := fun s h =>
      hs s (List.mem_cons_of_mem _ (List.mem_cons_of_mem _ (List.mem_cons_of_mem _
        (List.mem_append_left _ h))))
    have hu : ∀ s ∈ hnodeStrings.opt rt unnamed_fields, ansi.ESC ∉ s := fun s h =>
      hs s (List.mem_cons_of_mem _ (List.mem_cons_of_mem _ (List.mem_cons_of_mem _
        (List.mem_append_right _ h))))
    obtain ⟨ef, cf⟩ := ihf hf
    have hmd : (recordMdocs rt e1 fields unnamed_fields).map unstyleList =
        recordMdocs rt e2 fields unnamed_fields ∧
        ∀ l, recordMdocs rt e1 fields unnamed_fields = some l → ∀ c ∈ l, Clean c := by
      cases unnamed_fields with
      | none =>
        rw [recordMdocs_none, recordMdocs_none]
        split_ifs
        · exact ⟨by rw [Option.map_some', ef], fun l hl => by cases hl; exact cf⟩
        · exact ⟨rfl, fun l hl => by cases hl⟩
      | some u =>
        cases u with
        | nil =>
          rw [recordMdocs_nil, recordMdocs_nil]
          split_ifs
          · exact ⟨by rw [Option.map_some', ef], fun l hl => by cases hl; exact cf⟩
          · exact ⟨rfl, fun l hl => by cases hl⟩
        | cons u us =>
          rw [hnodeStrings.opt] at hu
          obtain ⟨eu, cu⟩ := ihu (u :: us) rfl hu
          rw [recordMdocs_cons, recordMdocs_cons]
          exact ⟨by rw [Option.map_some', eu], fun l hl => by cases hl; exact cu⟩
    rw [record_eq, record_eq]
    refine ⟨?_, ?_⟩
    · rw [unstyle_record e1 e2 hi left right hl hr, unstyle_typeName e1 e2 ht h1 h2 hst _ hnt,
        hmd.1]
    · apply clean_record e1 left right hl hr
      · intro t htn
        unfold recordTypeName at htn
        split_ifs at htn
        cases htn
        exact clean_StyledAscii e1 h1 _ _ hst hnt
      · exact hmd.2
  · intro name val ih hs
    rw [hnodeStrings.field] at hs
    have hn : ansi.ESC ∉ name ++ [':'] := by
      intro hmem
      rcases List.mem_append.1 hmem with h | h
      · exact hs _ (List.mem_cons_self _ _) h
      · revert h; decide
    obtain ⟨ev, cv⟩ := ih (fun s h => hs s (List.mem_cons_of_mem _ h))
    rw [_Field, _Field]
    refine ⟨?_, ?_⟩
    · rw [unstyle_Concat]
      simp only [unstyleList, unstyle_AsciiText _ hn, ev]
    · apply clean_Concat
      intro c hc
      simp only [List.mem_cons, List.mem_singleton, List.not_mem_nil, or_false] at hc
      rcases hc with rfl | rfl
      · exact clean_AsciiText _ hn
      · exact cv
  · intro _
    rw [items_nil, items_nil]
    exact ⟨rfl, fun c hc => by cases hc⟩
  · intro h l ihh ihl hs
    rw [hnodeStrings_list_cons] at hs
    obtain ⟨e1', c1⟩ := ihh (fun s hx => hs s (List.mem_append_left _ hx))
    obtain ⟨e2', c2⟩ := ihl (fun s hx => hs s (List.mem_append_right _ hx))
    rw [items_cons, items_cons, unstyleList, e1', e2']
    refine ⟨rfl, ?_⟩
    intro c hc
    rcases List.mem_cons.1 hc with rfl | h3
    · exact c1
    · exact c2 c h3
  · intro _
    rw [fields_nil, fields_nil]
    exact ⟨rfl, fun c hc => by cases hc⟩
  · intro f l ihf ihl hs
    rw [hnodeStrings_fields_cons] at hs
    obtain ⟨e1', c1⟩ := ihf (fun s hx => hs s (List.mem_append_left _ hx))
    obtain ⟨e2', c2⟩ := ihl (fun s hx => hs s (List.mem_append_right _ hx))
    rw [fields_cons, fields_cons, unstyleList, e1', e2']
    refine ⟨rfl, ?_⟩
    intro c hc
    rcases List.mem_cons.1 hc with rfl | h3
    · exact c1
    · exact c2 c h3

end pp_hnode


/-! ## Layout of documents without `Group` -/

namespace pretty

open MeasuredDoc

/-- Without a `Group` the bytes the renderer writes are those of `layout`,
whatever the width, the suffix and the column. -/
theorem render_layout (W : Int) :
    (∀ d : MeasuredDoc, GroupFree d → ∀ (indent : Int) (fl : Bool) (suf : Measure) (p : Int),
      (render W d indent fl suf p).1 = layout d indent fl) ∧
    (∀ l : List MeasuredDoc, (∀ c ∈ l, GroupFree c) →
      ∀ (indent : Int) (fl : Bool) (suf : Measure) (p : Int),
      (renderList W l indent fl suf p).1 = layoutList l indent fl) := by
  apply doc_induction
  · intro s m _ indent fl suf p
    cases fl
    · rw [render_break_nonflat, layout]; simp
    · rw [render_break_flat, layout]; simp
  · intro s m _ indent fl suf p
    rw [render_text, layout]
  · intro k d m ih g indent fl suf p
    rw [render_indent, layout]
    exact ih ((all_indent k d m).1 g).2 _ _ _ _
  · intro d m _ g indent fl suf p
    have g2 := (all_group d m).1 g
    simp [isGroup] at g2
  · intro d m ih g indent fl suf p
    rw [render_flat_node, layout]
    exact ih ((all_flat d m).1 g).2 _ _ _ _
  · intro a b m iha ihb g indent fl suf p
    have g2 := (all_ifFlat a b m).1 g
    cases fl
    · rw [render_ifFlat_nonflat, layout]; simp only [Bool.false_eq_true, if_false]
      exact ihb g2.2.2 _ _ _ _
    · rw [render_ifFlat_flat, layout]; simp only [if_true]
      exact iha g2.2.1 _ _ _ _
  · intro l m ih g indent fl suf p
    rw [render_concat, layout]
    exact ih ((all_concat l m).1 g).2 _ _ _ _
  · intro _ indent fl suf p
    rw [renderList_nil, layoutList]
  · intro d l ihd ihl g indent fl suf p
    rw [renderList_cons, layoutList]
    simp only
    rw [ihd (g d (List.mem_cons_self _ _)),
      ihl (fun c hc => g c (List.mem_cons_of_mem _ hc))]

theorem layoutList_append (a b : List MeasuredDoc) (indent : Int) (fl : Bool) :
    layoutList (a ++ b) indent fl = layoutList a indent fl ++ layoutList b indent fl := by
  induction a with
  | nil => simp [layoutList]
  | cons d a ih =>
    show layoutList (d :: (a ++ b)) indent fl = _
    rw [layoutList, layoutList, ih, List.append_assoc]

/-- Splicing nested `Concat`s does not change the layout. -/
theorem layout_expand :
    (∀ d : MeasuredDoc, ∀ (indent : Int) (fl : Bool),
      layoutList (expandConcat d) indent fl = layout d indent fl) ∧
    (∀ l : List MeasuredDoc, ∀ (indent : Int) (fl : Bool),
      layoutList (expandConcats l) indent fl = layoutList l indent fl) := by
  apply doc_induction
  · intro s m indent fl; simp [expandConcat, layoutList]
  · intro s m indent fl; simp [expandConcat, layoutList]
  · intro k d m _ indent fl; simp [expandConcat, layoutList]
  · intro d m _ indent fl; simp [expandConcat, layoutList]
  · intro d m _ indent fl; simp [expandConcat, layoutList]
  · intro a b m _ _ indent fl; simp [expandConcat, layoutList]
  · intro l m ih indent fl
    rw [expandConcat, layout]; exact ih _ _
  · intro indent fl; rw [expandConcats]
  · intro d l ihd ihl indent fl
    rw [expandConcats, layoutList_append, ihd, ihl, layoutList]

theorem layout_Concat (l : List MeasuredDoc) (indent : Int) (fl : Bool) :
    layout (_Concat l) indent fl = layoutList l indent fl := by
  rw [concat_eq, layout, layout_expand.2]

theorem layout_AsciiText (s : BigStr) (indent : Int) (fl : Bool) :
    layout (AsciiText s) indent fl = s := by
  rw [AsciiText, layout]

theorem layout_Indent (k : Int) (d : MeasuredDoc) (indent : Int) (fl : Bool) :
    layout (_Indent k d) indent fl = layout d (indent + k) fl := by
  rw [_Indent, layout]

theorem layout_Break_nonflat (s : BigStr) (indent : Int) :
    layout (_Break s) indent false = '\n' :: List.replicate indent.toNat ' ' := by
  rw [_Break, layout]; simp

theorem layout_Break_flat (s : BigStr) (indent : Int) :
    layout (_Break s) indent true = s := by
  rw [_Break, layout]; simp

/-! ## Flat text of built documents -/

theorem flatTexts_append (a b : List MeasuredDoc) :
    flatTexts (a ++ b) = flatTexts a ++ flatTexts b := by
  induction a with
  | nil => simp [flatTexts]
  | cons d a ih =>
    show flatTexts (d :: (a ++ b)) = _
    rw [flatTexts, flatTexts, ih, List.append_assoc]

/-- Splicing nested `Concat`s does not change the flat text. -/
theorem flatText_expand :
    (∀ d : MeasuredDoc, flatTexts (expandConcat d) = flatText d) ∧
    (∀ l : List MeasuredDoc, flatTexts (expandConcats l) = flatTexts l) := by
  apply doc_induction
  · intro s m; simp [expandConcat, flatTexts]
  · intro s m; simp [expandConcat, flatTexts]
  · intro k d m _; simp [expandConcat, flatTexts]
  · intro d m _; simp [expandConcat, flatTexts]
  · intro d m _; simp [expandConcat, flatTexts]
  · intro a b m _ _; simp [expandConcat, flatTexts]
  · intro l m ih
    rw [expandConcat, flatText]; exact ih
  · rw [expandConcats]
  · intro d l ihd ihl
    rw [expandConcats, flatTexts_append, ihd, ihl, flatTexts]

theorem flatText_Concat (l : List MeasuredDoc) : flatText (_Concat l) = flatTexts l := by
  rw [concat_eq, flatText, flatText_expand.2]

theorem flatText_AsciiText (s : BigStr) : flatText (AsciiText s) = s := by
  rw [AsciiText, flatText]

theorem flatText_Break (s : BigStr) : flatText (_Break s) = s := by
  rw [_Break, flatText]

theorem flatText_Indent (k : Int) (d : MeasuredDoc) : flatText (_Indent k d) = flatText d := by
  rw [_Indent, flatText]

theorem flatText_Group (d : MeasuredDoc) : flatText (_Group d) = flatText d := by
  rw [_Group, flatText]

theorem flatText_IfFlat (a b : MeasuredDoc) : flatText (_IfFlat a b) = flatText a := by
  rw [_IfFlat, flatText]

end pretty

/-! ## With styles off the encoder uses the builders of `pretty` only -/

namespace pp_hnode

open pretty MeasuredDoc

theorem styledAscii_off (enc : HNodeEncoder) (hs : enc.use_styles = false) (style s : BigStr) :
    _StyledAscii enc style s = AsciiText s := by
  simp [_StyledAscii, AsciiText, hs]

theorem built_Join (items : List MeasuredDoc) (sep space : BigStr)
    (h : ∀ c ∈ items, Built c) : Built (_Join items sep space) := by
  unfold _Join
  exact BuiltWith.concat _ (join_loop_all Built sep space (BuiltWith.text sep)
    (BuiltWith.brk space) items 0 [] h (by intro c hc; cases hc))

theorem built_Tabular (enc : HNodeEncoder) (items : List MeasuredDoc) (sep : BigStr)
    (h : ∀ c ∈ items, Built c) : Built (_Tabular enc items sep) := by
  have hnt : Built (_Concat (_Tabular.loop1 sep items 0 [] 0).1) :=
    BuiltWith.concat _ (tabular_loop1_all Built sep (BuiltWith.text sep) (BuiltWith.brk _)
      items 0 [] 0 h (by intro c hc; cases hc))
  unfold _Tabular
  by_cases h0 : items.length = 0
  · rw [if_pos h0]; exact BuiltWith.text _
  · rw [if_neg h0]
    simp only
    split_ifs
    · apply BuiltWith.group _ rfl
      apply BuiltWith.ifFlat _ _ rfl hnt
      apply BuiltWith.concat
      exact tabular_loop2_all Built sep _ _ (BuiltWith.text sep)
        (fun _ => BuiltWith.group _ rfl (BuiltWith.brk _)) items 0 []
        (fun c hc => BuiltWith.flat c rfl (h c hc)) (by intro c hc; cases hc)
    · exact hnt

theorem built_Surrounded (enc : HNodeEncoder) (left right : BigStr) (d : MeasuredDoc)
    (h : Built d) : Built (_Surrounded enc left d right) := by
  unfold _Surrounded
  apply BuiltWith.group _ rfl
  apply BuiltWith.concat
  intro c hc
  simp only [List.mem_cons, List.mem_singleton, List.not_mem_nil, or_false] at hc
  rcases hc with rfl | rfl | rfl | rfl
  · exact BuiltWith.text _
  · apply BuiltWith.indent
    apply BuiltWith.concat
    intro c hc
    simp only [List.mem_cons, List.mem_singleton, List.not_mem_nil, or_false] at hc
    rcases hc with rfl | rfl
    · exact BuiltWith.brk _
    · exact h
  · exact BuiltWith.brk _
  · exact BuiltWith.text _

theorem built_SurroundedAndPrefixed (enc : HNodeEncoder) (left right sep : BigStr)
    (pfx d : MeasuredDoc) (hp : Built pfx) (h : Built d) :
    Built (_SurroundedAndPrefixed enc left pfx sep d right) := by
  unfold _SurroundedAndPrefixed
  apply BuiltWith.group _ rfl
  apply BuiltWith.concat
  intro c hc
  simp only [List.mem_cons, List.mem_singleton, List.not_mem_nil, or_false] at hc
  rcases hc with rfl | rfl | rfl | rfl | rfl
  · exact BuiltWith.text _
  · exact hp
  · apply BuiltWith.indent
    apply BuiltWith.concat
    intro c hc
    simp only [List.mem_cons, List.mem_singleton, List.not_mem_nil, or_false] at hc
    rcases hc with rfl | rfl
    · exact BuiltWith.brk _
    · exact h
  · exact BuiltWith.brk _
  · exact BuiltWith.text _

theorem built_record (enc : HNodeEncoder) (left right : BigStr) (type_name : Option MeasuredDoc)
    (mdocs : Option (List MeasuredDoc)) (ht : ∀ t, type_name = some t → Built t)
    (hm : ∀ l, mdocs = some l → ∀ c ∈ l, Built c) :
    Built (_HNode.record enc left right type_name mdocs) := by
  unfold _HNode.record
  cases mdocs with
  | none =>
    apply BuiltWith.concat
    intro c hc
    cases type_name with
    | none =>
      simp only [List.mem_append, List.mem_singleton] at hc
      rcases hc with rfl | rfl
      · exact BuiltWith.text _
      · exact BuiltWith.text _
    | some t =>
      simp only [List.mem_append, List.mem_singleton] at hc
      rcases hc with (rfl | rfl) | rfl
      · exact BuiltWith.text _
      · exact ht _ rfl
      · exact BuiltWith.text _
  | some l =>
    have hj := built_Join l [] [' '] (hm l rfl)
    cases type_name with
    | none => exact built_Surrounded enc _ _ _ hj
    | some t => exact built_SurroundedAndPrefixed enc _ _ _ _ _ (ht t rfl) hj

/-- With styles off every encoded tree is built with the builders of `pretty`:
every `Text` carries its byte length as flat width. -/
theorem built_HNode (rt : Runtime) (enc : HNodeEncoder) (hs : enc.use_styles = false)
    (h : hnode_t) : Built (_HNode rt enc h) := by
  apply hnode_induction (P := fun h => Built (_HNode rt enc h))
    (Q := fun l => ∀ c ∈ _HNode.items rt enc l, Built c)
    (F := fun f => Built (_Field rt enc f))
    (G := fun l => ∀ c ∈ _Field.items rt enc l, Built c)
  · intro heap_id
    rw [_HNode]; exact BuiltWith.text _
  · intro s color
    rw [_HNode, styledAscii_off enc hs]; exact BuiltWith.text _
  · intro children ih
    rw [_HNode]
    split_ifs
    · exact BuiltWith.text _
    · exact built_Surrounded enc _ _ _ (built_Tabular enc _ _ ih)
  · intro node_type left right fields unnamed_fields ihf ihu
    rw [record_eq]
    apply built_record
    · intro t ht
      unfold recordTypeName at ht
      split_ifs at ht
      cases ht
      rw [styledAscii_off enc hs]; exact BuiltWith.text _
    · intro l hl
      cases unnamed_fields with
      | none =>
        rw [recordMdocs_none] at hl
        split_ifs at hl
        cases hl
        exact ihf
      | some u =>
        cases u with
        | nil =>
          rw [recordMdocs_nil] at hl
          split_ifs at hl
          cases hl
          exact ihf
        | cons u us =>
          rw [recordMdocs_cons] at hl
          cases hl
          exact ihu _ rfl
  · intro name val ih
    rw [_Field]
    apply BuiltWith.concat
    intro c hc
    simp only [List.mem_cons, List.mem_singleton, List.not_mem_nil, or_false] at hc
    rcases hc with rfl | rfl
    · exact BuiltWith.text _
    · exact ih
  · intro c hc; rw [items_nil] at hc; cases hc
  · intro h l ihh ihl c hc
    rw [items_cons] at hc
    rcases List.mem_cons.1 hc with rfl | h2
    · exact ihh
    · exact ihl c h2
  · intro c hc; rw [fields_nil] at hc; cases hc
  · intro f l ihf ihl c hc
    rw [fields_cons] at hc
    rcases List.mem_cons.1 hc with rfl | h2
    · exact ihf
    · exact ihl c h2

/-- With styles off the flat width of an encoded tree is the length of its
flat text. -/
theorem flat_width_off (rt : Runtime) (enc : HNodeEncoder) (hs : enc.use_styles = false)
    (h : hnode_t) : (HNode rt enc h).measure.flat = len (flatText (HNode rt enc h)) := by
  have hb := built_HNode rt enc hs h
  exact (flatText_length.1 _ (built_sound hb) (built_trueWidth hb)).symm

end pp_hnode

/-! ## Joined strings -/

theorem joinWith_cons (s a : BigStr) (l : List BigStr) :
    joinWith s (a :: l) = a ++ (l.map (fun x => s ++ x)).flatten := by
  induction l generalizing a with
  | nil => simp [joinWith]
  | cons b l ih => rw [joinWith, ih]; simp

theorem len_append (a b : BigStr) : len (a ++ b) = len a + len b := by
  simp [len]

theorem totalLen_cons (a : BigStr) (l : List BigStr) : totalLen (a :: l) = len a + totalLen l := by
  simp [totalLen]

/-- The length of `e_1 + sep + ... + sep + e_n` for `n ≥ 1`. -/
theorem len_joinWith (s : BigStr) (l : List BigStr) (h : l ≠ []) :
    len (joinWith s l) = totalLen l + ((l.length : Int) - 1) * len s := by
  induction l with
  | nil => exact absurd rfl h
  | cons a l ih =>
    cases l with
    | nil => simp [joinWith, totalLen]
    | cons b l =>
      rw [joinWith, len_append, len_append, ih (by simp), totalLen_cons a]
      simp only [List.length_cons]
      push_cast
      ring

namespace pretty

/-- The layout in flat mode is the flat text. -/
theorem layout_flat :
    (∀ d : MeasuredDoc, ∀ indent : Int, layout d indent true = flatText d) ∧
    (∀ l : List MeasuredDoc, ∀ indent : Int, layoutList l indent true = flatTexts l) := by
  apply doc_induction
  · intro s m indent; simp [layout, flatText]
  · intro s m indent; simp [layout, flatText]
  · intro k d m ih indent; rw [layout, flatText]; exact ih _
  · intro d m ih indent; rw [layout, flatText]; exact ih _
  · intro d m ih indent; rw [layout, flatText]; exact ih _
  · intro a b m iha _ indent; rw [layout, flatText]; simp only [if_true]; exact iha _
  · intro l m ih indent; rw [layout, flatText]; exact ih _
  · intro indent; rw [layoutList, flatTexts]
  · intro d l ihd ihl indent; rw [layoutList, flatTexts, ihd, ihl]

end pretty

namespace pp_hnode

open pretty MeasuredDoc

/-- The first loop of `_Tabular` builds the sequence `_Join` builds with a
space as break. -/
theorem tabular_loop1_fst (sep : BigStr) (items : List MeasuredDoc) (i : Nat)
    (seq : List MeasuredDoc) (mx : Int) :
    (_Tabular.loop1 sep items i seq mx).1 = _Join.loop sep [' '] items i seq := by
  induction items generalizing i seq mx with
  | nil => rw [_Tabular.loop1, _Join.loop]
  | cons x items ih => rw [_Tabular.loop1, _Join.loop]; exact ih _ _ _

theorem layoutList_join_loop (sep space : BigStr) (indent : Int) (fl : Bool)
    (items : List MeasuredDoc) (i : Nat) (seq : List MeasuredDoc) (hi : i ≠ 0) :
    layoutList (_Join.loop sep space items i seq) indent fl =
      layoutList seq indent fl ++
        (items.map (fun x => (sep ++ layout (_Break space) indent fl) ++
          layout x indent fl)).flatten := by
  induction items generalizing i seq with
  | nil => simp [_Join.loop]
  | cons x items ih =>
    rw [_Join.loop]
    simp only [hi, ne_eq, not_false_eq_true, if_true]
    rw [ih _ _ (Nat.succ_ne_zero i)]
    simp [layoutList_append, layoutList, layout_AsciiText, List.append_assoc]

/-- The layout of `_Join`: the layouts of the items, joined by the separator
and the layout of the break. -/
theorem layout_Join (items : List MeasuredDoc) (sep space : BigStr) (indent : Int) (fl : Bool) :
    layout (_Join items sep space) indent fl =
      joinWith (sep ++ layout (_Break space) indent fl)
        (items.map (fun x => layout x indent fl)) := by
  unfold _Join
  rw [layout_Concat]
  cases items with
  | nil => simp [_Join.loop, layoutList, joinWith]
  | cons x items =>
    rw [_Join.loop]
    simp only [ne_eq, not_true_eq_false, if_false, List.nil_append]
    rw [layoutList_join_loop _ _ _ _ _ _ _ (by decide), List.map_cons, joinWith_cons]
    simp [layoutList, List.map_map, Function.comp_def]

theorem flatText_Join (items : List MeasuredDoc) (sep space : BigStr) :
    flatText (_Join items sep space) = joinWith (sep ++ space) (items.map flatText) := by
  rw [← layout_flat.1 _ 0, layout_Join, layout_Break_flat]
  congr 1
  exact List.map_congr_left (fun x _ => layout_flat.1 x 0)

theorem flatText_Tabular (enc : HNodeEncoder) (items : List MeasuredDoc) (sep : BigStr) :
    flatText (_Tabular enc items sep) = joinWith (sep ++ [' ']) (items.map flatText) := by
  have e : flatText (_Concat (_Tabular.loop1 sep items 0 [] 0).1) =
      joinWith (sep ++ [' ']) (items.map flatText) := by
    rw [tabular_loop1_fst]; exact flatText_Join items sep [' ']
  unfold _Tabular
  by_cases h0 : items.length = 0
  · rw [if_pos h0, flatText_AsciiText]
    rw [List.length_eq_zero.1 h0]; rfl
  · rw [if_neg h0]
    simp only
    split_ifs
    · rw [flatText_Group, flatText_IfFlat]; exact e
    · exact e

theorem flatText_Surrounded (enc : HNodeEncoder) (left right : BigStr) (d : MeasuredDoc) :
    flatText (_Surrounded enc left d right) = left ++ flatText d ++ right := by
  unfold _Surrounded
  rw [flatText_Group, flatText_Concat]
  simp [flatTexts, flatText_AsciiText, flatText_Indent, flatText_Concat, flatText_Break]

theorem flatText_SurroundedAndPrefixed (enc : HNodeEncoder) (left right sep : BigStr)
    (pfx d : MeasuredDoc) :
    flatText (_SurroundedAndPrefixed enc left pfx sep d right) =
      left ++ flatText pfx ++ sep ++ flatText d ++ right := by
  unfold _SurroundedAndPrefixed
  rw [flatText_Group, flatText_Concat]
  simp [flatTexts, flatText_AsciiText, flatText_Indent, flatText_Concat, flatText_Break]

end pp_hnode

/-! ## Arrays and records of leaves, styles off -/

namespace pp_hnode

open pretty MeasuredDoc

theorem leaf_off (rt : Runtime) (enc : HNodeEncoder) (hs : enc.use_styles = false)
    (s : BigStr) (color : color_e) :
    _HNode rt enc (.Leaf s color) = AsciiText (j8_lite.EncodeString rt s true) := by
  rw [_HNode, styledAscii_off enc hs]

/-- The non-empty `Array` case of `_HNode`. -/
theorem array_eq (rt : Runtime) (enc : HNodeEncoder) (x : hnode_t) (xs : List hnode_t) :
    _HNode rt enc (.Array (x :: xs)) =
      _Surrounded enc ['['] (_Tabular enc (_HNode.items rt enc (x :: xs)) []) [']'] := by
  rw [_HNode]; simp

theorem items_leafNodes (rt : Runtime) (enc : HNodeEncoder) (hs : enc.use_styles = false)
    (leaves : List (BigStr × color_e)) :
    _HNode.items rt enc (leafNodes leaves) = (leafTexts rt leaves).map AsciiText := by
  induction leaves with
  | nil => simp [leafNodes, leafTexts, items_nil]
  | cons x l ih =>
    have e : leafNodes (x :: l) = hnode_t.Leaf x.1 x.2 :: leafNodes l := rfl
    have e2 : leafTexts rt (x :: l) = j8_lite.EncodeString rt x.1 true :: leafTexts rt l := rfl
    rw [e, e2, items_cons, ih, leaf_off rt enc hs]; rfl

theorem map_flatText_AsciiText (l : List BigStr) : (l.map AsciiText).map flatText = l := by
  induction l with
  | nil => rfl
  | cons a l ih => simp only [List.map_cons, flatText_AsciiText, ih]

/-- The flat text of an array of leaves. -/
theorem flatText_leafArray (rt : Runtime) (enc : HNodeEncoder) (hs : enc.use_styles = false)
    (leaves : List (BigStr × color_e)) (hne : leaves ≠ []) :
    flatText (HNode rt enc (.Array (leafNodes leaves))) =
      ['['] ++ joinWith [' '] (leafTexts rt leaves) ++ [']'] := by
  cases leaves with
  | nil => exact absurd rfl hne
  | cons x l =>
    have e : leafNodes (x :: l) = hnode_t.Leaf x.1 x.2 :: leafNodes l := rfl
    rw [HNode, e, array_eq, ← e, flatText_Surrounded, flatText_Tabular,
      items_leafNodes rt enc hs, map_flatText_AsciiText]
    rfl

end pp_hnode

/-! ## Records of leaf fields, styles off -/

namespace pretty

open MeasuredDoc

/-- The printer on a document without `Group`: the layout in the mode the
first fit test decides. -/
theorem PrintDoc_groupFree (W : Int) (d : MeasuredDoc) (h : GroupFree d) :
    PrintDoc W d = layout d 0 (_Fits W 0 d _EmptyMeasure) := by
  rw [PrintDoc_eq, (render_layout W).1 d h]

/-- The printer on a `Group` of a document without `Group`. -/
theorem PrintDoc_Group_groupFree (W : Int) (d : MeasuredDoc) (h : GroupFree d) :
    PrintDoc W (_Group d) = layout d 0 (_Fits W 0 d _EmptyMeasure) := by
  rw [PrintDoc_eq, _Group, render_group, (render_layout W).1 d h]

end pretty

namespace pp_hnode

open pretty MeasuredDoc

theorem fields_leafFields (rt : Runtime) (enc : HNodeEncoder) (hs : enc.use_styles = false)
    (named : List (BigStr × BigStr × color_e)) :
    _Field.items rt enc (leafFields named) = named.map (leafFieldDoc rt) := by
  induction named with
  | nil => simp [leafFields, fields_nil]
  | cons x l ih =>
    have e : leafFields (x :: l) = hnode_asdl.Field.mk x.1 (hnode_t.Leaf x.2.1 x.2.2) ::
      leafFields l := rfl
    rw [e, fields_cons, ih, _Field, leaf_off rt enc hs]; rfl

theorem layout_leafFieldDoc (rt : Runtime) (x : BigStr × BigStr × color_e) (indent : Int)
    (fl : Bool) :
    layout (leafFieldDoc rt x) indent fl = x.1 ++ [':'] ++ j8_lite.EncodeString rt x.2.1 true := by
  unfold leafFieldDoc
  rw [layout_Concat]
  simp [layoutList, layout_AsciiText]

theorem map_layout_leafFieldDoc (rt : Runtime) (named : List (BigStr × BigStr × color_e))
    (indent : Int) (fl : Bool) :
    (named.map (leafFieldDoc rt)).map (fun x => layout x indent fl) = fieldTexts rt named := by
  unfold fieldTexts
  rw [List.map_map]
  exact List.map_congr_left (fun x _ => layout_leafFieldDoc rt x indent fl)

/-- The `Record` case of `_HNode` for a record with a type name, named leaf
fields and no unnamed field, styles off. -/
theorem leafRecord_eq (rt : Runtime) (enc : HNodeEncoder) (hs : enc.use_styles = false)
    (t left right : BigStr) (ht : t ≠ []) (unnamed : Option (List hnode_t))
    (hu : unnamed = none ∨ unnamed = some []) (named : List (BigStr × BigStr × color_e))
    (hne : named ≠ []) :
    HNode rt enc (.Record t left right (leafFields named) unnamed) =
      _SurroundedAndPrefixed enc left (AsciiText t) [' ']
        (_Join (named.map (leafFieldDoc rt)) [] [' ']) right := by
  have hl : (leafFields named).length ≠ 0 := by
    intro h0
    exact hne (List.map_eq_nil_iff.1 (List.length_eq_zero.1 h0))
  have ht2 : t.length ≠ 0 := fun h0 => ht (List.length_eq_zero.1 h0)
  have hm : recordMdocs rt enc (leafFields named) unnamed =
      some (named.map (leafFieldDoc rt)) := by
    rcases hu with rfl | rfl
    · rw [recordMdocs_none, if_pos hl, fields_leafFields rt enc hs]
    · rw [recordMdocs_nil, if_pos hl, fields_leafFields rt enc hs]
  rw [HNode, record_eq, hm, recordTypeName, if_pos ht2, styledAscii_off enc hs]
  rfl

/-- The inner `Concat` of `_SurroundedAndPrefixed` for a record of leaf
fields. -/
theorem leafRecord_inner_built (enc : HNodeEncoder) (rt : Runtime) (t left right : BigStr)
    (named : List (BigStr × BigStr × color_e)) :
    BuiltWith false false false
      (_Concat [AsciiText left, AsciiText t,
        _Indent enc.indent (_Concat [_Break [' '], _Join (named.map (leafFieldDoc rt)) [] [' ']]),
        _Break [], AsciiText right]) := by
  have hj : BuiltWith false false false (_Join (named.map (leafFieldDoc rt)) [] [' ']) := by
    unfold _Join
    apply BuiltWith.concat
    apply join_loop_all (BuiltWith false false false) _ _ (BuiltWith.text _) (BuiltWith.brk _)
    · intro c hc
      rcases List.mem_map.1 hc with ⟨x, _, rfl⟩
      unfold leafFieldDoc
      apply BuiltWith.concat
      intro c hc
      simp only [List.mem_cons, List.mem_singleton, List.not_mem_nil, or_false] at hc
      rcases hc with rfl | rfl
      · exact BuiltWith.text _
      · exact BuiltWith.text _
    · intro c hc; cases hc
  apply BuiltWith.concat
  intro c hc
  simp only [List.mem_cons, List.mem_singleton, List.not_mem_nil, or_false] at hc
  rcases hc with rfl | rfl | rfl | rfl | rfl
  · exact BuiltWith.text _
  · exact BuiltWith.text _
  · apply BuiltWith.indent
    apply BuiltWith.concat
    intro c hc
    simp only [List.mem_cons, List.mem_singleton, List.not_mem_nil, or_false] at hc
    rcases hc with rfl | rfl
    · exact BuiltWith.brk _
    · exact hj
  · exact BuiltWith.brk _
  · exact BuiltWith.text _

/-- The layout of the inner `Concat` of a record of leaf fields. -/
theorem layout_leafRecord (enc : HNodeEncoder) (rt : Runtime) (t left right : BigStr)
    (named : List (BigStr × BigStr × color_e)) (fl : Bool) :
    layout (_Concat [AsciiText left, AsciiText t,
        _Indent enc.indent (_Concat [_Break [' '], _Join (named.map (leafFieldDoc rt)) [] [' ']]),
        _Break [], AsciiText right]) 0 fl =
      left ++ t ++ layout (_Break [' ']) enc.indent fl ++
        joinWith (layout (_Break [' ']) enc.indent fl) (fieldTexts rt named) ++
        layout (_Break []) 0 fl ++ right := by
  rw [layout_Concat]
  simp only [layoutList, layout_AsciiText, layout_Indent, layout_Concat, layout_Join,
    map_layout_leafFieldDoc, zero_add, List.nil_append, List.append_nil, List.append_assoc]

theorem sum_recordFlatWidth (rt : Runtime) (named : List (BigStr × BigStr × color_e)) :
    (named.map (fun x => 1 + len x.1 + 1 + len (j8_lite.EncodeString rt x.2.1 true))).sum =
      totalLen (fieldTexts rt named) + (named.length : Int) := by
  induction named with
  | nil => rfl
  | cons x l ih =>
    have e : fieldTexts rt (x :: l) =
      (x.1 ++ [':'] ++ j8_lite.EncodeString rt x.2.1 true) :: fieldTexts rt l := rfl
    rw [e, totalLen_cons, List.map_cons, List.sum_cons, ih, len_append, len_append]
    simp only [len, List.length_singleton, List.length_cons, List.length_nil]
    push_cast
    ring

/-- The flat width of a record with a type name and named leaf fields is the
width the specification states. -/
theorem flat_leafRecord (rt : Runtime) (enc : HNodeEncoder) (hs : enc.use_styles = false)
    (t left right : BigStr) (ht : t ≠ []) (unnamed : Option (List hnode_t))
    (hu : unnamed = none ∨ unnamed = some []) (named : List (BigStr × BigStr × color_e))
    (hne : named ≠ []) :
    (HNode rt enc (.Record t left right (leafFields named) unnamed)).measure.flat =
      recordFlatWidth rt left t right named ∧
    flatText (HNode rt enc (.Record t left right (leafFields named) unnamed)) =
      left ++ t ++ [' '] ++ joinWith [' '] (fieldTexts rt named) ++ right := by
  have hf : flatText (HNode rt enc (.Record t left right (leafFields named) unnamed)) =
      left ++ t ++ [' '] ++ joinWith [' '] (fieldTexts rt named) ++ right := by
    rw [leafRecord_eq rt enc hs t left right ht unnamed hu named hne, _SurroundedAndPrefixed,
      flatText_Group, ← layout_flat.1 _ 0, layout_leafRecord, layout_Break_flat,
      layout_Break_flat]
    simp
  refine ⟨?_, hf⟩
  have hne2 : fieldTexts rt named ≠ [] := by
    intro h0; exact hne (List.map_eq_nil_iff.1 h0)
  have hl : (fieldTexts rt named).length = named.length := List.length_map _ _
  rw [flat_width_off rt enc hs, hf, recordFlatWidth, sum_recordFlatWidth]
  simp only [len_append, len_joinWith _ _ hne2, hl]
  simp only [len, List.length_singleton]
  push_cast
  ring

/-- The printer on a record without fields. -/
theorem fieldless_eq (rt : Runtime) (enc : HNodeEncoder) (hs : enc.use_styles = false)
    (node_type left right : BigStr) (unnamed : Option (List hnode_t))
    (hu : unnamed = none ∨ unnamed = some []) (max_width : Int) :
    PrintDoc max_width (HNode rt enc (.Record node_type left right [] unnamed)) =
      left ++ node_type ++ right := by
  have hm : recordMdocs rt enc [] unnamed = none := by
    rcases hu with rfl | rfl
    · rfl
    · rfl
  rw [HNode, record_eq, hm]
  by_cases ht : node_type = []
  · subst ht
    have e : _HNode.record enc left right (recordTypeName enc []) none =
      _Concat [AsciiText left, AsciiText right] := rfl
    rw [e, PrintDoc_groupFree, layout_Concat]
    · simp [layoutList, layout_AsciiText]
    · apply built_groupFree (i := false) (f := false)
      apply BuiltWith.concat
      intro c hc
      simp only [List.mem_cons, List.mem_singleton, List.not_mem_nil, or_false] at hc
      rcases hc with rfl | rfl
      · exact BuiltWith.text _
      · exact BuiltWith.text _
  · have ht2 : node_type.length ≠ 0 := fun h0 => ht (List.length_eq_zero.1 h0)
    have e : _HNode.record enc left right (recordTypeName enc node_type) none =
        _Concat [AsciiText left, AsciiText node_type, AsciiText right] := by
      rw [recordTypeName, if_pos ht2, styledAscii_off enc hs]; rfl
    rw [e, PrintDoc_groupFree, layout_Concat]
    · simp [layoutList, layout_AsciiText]
    · apply built_groupFree (i := false) (f := false)
      apply BuiltWith.concat
      intro c hc
      simp only [List.mem_cons, List.mem_singleton, List.not_mem_nil, or_false] at hc
      rcases hc with rfl | rfl | rfl
      · exact BuiltWith.text _
      · exact BuiltWith.text _
      · exact BuiltWith.text _


end pp_hnode

/-! ## The digits of `hex_lower` -/

namespace mylib

theorem digitChar_hex : ∀ k : Nat, k < 16 → Nat.digitChar k ∈ hexDigits := by
  decide

theorem toDigitsCore_hex (fuel n : Nat) (ds : List Char) (h : ∀ c ∈ ds, c ∈ hexDigits) :
    ∀ c ∈ Nat.toDigitsCore 16 fuel n ds, c ∈ hexDigits := by
  induction fuel generalizing n ds with
  | zero => simpa [Nat.toDigitsCore] using h
  | succ fuel ih =>
    have hd : ∀ c ∈ Nat.digitChar (n % 16) :: ds, c ∈ hexDigits := by
      intro c hc
      rcases List.mem_cons.1 hc with rfl | h2
      · exact digitChar_hex _ (Nat.mod_lt _ (by decide))
      · exact h c h2
    rw [Nat.toDigitsCore]
    split_ifs
    · exact hd
    · exact ih _ _ hd

/-- Every character of `hex_lower i` is a lower-case hexadecimal digit. -/
theorem hex_lower_digits (i : Int) : ∀ c ∈ hex_lower i, c ∈ hexDigits := by
  unfold hex_lower Nat.toDigits
  exact toDigitsCore_hex _ _ [] (by intro c hc; cases hc)

theorem digitChar_value : ∀ k : Nat, k < 16 → hexDigitValue (Nat.digitChar k) = k := by
  decide

theorem toDigitsCore_value (fuel n : Nat) (ds : List Char) (h : n < fuel) :
    (Nat.toDigitsCore 16 fuel n ds).foldl (fun acc c => 16 * acc + hexDigitValue c) 0 =
      ds.foldl (fun acc c => 16 * acc + hexDigitValue c) n := by
  induction fuel generalizing n ds with
  | zero => omega
  | succ fuel ih =>
    have hv := digitChar_value (n % 16) (Nat.mod_lt _ (by decide))
    rw [Nat.toDigitsCore]
    split_ifs with h0
    · rw [List.foldl_cons, hv]
      congr 1
      omega
    · rw [ih _ _ (by omega), List.foldl_cons, hv]
      congr 1
      omega

/-- The digits of `hex_lower i` denote `i` when `i` is not negative. -/
theorem hex_lower_value (i : Int) (h : 0 ≤ i) : (hexValue (hex_lower i) : Int) = i := by
  unfold hexValue hex_lower Nat.toDigits
  rw [toDigitsCore_value _ _ [] (Nat.lt_succ_self _), List.foldl_nil]
  exact Int.toNat_of_nonneg h

end mylib

/-! ## The column form of `_Tabular` -/

namespace pp_hnode

open pretty MeasuredDoc

theorem str_repeat_space (k : Int) : str_repeat [' '] k = List.replicate k.toNat ' ' := by
  unfold str_repeat
  induction k.toNat with
  | zero => rfl
  | succ n ih => rw [List.replicate_succ, List.flatten_cons, ih]; rfl

theorem max_int_le_left (a b : Int) : a ≤ max_int a b := by
  unfold max_int; split_ifs <;> omega

theorem max_int_le_right (a b : Int) : b ≤ max_int a b := by
  unfold max_int; split_ifs <;> omega

theorem foldl_max_ge (items : List MeasuredDoc) (m : Int) :
    m ≤ items.foldl (fun m x => max_int m x.measure.flat) m ∧
    ∀ x ∈ items, x.measure.flat ≤ items.foldl (fun m x => max_int m x.measure.flat) m := by
  induction items generalizing m with
  | nil => exact ⟨le_refl _, fun x hx => by cases hx⟩
  | cons y l ih =>
    rw [List.foldl_cons]
    have h := ih (max_int m y.measure.flat)
    refine ⟨le_trans (max_int_le_left _ _) h.1, ?_⟩
    intro x hx
    rcases List.mem_cons.1 hx with rfl | h2
    · exact le_trans (max_int_le_right _ _) h.1
    · exact h.2 x h2

/-- The largest flat width is at least `0` and at least the flat width of
every item. -/
theorem maxFlatLen_ge (items : List MeasuredDoc) :
    0 ≤ maxFlatLen items ∧ ∀ x ∈ items, x.measure.flat ≤ maxFlatLen items :=
  foldl_max_ge items 0

theorem tabular_loop1_snd (sep : BigStr) (items : List MeasuredDoc) (i : Nat)
    (seq : List MeasuredDoc) (mx : Int) :
    (_Tabular.loop1 sep items i seq mx).2 =
      items.foldl (fun m x => max_int m x.measure.flat) mx := by
  induction items generalizing i seq mx with
  | nil => rw [_Tabular.loop1]; rfl
  | cons x items ih => rw [_Tabular.loop1, List.foldl_cons]; exact ih _ _ _

theorem join_loop_plainSeq (sep : BigStr) (items : List MeasuredDoc) (i : Nat)
    (seq : List MeasuredDoc) (x : MeasuredDoc) :
    _Join.loop sep [' '] items (i + 1) (seq ++ [x]) = seq ++ plainSeq sep (x :: items) := by
  induction items generalizing i seq x with
  | nil => simp [_Join.loop, plainSeq]
  | cons y items ih =>
    rw [_Join.loop]
    simp only [ne_eq, Nat.succ_ne_zero, not_false_eq_true, if_true]
    have e : ((seq ++ [x]) ++ [AsciiText sep]) ++ [_Break [' ']] ++ [y] =
        (seq ++ [x, AsciiText sep, _Break [' ']]) ++ [y] := by simp
    rw [e, ih, plainSeq]
    simp

/-- The first loop of `_Tabular` builds the plain join. -/
theorem tabular_loop1_plainSeq (sep : BigStr) (items : List MeasuredDoc) :
    (_Tabular.loop1 sep items 0 [] 0).1 = plainSeq sep items := by
  rw [tabular_loop1_fst]
  cases items with
  | nil => rfl
  | cons x items =>
    rw [_Join.loop]
    simp only [ne_eq, not_true_eq_false, if_false]
    have h := join_loop_plainSeq sep items 0 [] x
    simpa using h

/-- The second loop of `_Tabular` builds the column form. -/
theorem tabular_loop2_tabularSeq (sep : BigStr) (mx : Int) (n : Nat) (items : List MeasuredDoc)
    (i : Nat) (seq : List MeasuredDoc) (hn : i + items.length = n) :
    _Tabular.loop2 sep mx n items i seq = seq ++ tabularSeq sep mx items := by
  induction items generalizing i seq with
  | nil => simp [_Tabular.loop2, tabularSeq]
  | cons x items ih =>
    rw [_Tabular.loop2]
    cases items with
    | nil =>
      have hi : (i : Int) = (n : Int) - 1 := by
        simp only [List.length_cons, List.length_nil] at hn; omega
      simp [hi, _Tabular.loop2, tabularSeq]
    | cons y items =>
      have hi : (i : Int) ≠ (n : Int) - 1 := by
        simp only [List.length_cons] at hn; omega
      simp only [hi, ne_eq, not_false_eq_true, if_true]
      rw [ih _ _ (by simp only [List.length_cons] at hn ⊢; omega), str_repeat_space,
        tabularSeq, padding]
      simp

/-- No cell of the column form is a `Concat`: `_Concat` keeps them as they
are. -/
theorem tabularSeq_no_concat (sep : BigStr) (mx : Int) (items : List MeasuredDoc) :
    ∀ c ∈ tabularSeq sep mx items, isConcat c = false := by
  induction items using plainSeq.induct sep with
  | case1 => intro c hc; cases hc
  | case2 x =>
    intro c hc
    simp only [tabularSeq, List.mem_singleton] at hc
    subst hc; rfl
  | case3 x y l ih =>
    intro c hc
    simp only [tabularSeq, List.mem_cons] at hc ih
    rcases hc with rfl | rfl | rfl | h
    · rfl
    · rfl
    · rfl
    · exact ih c h

end pp_hnode

/-! ## Whole-string replacement of one character -/

/-- Replacing a one-character pattern maps every character independently. -/
theorem replace_char (s : BigStr) (c : Char) (new : BigStr) :
    BigStr.replace s [c] new = (s.map (fun x => if x = c then new else [x])).flatten := by
  unfold BigStr.replace
  induction s with
  | nil => rfl
  | cons x xs ih =>
    rw [BigStr.replace.go]
    by_cases h : x = c
    · subst h
      simp [List.isPrefixOf, ih]
    · have h2 : ¬ c = x := fun e => h e.symm
      simp [List.isPrefixOf, ih, h, h2]

namespace cgi

theorem escape_eq (s : BigStr) :
    escape s =
      ((((((s.map (fun x => if x = '&' then "&amp;".toList else [x])).flatten).map
        (fun x => if x = '<' then "&lt;".toList else [x])).flatten).map
        (fun x => if x = '>' then "&gt;".toList else [x])).flatten) := by
  unfold escape
  simp only [replace_char]

theorem escape_append (a b : BigStr) : escape (a ++ b) = escape a ++ escape b := by
  simp only [escape_eq, List.map_append, List.flatten_append]

theorem escape_singleton (c : Char) : escape [c] = escapeChar c := by
  rw [escape_eq]
  unfold escapeChar
  by_cases h1 : c = '&'
  · subst h1; decide
  · by_cases h2 : c = '<'
    · subst h2; decide
    · by_cases h3 : c = '>'
      · subst h3; decide
      · simp [h1, h2, h3]

theorem escape_cons (c : Char) (s : BigStr) : escape (c :: s) = escapeChar c ++ escape s := by
  have e : c :: s = [c] ++ s := rfl
  rw [e, escape_append, escape_singleton]

theorem escapeChar_no_angle (c : Char) : '<' ∉ escapeChar c ∧ '>' ∉ escapeChar c := by
  unfold escapeChar
  by_cases h1 : c = '&'
  · subst h1; decide
  · by_cases h2 : c = '<'
    · subst h2; decide
    · by_cases h3 : c = '>'
      · subst h3; decide
      · simp only [h1, h2, h3, if_false, List.mem_singleton]
        exact ⟨fun e => h2 e.symm, fun e => h3 e.symm⟩

end cgi

/-! ## The suffix measures stored on the printer stack -/

namespace pretty

open MeasuredDoc

theorem below_fragsOf (indent : Int) (fl : Bool) (l : List MeasuredDoc) (s : Measure)
    (F : List DocFragment) (hs : s = below F) :
    below (fragsOf indent fl l s ++ F) = suffixOf l s := by
  cases l with
  | nil => simp [fragsOf, suffixOf, hs]
  | cons d l => simp [fragsOf, suffixOf, below]

theorem suffixInv_fragsOf (indent : Int) (fl : Bool) (l : List MeasuredDoc) (s : Measure)
    (F : List DocFragment) (hs : s = below F) (hF : SuffixInv F) :
    SuffixInv (fragsOf indent fl l s ++ F) := by
  induction l with
  | nil => simpa [fragsOf] using hF
  | cons d l ih =>
    rw [fragsOf, List.cons_append, SuffixInv]
    exact ⟨(below_fragsOf indent fl l s F hs).symm, ih⟩

/-- One iteration of the loop keeps the stored suffix measures right. -/
theorem suffixInv_step (W : Int) (st : PrinterState) (h : SuffixInv st.fragments) :
    SuffixInv (PrintDoc.step W st).fragments := by
  obtain ⟨buf, p, frags⟩ := st
  cases frags with
  | nil => exact h
  | cons frag fs =>
    obtain ⟨⟨dd, m⟩, indent, fl, suf⟩ := frag
    have h1 : suf = below fs := h.1
    have h2 : SuffixInv fs := h.2
    cases dd with
    | Text s => rw [step_text]; exact h2
    | Break s =>
      cases fl
      · rw [step_break_nonflat]; exact h2
      · rw [step_break_flat]; exact h2
    | Indent k c => rw [step_indent]; exact ⟨h1, h2⟩
    | Group c => rw [step_group]; exact ⟨h1, h2⟩
    | Flat c => exact ⟨h1, h2⟩
    | IfFlat a b => exact ⟨h1, h2⟩
    | Concat l => rw [step_concat]; exact suffixInv_fragsOf indent fl l suf fs h1 h2

theorem suffixInv_run (W : Int) (d : MeasuredDoc) (n : Nat) :
    SuffixInv (PrintDoc.run W n (PrintDoc.init d)).fragments := by
  induction n with
  | zero => exact ⟨rfl, trivial⟩
  | succ n ih => rw [run_succ_last]; exact suffixInv_step W _ ih

/-- The invariant read on adjacent fragments. -/
theorem suffixInv_adjacent (fs : List DocFragment) (h : SuffixInv fs) (i : Nat)
    (u l : DocFragment) (hu : fs.get? i = some u) (hl : fs.get? (i + 1) = some l) :
    u.measure = _ConcatMeasure l.mdoc.measure l.measure := by
  induction fs generalizing i with
  | nil => cases hu
  | cons f fs ih =>
    cases i with
    | zero =>
      simp only [List.get?_cons_zero, Option.some.injEq] at hu
      subst hu
      cases fs with
      | nil => cases hl
      | cons g gs =>
        simp only [List.get?_cons_succ, List.get?_cons_zero, Option.some.injEq] at hl
        subst hl
        exact h.1
    | succ i =>
      simp only [List.get?_cons_succ] at hu hl
      exact ih h.2 i hu hl

/-- The invariant read on the bottom fragment. -/
theorem suffixInv_bottom (fs : List DocFragment) (h : SuffixInv fs) (b : DocFragment)
    (hb : fs.getLast? = some b) : b.measure = _EmptyMeasure := by
  induction fs with
  | nil => cases hb
  | cons f fs ih =>
    cases fs with
    | nil =>
      simp only [List.getLast?_singleton, Option.some.injEq] at hb
      subst hb
      exact h.1
    | cons g gs =>
      rw [List.getLast?_cons_cons] at hb
      exact ih h.2 hb

end pretty

/-! ## Comparison of strings -/

theorem int_cmp_sign (a b : Int) : Int.sign (int_cmp a b) = int_cmp a b := by
  unfold int_cmp; split_ifs <;> rfl

theorem lexSign_values (a b : BigStr) : lexSign a b = -1 ∨ lexSign a b = 0 ∨ lexSign a b = 1 := by
  induction a generalizing b with
  | nil => cases b <;> simp [lexSign]
  | cons x xs ih =>
    cases b with
    | nil => simp [lexSign]
    | cons y ys =>
      rw [lexSign]
      split_ifs
      · simp
      · simp
      · exact ih ys

theorem lexSign_sign (a b : BigStr) : Int.sign (lexSign a b) = lexSign a b := by
  rcases lexSign_values a b with h | h | h <;> rw [h] <;> rfl

theorem lexSign_eq_zero (a b : BigStr) : lexSign a b = 0 ↔ a = b := by
  induction a generalizing b with
  | nil => cases b <;> simp [lexSign]
  | cons x xs ih =>
    cases b with
    | nil => simp [lexSign]
    | cons y ys =>
      rw [lexSign]
      split_ifs with h1 h2
      · have hne : x ≠ y := by rintro rfl; omega
        simp [hne]
      · have hne : x ≠ y := by rintro rfl; omega
        simp [hne]
      · have hxy : x = y := by
          rw [← Char.ofNat_toNat x, ← Char.ofNat_toNat y]
          congr 1
          omega
        subst hxy
        simp [ih ys]

theorem lexSign_swap (a b : BigStr) : lexSign b a = - lexSign a b := by
  induction a generalizing b with
  | nil => cases b <;> simp [lexSign]
  | cons x xs ih =>
    cases b with
    | nil => simp [lexSign]
    | cons y ys =>
      rw [lexSign, lexSign]
      split_ifs <;> first | omega | rfl | exact ih ys

theorem lexSign_append (a t : BigStr) (ht : t ≠ []) : lexSign a (a ++ t) = -1 := by
  induction a with
  | nil =>
    cases t with
    | nil => exact absurd rfl ht
    | cons y ys => rfl
  | cons x xs ih =>
    rw [List.cons_append, lexSign, if_neg (lt_irrefl _), if_neg (lt_irrefl _)]
    exact ih

/-- The comparison is decided by the first `n` bytes when they differ, and by
the rest otherwise. -/
theorem lexSign_take (n : Nat) (a b : BigStr) (ha : n ≤ a.length) (hb : n ≤ b.length) :
    lexSign a b =
      if lexSign (a.take n) (b.take n) = 0 then lexSign (a.drop n) (b.drop n)
      else lexSign (a.take n) (b.take n) := by
  induction n generalizing a b with
  | zero =>
    rw [List.take_zero, List.take_zero, List.drop_zero, List.drop_zero]
    rfl
  | succ n ih =>
    cases a with
    | nil => simp at ha
    | cons x xs =>
      cases b with
      | nil => simp at hb
      | cons y ys =>
        simp only [List.take_succ_cons, List.drop_succ_cons, lexSign]
        simp only [List.length_cons] at ha hb
        by_cases h1 : x.toNat < y.toNat
        · simp only [h1, if_true]
          rw [if_neg (by decide)]
        · by_cases h2 : y.toNat < x.toNat
          · simp only [h1, h2, if_false, if_true]
            rw [if_neg (by decide)]
          · simp only [h1, h2, if_false]
            exact ih xs ys (by omega) (by omega)

theorem lexSign_nil_left (b : BigStr) : lexSign [] b = int_cmp 0 (len b) := by
  cases b with
  | nil => rfl
  | cons y ys =>
    unfold int_cmp len
    simp only [lexSign, List.length_cons]
    rw [if_neg (by omega), if_pos (by omega)]

theorem lexSign_nil_right (a : BigStr) : lexSign a [] = int_cmp (len a) 0 := by
  cases a with
  | nil => rfl
  | cons x xs =>
    unfold int_cmp len
    simp only [lexSign, List.length_cons]
    rw [if_neg (by omega), if_neg (by omega)]

theorem int_cmp_shift (a b k : Int) : int_cmp (a - k) (b - k) = int_cmp a b := by
  unfold int_cmp
  split_ifs <;> omega

/-- With a conforming `memcmp`, the sign of `str_cmp` is the sign of the
lexicographic comparison. -/
theorem str_cmp_sign (memcmp : BigStr → BigStr → Int → Int) (hm : MemcmpSpec memcmp)
    (a b : BigStr) : Int.sign (str_cmp memcmp a b) = lexSign a b := by
  have hrest : ∀ n : Nat, (n = a.length ∧ n ≤ b.length) ∨ (n = b.length ∧ n ≤ a.length) →
      lexSign (a.drop n) (b.drop n) = int_cmp (len a) (len b) := by
    intro n hn
    rcases hn with ⟨h1, h2⟩ | ⟨h1, h2⟩
    · rw [h1, List.drop_length, lexSign_nil_left, ← int_cmp_shift (len a) (len b) (len a)]
      simp only [len, List.length_drop, sub_self]
      congr 1
      omega
    · rw [h1, List.drop_length, lexSign_nil_right, ← int_cmp_shift (len a) (len b) (len b)]
      simp only [len, List.length_drop, sub_self]
      congr 1
      omega
  unfold str_cmp
  simp only
  by_cases hlt : len b < len a
  · rw [if_pos hlt]
    have hn : (len b).toNat = b.length := by simp [len]
    have hle : b.length ≤ a.length := by simp only [len] at hlt; omega
    by_cases h0 : len b = 0
    · rw [if_pos h0, int_cmp_sign]
      have : b = [] := by
        simp only [len] at h0
        exact List.length_eq_zero.1 (by omega)
      subst this
      exact (lexSign_nil_right a).symm
    · rw [if_neg h0]
      have hs := hm a b (len b) (by simp [len]) (le_of_lt hlt) (le_refl _)
      rw [hn] at hs
      have ht := lexSign_take b.length a b hle (le_refl _)
      by_cases hc : memcmp a b (len b) = 0
      · rw [if_pos hc, int_cmp_sign]
        rw [hc] at hs
        have hs0 : lexSign (a.take b.length) (b.take b.length) = 0 := by rw [← hs]; rfl
        rw [ht, if_pos hs0]
        exact (hrest b.length (Or.inr ⟨rfl, hle⟩)).symm
      · rw [if_neg hc, hs, ht]
        have hne : lexSign (a.take b.length) (b.take b.length) ≠ 0 := by
          rw [← hs]; exact fun h => hc (Int.sign_eq_zero_iff_zero.1 h)
        rw [if_neg hne]
  · rw [if_neg hlt]
    have hn : (len a).toNat = a.length := by simp [len]
    have hle : a.length ≤ b.length := by simp only [len] at hlt; omega
    by_cases h0 : len a = 0
    · rw [if_pos h0, int_cmp_sign]
      have : a = [] := by
        simp only [len] at h0
        exact List.length_eq_zero.1 (by omega)
      subst this
      exact (lexSign_nil_left b).symm
    · rw [if_neg h0]
      have hs := hm a b (len a) (by simp [len]) (le_refl _) (not_lt.1 hlt)
      rw [hn] at hs
      have ht := lexSign_take a.length a b (le_refl _) hle
      by_cases hc : memcmp a b (len a) = 0
      · rw [if_pos hc, int_cmp_sign]
        rw [hc] at hs
        have hs0 : lexSign (a.take a.length) (b.take a.length) = 0 := by rw [← hs]; rfl
        rw [ht, if_pos hs0]
        exact (hrest a.length (Or.inl ⟨rfl, hle⟩)).symm
      · rw [if_neg hc, hs, ht]
        have hne : lexSign (a.take a.length) (b.take a.length) ≠ 0 := by
          rw [← hs]; exact fun h => hc (Int.sign_eq_zero_iff_zero.1 h)
        rw [if_neg hne]

theorem memcmp_sample_spec : MemcmpSpec memcmp_sample := by
  intro a b n _ _ _
  exact lexSign_sign _ _

/-! ## The layout changes only spaces and newlines -/

theorem squeeze_append (a b : BigStr) : squeeze (a ++ b) = squeeze a ++ squeeze b := by
  simp [squeeze]

theorem squeeze_spaces (n : Nat) : squeeze (List.replicate n ' ') = [] := by
  induction n with
  | zero => rfl
  | succ n ih =>
    rw [List.replicate_succ]
    have e : ' ' :: List.replicate n ' ' = [' '] ++ List.replicate n ' ' := rfl
    rw [e, squeeze_append, ih]
    rfl

theorem squeeze_newline_spaces (n : Nat) : squeeze ('\n' :: List.replicate n ' ') = [] := by
  have e : '\n' :: List.replicate n ' ' = ['\n'] ++ List.replicate n ' ' := rfl
  rw [e, squeeze_append, squeeze_spaces]
  rfl

namespace pretty

open MeasuredDoc

/-- For a steady document the bytes written in any mode, at any width and
column, are the flat text up to spaces and newlines. -/
theorem render_squeeze (W : Int) :
    (∀ d : MeasuredDoc, Steady d → ∀ (indent : Int) (fl : Bool) (suf : Measure) (p : Int),
      squeeze (render W d indent fl suf p).1 = squeeze (flatText d)) ∧
    (∀ l : List MeasuredDoc, (∀ c ∈ l, Steady c) →
      ∀ (indent : Int) (fl : Bool) (suf : Measure) (p : Int),
      squeeze (renderList W l indent fl suf p).1 = squeeze (flatTexts l)) := by
  apply doc_induction
  · intro s m h indent fl suf p
    have hs : squeeze s = [] := (all_break s m).1 h
    cases fl
    · rw [render_break_nonflat, flatText, hs]
      exact squeeze_newline_spaces _
    · rw [render_break_flat, flatText]
  · intro s m _ indent fl suf p
    rw [render_text, flatText]
  · intro k d m ih h indent fl suf p
    rw [render_indent, flatText]
    exact ih ((all_indent k d m).1 h).2 _ _ _ _
  · intro d m ih h indent fl suf p
    rw [render_group, flatText]
    exact ih ((all_group d m).1 h).2 _ _ _ _
  · intro d m ih h indent fl suf p
    rw [render_flat_node, flatText]
    exact ih ((all_flat d m).1 h).2 _ _ _ _
  · intro a b m iha ihb h indent fl suf p
    have h2 := (all_ifFlat a b m).1 h
    have he : squeeze (flatText a) = squeeze (flatText b) := h2.1
    cases fl
    · rw [render_ifFlat_nonflat, flatText, he]
      exact ihb h2.2.2 _ _ _ _
    · rw [render_ifFlat_flat, flatText]
      exact iha h2.2.1 _ _ _ _
  · intro l m ih h indent fl suf p
    rw [render_concat, flatText]
    exact ih ((all_concat l m).1 h).2 _ _ _ _
  · intro _ indent fl suf p
    rw [renderList_nil, flatTexts]
  · intro d l ihd ihl h indent fl suf p
    rw [renderList_cons, flatTexts]
    simp only
    rw [squeeze_append, squeeze_append, ihd (h d (List.mem_cons_self _ _)),
      ihl (fun c hc => h c (List.mem_cons_of_mem _ hc))]

theorem steady_AsciiText (s : BigStr) : Steady (AsciiText s) := by
  unfold Steady AsciiText
  rw [all_text]
  trivial

theorem steady_Break (s : BigStr) (h : squeeze s = []) : Steady (_Break s) := by
  unfold Steady _Break
  rw [all_break]
  exact h

theorem steady_Indent (k : Int) (d : MeasuredDoc) (h : Steady d) : Steady (_Indent k d) := by
  unfold Steady _Indent
  rw [all_indent]
  exact ⟨trivial, h⟩

theorem steady_Group (d : MeasuredDoc) (h : Steady d) : Steady (_Group d) := by
  unfold Steady _Group
  rw [all_group]
  exact ⟨trivial, h⟩

theorem steady_Flat (d : MeasuredDoc) (h : Steady d) : Steady (_Flat d) := by
  unfold Steady _Flat
  rw [all_flat]
  exact ⟨trivial, h⟩

theorem steady_IfFlat (a b : MeasuredDoc) (ha : Steady a) (hb : Steady b)
    (he : squeeze (flatText a) = squeeze (flatText b)) : Steady (_IfFlat a b) := by
  unfold Steady _IfFlat
  rw [all_ifFlat]
  exact ⟨he, ha, hb⟩

theorem steady_Concat (l : List MeasuredDoc) (h : ∀ c ∈ l, Steady c) : Steady (_Concat l) := by
  apply all_Concat l h
  rw [concat_eq]
  trivial

end pretty

namespace pp_hnode

open pretty MeasuredDoc

theorem steady_StyledAscii (enc : HNodeEncoder) (style s : BigStr) :
    Steady (_StyledAscii enc style s) := by
  unfold Steady _StyledAscii
  rw [all_text]
  trivial

theorem steady_Join (items : List MeasuredDoc) (sep space : BigStr) (hsp : squeeze space = [])
    (h : ∀ c ∈ items, Steady c) : Steady (_Join items sep space) := by
  unfold _Join
  apply steady_Concat
  exact join_loop_all Steady sep space (steady_AsciiText sep) (steady_Break space hsp)
    items 0 [] h (by intro c hc; cases hc)

/-- The plain join and the column form have the same flat text up to spaces. -/
theorem squeeze_tabularSeq (sep : BigStr) (mx : Int) (items : List MeasuredDoc) :
    squeeze (flatTexts (plainSeq sep items)) = squeeze (flatTexts (tabularSeq sep mx items)) := by
  induction items using plainSeq.induct sep with
  | case1 => rfl
  | case2 x => simp [plainSeq, tabularSeq, flatTexts, _Flat, flatText]
  | case3 x y l ih =>
    rw [plainSeq, tabularSeq]
    simp only [flatTexts, squeeze_append, ih, flatText_AsciiText, flatText_Break,
      flatText_Group, squeeze_spaces]
    simp [_Flat, flatText, squeeze]

theorem steady_Tabular (enc : HNodeEncoder) (items : List MeasuredDoc) (sep : BigStr)
    (h : ∀ c ∈ items, Steady c) : Steady (_Tabular enc items sep) := by
  have hseq : ∀ c ∈ (_Tabular.loop1 sep items 0 [] 0).1, Steady c :=
    tabular_loop1_all Steady sep (steady_AsciiText sep) (steady_Break _ rfl)
      items 0 [] 0 h (by intro c hc; cases hc)
  unfold _Tabular
  by_cases h0 : items.length = 0
  · rw [if_pos h0]; exact steady_AsciiText _
  · rw [if_neg h0]
    simp only
    split_ifs
    · apply steady_Group
      apply steady_IfFlat _ _ (steady_Concat _ hseq)
      · apply steady_Concat
        exact tabular_loop2_all Steady sep _ _ (steady_AsciiText sep)
          (fun k => steady_Group _ (steady_Break _ (by
            rw [str_repeat_space]; exact squeeze_spaces _)))
          items 0 [] (fun c hc => steady_Flat c (h c hc)) (by intro c hc; cases hc)
      · rw [flatText_Concat, flatText_Concat, tabular_loop1_plainSeq, tabular_loop1_snd,
          tabular_loop2_tabularSeq sep _ items.length items 0 [] (by omega), List.nil_append]
        exact squeeze_tabularSeq sep _ items
    · exact steady_Concat _ hseq

theorem steady_Surrounded (enc : HNodeEncoder) (left right : BigStr) (d : MeasuredDoc)
    (h : Steady d) : Steady (_Surrounded enc left d right) := by
  unfold _Surrounded
  apply steady_Group
  apply steady_Concat
  intro c hc
  simp only [List.mem_cons, List.mem_singleton, List.not_mem_nil, or_false] at hc
  rcases hc with rfl | rfl | rfl | rfl
  · exact steady_AsciiText _
  · apply steady_Indent
    apply steady_Concat
    intro c hc
    simp only [List.mem_cons, List.mem_singleton, List.not_mem_nil, or_false] at hc
    rcases hc with rfl | rfl
    · exact steady_Break _ rfl
    · exact h
  · exact steady_Break _ rfl
  · exact steady_AsciiText _

theorem steady_SurroundedAndPrefixed (enc : HNodeEncoder) (left right sep : BigStr)
    (pfx d : MeasuredDoc) (hsep : squeeze sep = []) (hp : Steady pfx) (h : Steady d) :
    Steady (_SurroundedAndPrefixed enc left pfx sep d right) := by
  unfold _SurroundedAndPrefixed
  apply steady_Group
  apply steady_Concat
  intro c hc
  simp only [List.mem_cons, List.mem_singleton, List.not_mem_nil, or_false] at hc
  rcases hc with rfl | rfl | rfl | rfl | rfl
  · exact steady_AsciiText _
  · exact hp
  · apply steady_Indent
    apply steady_Concat
    intro c hc
    simp only [List.mem_cons, List.mem_singleton, List.not_mem_nil, or_false] at hc
    rcases hc with rfl | rfl
    · exact steady_Break _ hsep
    · exact h
  · exact steady_Break _ rfl
  · exact steady_AsciiText _

theorem steady_record (enc : HNodeEncoder) (left right : BigStr) (type_name : Option MeasuredDoc)
    (mdocs : Option (List MeasuredDoc)) (ht : ∀ t, type_name = some t → Steady t)
    (hm : ∀ l, mdocs = some l → ∀ c ∈ l, Steady c) :
    Steady (_HNode.record enc left right type_name mdocs) := by
  unfold _HNode.record
  cases mdocs with
  | none =>
    apply steady_Concat
    intro c hc
    cases type_name with
    | none =>
      simp only [List.mem_append, List.mem_singleton] at hc
      rcases hc with rfl | rfl
      · exact steady_AsciiText _
      · exact steady_AsciiText _
    | some t =>
      simp only [List.mem_append, List.mem_singleton] at hc
      rcases hc with (rfl | rfl) | rfl
      · exact steady_AsciiText _
      · exact ht _ rfl
      · exact steady_AsciiText _
  | some l =>
    have hj := steady_Join l [] [' '] rfl (hm l rfl)
    cases type_name with
    | none => exact steady_Surrounded enc _ _ _ hj
    | some t => exact steady_SurroundedAndPrefixed enc _ _ _ _ _ rfl (ht t rfl) hj

/-- Every encoded tree is steady: its breaks hold only spaces and the column
form of an array has the strings of the plain join. -/
theorem steady_HNode (rt : Runtime) (enc : HNodeEncoder) (h : hnode_t) :
    Steady (_HNode rt enc h) := by
  apply hnode_induction (P := fun h => Steady (_HNode rt enc h))
    (Q := fun l => ∀ c ∈ _HNode.items rt enc l, Steady c)
    (F := fun f => Steady (_Field rt enc f))
    (G := fun l => ∀ c ∈ _Field.items rt enc l, Steady c)
  · intro heap_id
    rw [_HNode]; exact steady_AsciiText _
  · intro s color
    rw [_HNode]; exact steady_StyledAscii _ _ _
  · intro children ih
    rw [_HNode]
    split_ifs
    · exact steady_AsciiText _
    · exact steady_Surrounded enc _ _ _ (steady_Tabular enc _ _ ih)
  · intro node_type left right fields unnamed_fields ihf ihu
    rw [record_eq]
    apply steady_record
    · intro t ht
      unfold recordTypeName at ht
      split_ifs at ht
      cases ht
      exact steady_StyledAscii _ _ _
    · intro l hl
      cases unnamed_fields with
      | none =>
        rw [recordMdocs_none] at hl
        split_ifs at hl
        cases hl
        exact ihf
      | some u =>
        cases u with
        | nil =>
          rw [recordMdocs_nil] at hl
          split_ifs at hl
          cases hl
          exact ihf
        | cons u us =>
          rw [recordMdocs_cons] at hl
          cases hl
          exact ihu _ rfl
  · intro name val ih
    rw [_Field]
    apply steady_Concat
    intro c hc
    simp only [List.mem_cons, List.mem_singleton, List.not_mem_nil, or_false] at hc
    rcases hc with rfl | rfl
    · exact steady_AsciiText _
    · exact ih
  · intro c hc; rw [items_nil] at hc; cases hc
  · intro h l ihh ihl c hc
    rw [items_cons] at hc
    rcases List.mem_cons.1 hc with rfl | h2
    · exact ihh
    · exact ihl c h2
  · intro c hc; rw [fields_nil] at hc; cases hc
  · intro f l ihf ihl c hc
    rw [fields_cons] at hc
    rcases List.mem_cons.1 hc with rfl | h2
    · exact ihf
    · exact ihl c h2

end pp_hnode

/-! ## The measures on 32-bit `int` -/

namespace pretty

namespace int32

open MeasuredDoc

theorem wrap_of_range (x : Int) (h1 : -2147483648 ≤ x) (h2 : x < 2147483648) : wrap x = x := by
  unfold wrap; omega

/-- Without overflow the `int` function is the function over the integers. -/
theorem concatMeasure_eq (a b : Measure) (ha : a.WF) (hb : b.WF)
    (h : a.flat + b.flat < 2147483648) :
    int32._ConcatMeasure a b = pretty._ConcatMeasure a b := by
  unfold Measure.WF at ha hb
  unfold int32._ConcatMeasure pretty._ConcatMeasure
  rw [wrap_of_range (a.flat + b.flat) (by omega) h,
    wrap_of_range (a.flat + b.nonflat) (by omega) (by omega)]

/-- The list built by `_Splice` does not depend on the arithmetic. -/
theorem splice_fst :
    (∀ d : MeasuredDoc, ∀ out, int32._Splice.item d out = pretty._Splice.item d out) ∧
    (∀ l : List MeasuredDoc, ∀ out m m2,
      (int32._Splice.loop l out m).1 = (pretty._Splice.loop l out m2).1) := by
  apply doc_induction
  · intro s m out; rw [int32._Splice.item, pretty._Splice.item]
  · intro s m out; rw [int32._Splice.item, pretty._Splice.item]
  · intro k d m _ out; rw [int32._Splice.item, pretty._Splice.item]
  · intro d m _ out; rw [int32._Splice.item, pretty._Splice.item]
  · intro d m _ out; rw [int32._Splice.item, pretty._Splice.item]
  · intro a b m _ _ out; rw [int32._Splice.item, pretty._Splice.item]
  · intro l m ih out
    rw [int32._Splice.item, pretty._Splice.item]
    exact ih _ _ _
  · intro out m m2
    rw [int32._Splice.loop, pretty._Splice.loop]
  · intro d l ihd ihl out m m2
    rw [int32._Splice.loop, pretty._Splice.loop, ihd]
    exact ihl _ _ _

theorem splice_snd (l : List MeasuredDoc) (out : List MeasuredDoc) (m : Measure) :
    (int32._Splice.loop l out m).2 =
      l.foldl (fun m d => int32._ConcatMeasure m d.measure) m := by
  induction l generalizing out m with
  | nil => rw [int32._Splice.loop]; rfl
  | cons d l ih => rw [int32._Splice.loop, List.foldl_cons]; exact ih _ _

theorem foldl_eq (l : List MeasuredDoc) (m : Measure) (hm : m.WF)
    (hl : ∀ c ∈ l, c.measure.WF) (h : m.flat + flatSum l < 2147483648) :
    l.foldl (fun m d => int32._ConcatMeasure m d.measure) m =
      l.foldl (fun m d => pretty._ConcatMeasure m d.measure) m := by
  induction l generalizing m with
  | nil => rfl
  | cons d l ih =>
    have hd := hl d (List.mem_cons_self _ _)
    have hrest : 0 ≤ flatSum l :=
      flatSum_nonneg l (fun c hc => (hl c (List.mem_cons_of_mem _ hc)).1)
    rw [flatSum_cons] at h
    rw [List.foldl_cons, List.foldl_cons, concatMeasure_eq m d.measure hm hd (by omega)]
    apply ih _ (concat_wf _ _ hm hd) (fun c hc => hl c (List.mem_cons_of_mem _ hc))
    rw [concat_flat]
    omega

/-- Without overflow `_Concat` on `int` is `_Concat` over the integers: when
the children have well-formed measures and their flat widths add up to less
than `2^31`. -/
theorem concat_agrees (l : List MeasuredDoc) (hl : ∀ c ∈ l, c.measure.WF)
    (h : flatSum l < 2147483648) : int32._Concat l = pretty._Concat l := by
  unfold int32._Concat pretty._Concat int32._Splice pretty._Splice
  simp only
  rw [splice_fst.2 l [] _EmptyMeasure _EmptyMeasure, splice_snd, splice_spec.2]
  simp only
  rw [foldl_eq l _ empty_wf hl (by simpa [_EmptyMeasure] using h)]

theorem concat_flat_wrap (a b : Measure) :
    (int32._ConcatMeasure a b).flat = wrap (a.flat + b.flat) := by
  unfold int32._ConcatMeasure
  split_ifs <;> rfl

theorem foldl_flat (l : List MeasuredDoc) (m : Measure) (hm : 0 ≤ m.flat)
    (hl : ∀ c ∈ l, 0 ≤ c.measure.flat) (h : m.flat + flatSum l < 2147483648) :
    (l.foldl (fun m d => int32._ConcatMeasure m d.measure) m).flat = m.flat + flatSum l := by
  induction l generalizing m with
  | nil => simp [flatSum]
  | cons d l ih =>
    have hd := hl d (List.mem_cons_self _ _)
    have hrest : 0 ≤ flatSum l :=
      flatSum_nonneg l (fun c hc => hl c (List.mem_cons_of_mem _ hc))
    rw [flatSum_cons] at h ⊢
    have e : (int32._ConcatMeasure m d.measure).flat = m.flat + d.measure.flat := by
      rw [concat_flat_wrap, wrap_of_range _ (by omega) (by omega)]
    rw [List.foldl_cons, ih _ (by rw [e]; omega)
      (fun c hc => hl c (List.mem_cons_of_mem _ hc)) (by rw [e]; omega), e]
    omega

/-- Without overflow the flat width computed by `_Concat` on `int` is the sum
of the flat widths of the children. -/
theorem concat_flat_sum (l : List MeasuredDoc) (hl : ∀ c ∈ l, 0 ≤ c.measure.flat)
    (h : flatSum l < 2147483648) : (int32._Concat l).measure.flat = flatSum l := by
  unfold int32._Concat int32._Splice
  simp only [measure_mk]
  rw [splice_snd, foldl_flat l _ (by simp [_EmptyMeasure]) hl
    (by simpa [_EmptyMeasure] using h)]
  simp [_EmptyMeasure]

/-- The measure of `_Concat [d, d]` on `int` for a document without break. -/
theorem concat_pair (d : MeasuredDoc) (h : d.measure.nonflat = -1) :
    (int32._Concat [d, d]).measure =
      ⟨wrap (wrap (0 + d.measure.flat) + d.measure.flat), -1⟩ := by
  unfold int32._Concat int32._Splice
  simp only [measure_mk]
  rw [splice_snd]
  simp [int32._ConcatMeasure, _EmptyMeasure, h]

/-- The flat width of the doubled document is `2^k` up to `k = 30`. -/
theorem doubled_measure (k : Nat) (hk : k ≤ 30) : (doubled k).measure = ⟨2 ^ k, -1⟩ := by
  induction k with
  | zero => rfl
  | succ k ih =>
    have e : doubled (k + 1) = _Group (int32._Concat [doubled k, doubled k]) := rfl
    have ih2 := ih (by omega)
    have hp : (2 : Int) ^ k ≤ 2 ^ 29 := pow_le_pow_right₀ (by norm_num) (by omega)
    have hp0 : (0 : Int) < 2 ^ k := pow_pos (by norm_num) k
    norm_num at hp
    rw [e]
    show (int32._Concat [doubled k, doubled k]).measure = _
    rw [concat_pair _ (by rw [ih2]), ih2, pow_succ]
    simp only [measure_mk, Measure.mk.injEq, and_true]
    unfold wrap
    omega

/-- After one more doubling the flat width has wrapped around to `-2^31`. -/
theorem doubled_overflow :
    (int32._Concat [doubled 30, doubled 30]).measure.flat = -2147483648 := by
  rw [concat_pair _ (by rw [doubled_measure 30 (le_refl _)]), doubled_measure 30 (le_refl _)]
  simp only [measure_mk]
  unfold wrap
  norm_num

end int32

end pretty

/-! ## The claims -/

namespace claims

open pretty pp_hnode MeasuredDoc

/-- C1 (as amended): sufficient width implies flat layout.  For every tree `h`,
every encoder and every `max_width` at least the flat width of `HNode(h)`,
`PrintDoc(HNode(h))` writes the same bytes as `PrintDoc(_Flat(HNode(h)))`,
namely the flat text of the document; that output contains no newline
provided no `Text` or `Break` string of the document contains one. -/
theorem sufficient_width_flat (rt : Runtime) (enc : HNodeEncoder) (h : hnode_t)
    (max_width : Int) (hW : (HNode rt enc h).measure.flat ≤ max_width) :
    PrintDoc max_width (HNode rt enc h) = PrintDoc max_width (_Flat (HNode rt enc h)) ∧
    PrintDoc max_width (HNode rt enc h) = flatText (HNode rt enc h) ∧
    (Avoids '\n' (HNode rt enc h) → '\n' ∉ PrintDoc max_width (HNode rt enc h)) := by
  have hg : Good (HNode rt enc h) := good_HNode rt enc h
  have e1 := PrintDoc_wide max_width _ hg hW
  have e2 : PrintDoc max_width (_Flat (HNode rt enc h)) = flatText (HNode rt enc h) := by
    rw [PrintDoc_Flat, (render_flat_fits max_width).1 _ hg 0 _ 0 empty_valid
      (by simp only [_SuffixLen, _EmptyMeasure]; simp; omega)]
  refine ⟨by rw [e1, e2], e1, ?_⟩
  intro hn
  rw [e1]
  exact (flatText_avoids '\n').1 _ hn

/-- Witness of C1: the array `[1 2 3]` at width 80. -/
theorem sufficient_width_flat_witness :
    PrintDoc 80 (HNode Runtime.sample (HNodeEncoder.config 4 false 22)
      (.Array [.Leaf ['1'] .OtherConst, .Leaf ['2'] .OtherConst, .Leaf ['3'] .OtherConst])) =
      "[1 2 3]".toList :=
  (sufficient_width_flat Runtime.sample (HNodeEncoder.config 4 false 22)
    (.Array [.Leaf ['1'] .OtherConst, .Leaf ['2'] .OtherConst, .Leaf ['3'] .OtherConst]) 80
    (by decide)).2.1.trans (by decide)

/-- Counterexample to C1 as stated: a record whose left delimiter holds a
newline has flat width 3, yet its output at width 80 contains a newline. -/
theorem sufficient_width_flat_counterexample :
    (HNode Runtime.sample (HNodeEncoder.config 4 false 22)
      (.Record [] ['(', '\n'] [')'] [] none)).measure.flat ≤ 80 ∧
    '\n' ∈ PrintDoc 80 (HNode Runtime.sample (HNodeEncoder.config 4 false 22)
      (.Record [] ['(', '\n'] [')'] [] none)) := by
  decide

/-- C4 (as amended): exact fit threshold.  For every non-empty array or record
with at least one field whose document strings contain no newline, every
encoder and every `max_width`, the rendering contains no newline if and only
if the flat width of `HNode(h)` is at most `max_width`. -/
theorem fit_threshold (rt : Runtime) (enc : HNodeEncoder) (h : hnode_t) (max_width : Int)
    (hc : hasChildren h = true) (hn : Avoids '\n' (HNode rt enc h)) :
    '\n' ∉ PrintDoc max_width (HNode rt enc h) ↔ (HNode rt enc h).measure.flat ≤ max_width := by
  have hg : Good (HNode rt enc h) := good_HNode rt enc h
  constructor
  · intro hno
    by_contra hlt
    apply hno
    obtain ⟨l, hl, hb⟩ := HNode_shape rt enc h hc
    rw [hl] at hg hlt ⊢
    exact PrintDoc_narrow max_width l [] hb hg.wf.1 (by
      have : (_Group (_Concat l)).measure = (_Concat l).measure := rfl
      rw [this] at hlt
      omega)
  · intro hW
    rw [PrintDoc_wide max_width _ hg hW]
    exact (flatText_avoids '\n').1 _ hn

/-- Witness of C4: `[1 2 3]` has flat width 7; at width 7 it is written on one
line and at width 6 it is broken. -/
theorem fit_threshold_witness :
    (HNode Runtime.sample (HNodeEncoder.config 4 false 22)
      (.Array [.Leaf ['1'] .OtherConst, .Leaf ['2'] .OtherConst,
        .Leaf ['3'] .OtherConst])).measure.flat = 7 ∧
    PrintDoc 7 (HNode Runtime.sample (HNodeEncoder.config 4 false 22)
      (.Array [.Leaf ['1'] .OtherConst, .Leaf ['2'] .OtherConst,
        .Leaf ['3'] .OtherConst])) = "[1 2 3]".toList ∧
    '\n' ∈ PrintDoc 6 (HNode Runtime.sample (HNodeEncoder.config 4 false 22)
      (.Array [.Leaf ['1'] .OtherConst, .Leaf ['2'] .OtherConst, .Leaf ['3'] .OtherConst])) :=
  ⟨by decide, by decide,
    by
      have h := fit_threshold Runtime.sample (HNodeEncoder.config 4 false 22)
        (.Array [.Leaf ['1'] .OtherConst, .Leaf ['2'] .OtherConst, .Leaf ['3'] .OtherConst]) 6
        (by decide) (by decide)
      by_contra hc
      have := h.1 hc
      revert this
      decide⟩

/-- Counterexample to C4 as stated: a record with one field whose left
delimiter is a newline has flat width 5, within width 80, yet its rendering
contains a newline. -/
theorem fit_threshold_counterexample :
    hasChildren (.Record [] ['\n'] [')'] [.mk ['a'] (.Leaf ['1'] .OtherConst)] none) = true ∧
    (HNode Runtime.sample (HNodeEncoder.config 4 false 22)
      (.Record [] ['\n'] [')'] [.mk ['a'] (.Leaf ['1'] .OtherConst)] none)).measure.flat ≤ 80 ∧
    '\n' ∈ PrintDoc 80 (HNode Runtime.sample (HNodeEncoder.config 4 false 22)
      (.Record [] ['\n'] [')'] [.mk ['a'] (.Leaf ['1'] .OtherConst)] none)) := by
  decide

/-- C5: splicing idempotence.  For all measured documents `a`, `b`, `c` (whose
measures satisfy the invariant of the data model: `flat >= 0`, `nonflat >= -1`),
`_Concat([_Concat([a, b]), c])`, `_Concat([a, _Concat([b, c])])` and
`_Concat([a, b, c])` are the same measured document: identical measures and,
for every `max_width`, identical `PrintDoc` output. -/
theorem concat_splicing (a b c : MeasuredDoc) (ha : a.measure.Valid) (hb : b.measure.Valid)
    (hc : c.measure.Valid) :
    (_Concat [_Concat [a, b], c]).measure = (_Concat [a, b, c]).measure ∧
    (_Concat [a, _Concat [b, c]]).measure = (_Concat [a, b, c]).measure ∧
    ∀ max_width : Int,
      PrintDoc max_width (_Concat [_Concat [a, b], c]) = PrintDoc max_width (_Concat [a, b, c]) ∧
      PrintDoc max_width (_Concat [a, _Concat [b, c]]) =
        PrintDoc max_width (_Concat [a, b, c]) := by
  have e1 : _Concat [_Concat [a, b], c] = _Concat [a, b, c] := by
    rw [concat_eq [_Concat [a, b], c], concat_eq [a, b, c]]
    congr 1
    · congr 1
      simp [expandConcats, expand_concat]
    · simp [measureOf, measure_concat, concat_empty_left]
  have e2 : _Concat [a, _Concat [b, c]] = _Concat [a, b, c] := by
    rw [concat_eq [a, _Concat [b, c]], concat_eq [a, b, c]]
    congr 1
    · congr 1
      simp [expandConcats, expand_concat]
    · simp only [measureOf, measure_concat, concat_empty_left, List.foldl_cons, List.foldl_nil]
      exact (concat_assoc _ _ _ ha hb hc).symm
  refine ⟨by rw [e1], by rw [e2], fun W => ⟨by rw [e1], by rw [e2]⟩⟩

/-- Witness of C5: `a = Text("a")`, `b = Break(" ")`, `c = Text("c")`. -/
theorem concat_splicing_witness :
    (_Concat [_Concat [AsciiText ['a'], _Break [' ']], AsciiText ['c']]).measure =
      (_Concat [AsciiText ['a'], _Break [' '], AsciiText ['c']]).measure ∧
    (_Concat [AsciiText ['a'], _Concat [_Break [' '], AsciiText ['c']]]).measure =
      (_Concat [AsciiText ['a'], _Break [' '], AsciiText ['c']]).measure :=
  ⟨(concat_splicing (AsciiText ['a']) (_Break [' ']) (AsciiText ['c'])
      (by decide) (by decide) (by decide)).1,
    (concat_splicing (AsciiText ['a']) (_Break [' ']) (AsciiText ['c'])
      (by decide) (by decide) (by decide)).2.1⟩

/-- C6: the child sequence of `_Concat(mdocs)` is exactly the in-order sequence
of the non-`Concat` documents reached by recursively expanding every `Concat`
of `mdocs`, and none of its elements is a `Concat`. -/
theorem concat_children (mdocs : List MeasuredDoc) :
    (_Concat mdocs).doc = .Concat (expandConcats mdocs) ∧
    ∀ c ∈ expandConcats mdocs, isConcat c = false := by
  refine ⟨by rw [concat_eq]; rfl, expand_no_concat.2 mdocs⟩

/-- C7: the printer is total.  For every document and every integer
`max_width` the loop of `PrintDoc` reaches the empty fragment stack after at
most `_DocCount(document) + 1` iterations (every variant of `doc_t` has its
case, so no iteration fails), and running the loop longer changes nothing. -/
theorem PrintDoc_terminates (max_width : Int) (document : MeasuredDoc) :
    ∃ n, n ≤ format._DocCount document.doc + 1 ∧
      (PrintDoc.run max_width n (PrintDoc.init document)).fragments = [] ∧
      ∀ m, n ≤ m →
        PrintDoc.loop max_width m (PrintDoc.init document) =
          PrintDoc.run max_width n (PrintDoc.init document) := by
  obtain ⟨n, _, h2, h3⟩ := printDoc_run max_width document
  refine ⟨n, h2, by rw [h3], ?_⟩
  intro m hm
  rw [loop_eq_run]
  exact run_stable max_width n m _ hm (by rw [h3])

/-- C8 (as amended): style transparency.  For every tree `h` whose strings
(back-reference text, encoded leaf strings, type names, delimiters, field
names) contain no `ESC` byte, every `indent`, `max_tabular_width` and
`max_width`, the output of an encoder with `use_styles = false` equals the
output of an encoder with `use_styles = true` with its CSI sequences removed. -/
theorem style_transparency (rt : Runtime) (indent max_tabular_width max_width : Int)
    (h : hnode_t) (hs : ∀ s ∈ hnodeStrings rt h, ansi.ESC ∉ s) :
    PrintDoc max_width (HNode rt (HNodeEncoder.config indent false max_tabular_width) h) =
      stripCSI (PrintDoc max_width
        (HNode rt (HNodeEncoder.config indent true max_tabular_width) h)) := by
  obtain ⟨e, c⟩ := unstyle_HNode rt (HNodeEncoder.config indent true max_tabular_width)
    (HNodeEncoder.config indent false max_tabular_width) rfl rfl rfl rfl rfl
    ansi.isStyle_YELLOW h hs
  unfold HNode
  rw [← e, PrintDoc_unstyle max_width _ c]

/-- Witness of C8: the record `(Op name:x)` at width 80. -/
theorem style_transparency_witness :
    PrintDoc 80 (HNode Runtime.sample (HNodeEncoder.config 4 false 22)
      (.Record "Op".toList ['('] [')'] [.mk "name".toList (.Leaf ['x'] .OtherConst)] none)) =
    stripCSI (PrintDoc 80 (HNode Runtime.sample (HNodeEncoder.config 4 true 22)
      (.Record "Op".toList ['('] [')'] [.mk "name".toList (.Leaf ['x'] .OtherConst)] none))) :=
  style_transparency Runtime.sample 4 22 80
    (.Record "Op".toList ['('] [')'] [.mk "name".toList (.Leaf ['x'] .OtherConst)] none)
    (by decide)

/-- Counterexample to C8 as stated: a record whose type name holds a CSI
sequence of its own keeps it with styles off, while stripping the styled
output removes it. -/
theorem style_transparency_counterexample :
    PrintDoc 80 (HNode Runtime.sample (HNodeEncoder.config 4 false 22)
      (.Record (ansi.BOLD ++ ['X']) ['('] [')'] [] none)) ≠
    stripCSI (PrintDoc 80 (HNode Runtime.sample (HNodeEncoder.config 4 true 22)
      (.Record (ansi.BOLD ++ ['X']) ['('] [')'] [] none))) := by
  decide

/-- C9: style escapes are never counted toward the layout width.
`_StyledAscii(style, s)` is a single `Text` with measure `(len(s), -1)` whose
content is `style + s + RESET` with styles on and `s` with styles off, and
`_Styled(style, d)` has the measure of `d`. -/
theorem styled_measure (enc : HNodeEncoder) (style s : BigStr) (d : MeasuredDoc) :
    (_StyledAscii enc style s).measure = ⟨len s, -1⟩ ∧
    (enc.use_styles = true →
      (_StyledAscii enc style s).doc = .Text (style ++ s ++ ansi.RESET)) ∧
    (enc.use_styles = false → (_StyledAscii enc style s).doc = .Text s) ∧
    (_Styled enc style d).measure = d.measure := by
  refine ⟨rfl, ?_, ?_, ?_⟩
  · intro h; simp [_StyledAscii, h]
  · intro h; simp [_StyledAscii, h]
  · unfold _Styled
    split_ifs
    · rw [measure_concat]
      simp [measureOf, concat_empty_left, concat_empty_right]
    · rfl

/-- C10 (as amended): measure invariant up to `int` overflow.  `AsciiText` and
`_Break` give `flat ≥ 0`; `_Concat`, with its additions computed on 32-bit
`int`, gives the sum of the flat widths of its children, hence `flat ≥ 0`,
when these are `≥ 0` and add up to less than `2^31`, and it is then the
`_Concat` over the integers when the children have well-formed measures;
`_Indent`, `_Group`, `_IfFlat` and `_Flat` keep `flat ≥ 0`; hence, with the
widths added over the integers, every sub-document of `HNode(h)` has
`flat ≥ 0`, for every tree and encoder. -/
theorem flat_nonneg :
    (∀ s, 0 ≤ (AsciiText s).measure.flat) ∧
    (∀ s, 0 ≤ (_Break s).measure.flat) ∧
    (∀ l, (∀ c ∈ l, 0 ≤ c.measure.flat) → flatSum l < 2147483648 →
      (int32._Concat l).measure.flat = flatSum l ∧ 0 ≤ (int32._Concat l).measure.flat) ∧
    (∀ l, (∀ c ∈ l, c.measure.WF) → flatSum l < 2147483648 → int32._Concat l = _Concat l) ∧
    (∀ k d, 0 ≤ d.measure.flat → 0 ≤ (_Indent k d).measure.flat) ∧
    (∀ d, 0 ≤ d.measure.flat → 0 ≤ (_Group d).measure.flat) ∧
    (∀ a b, 0 ≤ a.measure.flat → 0 ≤ (_IfFlat a b).measure.flat) ∧
    (∀ d, 0 ≤ d.measure.flat → 0 ≤ (_Flat d).measure.flat) ∧
    (∀ enc style s, 0 ≤ (_StyledAscii enc style s).measure.flat) ∧
    ∀ (rt : Runtime) (enc : HNodeEncoder) (h : hnode_t),
      (HNode rt enc h).All (fun x => 0 ≤ x.measure.flat) := by
  refine ⟨?_, ?_, ?_, ?_, ?_, ?_, ?_, ?_, ?_, ?_⟩
  · intro s; simp [AsciiText, len]
  · intro s; simp [_Break, len]
  · intro l hl hsum
    have e := int32.concat_flat_sum l hl hsum
    exact ⟨e, by rw [e]; exact flatSum_nonneg l hl⟩
  · intro l hl hsum
    exact int32.concat_agrees l hl hsum
  · intro k d h; exact h
  · intro d h; exact h
  · intro a b h; exact h
  · intro d h; exact h
  · intro enc style s; simp [_StyledAscii, len]
  · intro rt enc h
    exact All.mono (good_HNode rt enc h) (fun x hx => hx.1.1)

/-- Witness of C10: `_Concat` of a one-character text and a one-character
break. -/
theorem flat_nonneg_witness :
    (int32._Concat [AsciiText ['a'], _Break [' ']]).measure.flat =
      flatSum [AsciiText ['a'], _Break [' ']] ∧
    0 ≤ (int32._Concat [AsciiText ['a'], _Break [' ']]).measure.flat :=
  flat_nonneg.2.2.1 [AsciiText ['a'], _Break [' ']] (by decide) (by decide)

/-- Counterexample to C10 as stated: the document `doubled 30` (a
one-character text doubled 30 times by `Group(Concat[d, d])`, 61 builder
nodes) has the measure `(2^30, -1)`, which satisfies the invariant, and the
`_Concat` of it with itself has the flat width `-2^31`. -/
theorem flat_nonneg_counterexample :
    (int32.doubled 30).measure = ⟨1073741824, -1⟩ ∧
    (int32._Concat [int32.doubled 30, int32.doubled 30]).measure.flat = -2147483648 ∧
    (int32._Concat [int32.doubled 30, int32.doubled 30]).measure.flat < 0 := by
  refine ⟨?_, int32.doubled_overflow, ?_⟩
  · rw [int32.doubled_measure 30 (le_refl _)]; norm_num
  · rw [int32.doubled_overflow]; norm_num

/-- C11: indent invariance.  For every measured document `d` and every
`max_width`, `PrintDoc(_Indent(0, d))` writes exactly the bytes of
`PrintDoc(d)`. -/
theorem indent_invariance (d : MeasuredDoc) (max_width : Int) :
    PrintDoc max_width (_Indent 0 d) = PrintDoc max_width d := by
  rw [PrintDoc_eq, PrintDoc_eq]
  have e : _Fits max_width 0 (_Indent 0 d) _EmptyMeasure = _Fits max_width 0 d _EmptyMeasure :=
    rfl
  rw [e, _Indent, render_indent, add_zero]

/-- C12: `IfFlat` selection.  When the loop of `PrintDoc` pops a fragment
holding `IfFlat(f, nf)`, at any width, the next state has the fragment of `f`
(when `is_flat` is true) or of `nf` (when it is false) on top of the stack
with the same indent, flag and suffix measure, the buffer and `prefix_len`
unchanged; `_IfFlat(f, nf)` carries the flat width of `f` and the first-line
width of `nf`; for `f.measure.flat ≤ max_width`, `PrintDoc(_IfFlat(f, nf))`
writes the bytes of `PrintDoc(f)`, and for `max_width < f.measure.flat` it
writes `nf` laid out in non-flat mode. -/
theorem ifFlat_selection (f nf : MeasuredDoc) (max_width : Int) :
    (∀ (buf : BigStr) (prefix_len indent : Int) (m suffix : Measure) (is_flat : Bool)
        (rest : List DocFragment),
      PrintDoc.step max_width ⟨buf, prefix_len, ⟨.mk (.IfFlat f nf) m, indent, is_flat, suffix⟩
          :: rest⟩ =
        ⟨buf, prefix_len, ⟨if is_flat then f else nf, indent, is_flat, suffix⟩ :: rest⟩) ∧
    _IfFlat f nf = .mk (.IfFlat f nf) ⟨f.measure.flat, nf.measure.nonflat⟩ ∧
    (f.measure.flat ≤ max_width →
      PrintDoc max_width (_IfFlat f nf) = PrintDoc max_width f) ∧
    (max_width < f.measure.flat →
      PrintDoc max_width (_IfFlat f nf) =
        (render max_width nf 0 false _EmptyMeasure 0).1) := by
  have hfit : _Fits max_width 0 (_IfFlat f nf) _EmptyMeasure =
      decide (f.measure.flat ≤ max_width) := by
    simp [_Fits, _IfFlat, _FlattenMeasure, _ConcatMeasure, _EmptyMeasure, _SuffixLen]
  refine ⟨?_, rfl, ?_, ?_⟩
  · intro buf prefix_len indent m suffix is_flat rest
    cases is_flat <;> simp [PrintDoc.step]
  · intro hW
    rw [PrintDoc_eq, PrintDoc_eq, hfit]
    have e2 : _Fits max_width 0 f _EmptyMeasure = true := by
      simp [_Fits, _FlattenMeasure, _ConcatMeasure, _EmptyMeasure, _SuffixLen]
      exact hW
    rw [e2, decide_eq_true hW, _IfFlat, render_ifFlat_flat]
  · intro hW
    rw [PrintDoc_eq, hfit, decide_eq_false (not_le.2 hW), _IfFlat, render_ifFlat_nonflat]

/-- Witness of C12: `IfFlat(Text "a", Text "bb")` at width 1 prints `a`. -/
theorem ifFlat_selection_witness :
    PrintDoc 1 (_IfFlat (AsciiText ['a']) (AsciiText ['b', 'b'])) =
      PrintDoc 1 (AsciiText ['a']) :=
  (ifFlat_selection (AsciiText ['a']) (AsciiText ['b', 'b']) 1).2.2.1 (by decide)

/-- C13: flat array rendering.  For every non-empty array of leaves with
encoded strings `e_1 .. e_n`, every encoder with styles off and every
`max_width` with `2 + sum(len(e_i)) + (n - 1) ≤ max_width`, the printer writes
exactly `"[" + e_1 + " " + ... + " " + e_n + "]"`. -/
theorem flat_array (rt : Runtime) (enc : HNodeEncoder) (hs : enc.use_styles = false)
    (leaves : List (BigStr × color_e)) (hne : leaves ≠ []) (max_width : Int)
    (hW : 2 + totalLen (leafTexts rt leaves) + ((leaves.length : Int) - 1) ≤ max_width) :
    PrintDoc max_width (HNode rt enc (.Array (leafNodes leaves))) =
      ['['] ++ joinWith [' '] (leafTexts rt leaves) ++ [']'] := by
  have hf := flatText_leafArray rt enc hs leaves hne
  have hne2 : leafTexts rt leaves ≠ [] := by
    intro h0; exact hne (List.map_eq_nil_iff.1 h0)
  have hl : (leafTexts rt leaves).length = leaves.length := List.length_map _ _
  have hg : Good (HNode rt enc (.Array (leafNodes leaves))) := good_HNode rt enc _
  rw [PrintDoc_wide max_width _ hg, hf]
  rw [flat_width_off rt enc hs, hf, len_append, len_append, len_joinWith _ _ hne2, hl]
  simp only [len, List.length_singleton]
  push_cast
  omega

/-- Witness of C13: the array of the leaves `1`, `2`, `3` at width 80 prints
`[1 2 3]`. -/
theorem flat_array_witness :
    PrintDoc 80 (HNode Runtime.sample (HNodeEncoder.config 4 false 22)
      (.Array (leafNodes [(['1'], .OtherConst), (['2'], .OtherConst), (['3'], .OtherConst)]))) =
      "[1 2 3]".toList :=
  flat_array Runtime.sample (HNodeEncoder.config 4 false 22) rfl
    [(['1'], .OtherConst), (['2'], .OtherConst), (['3'], .OtherConst)] (by simp) 80 (by decide)

/-- C14: broken array rendering.  With `EncodeString` leaving `1`, `2`, `3`
unchanged, the array of the three `OtherConst` leaves `1`, `2`, `3`, encoded
with indent 4, styles off and the default `max_tabular_width` and printed with
`max_width = 3`, gives the opening bracket, each item on its own line indented
by 4 spaces, and the closing bracket on its own line at indentation 0. -/
theorem broken_array (rt : Runtime)
    (h1 : j8_lite.EncodeString rt ['1'] true = ['1'])
    (h2 : j8_lite.EncodeString rt ['2'] true = ['2'])
    (h3 : j8_lite.EncodeString rt ['3'] true = ['3']) :
    PrintDoc 3 (HNode rt ((HNodeEncoder.new.SetIndent 4).SetUseStyles false)
      (.Array [.Leaf ['1'] .OtherConst, .Leaf ['2'] .OtherConst, .Leaf ['3'] .OtherConst])) =
      "[\n    1\n    2\n    3\n]".toList := by
  have e : HNode rt ((HNodeEncoder.new.SetIndent 4).SetUseStyles false)
      (.Array [.Leaf ['1'] .OtherConst, .Leaf ['2'] .OtherConst, .Leaf ['3'] .OtherConst]) =
      _Surrounded ((HNodeEncoder.new.SetIndent 4).SetUseStyles false) ['[']
        (_Tabular ((HNodeEncoder.new.SetIndent 4).SetUseStyles false)
          [AsciiText ['1'], AsciiText ['2'], AsciiText ['3']] []) [']'] := by
    rw [HNode, array_eq, items_cons, items_cons, items_cons, items_nil,
      leaf_off rt _ rfl, leaf_off rt _ rfl, leaf_off rt _ rfl, h1, h2, h3]
  rw [e]
  decide

/-- Witness of C14: a runtime whose `EncodeString` leaves every string
unchanged. -/
theorem broken_array_witness :
    PrintDoc 3 (HNode Runtime.sample ((HNodeEncoder.new.SetIndent 4).SetUseStyles false)
      (.Array [.Leaf ['1'] .OtherConst, .Leaf ['2'] .OtherConst, .Leaf ['3'] .OtherConst])) =
      "[\n    1\n    2\n    3\n]".toList :=
  broken_array Runtime.sample rfl rfl rfl

/-- C15: flat record rendering.  For every record with a non-empty type name
`t`, delimiters `left` and `right`, no unnamed field and `n ≥ 1` named leaf
fields, every encoder with styles off and every `max_width` that is at least
`len(left) + len(t) + len(right) + sum(1 + len(name_i) + 1 + len(e_i))` (which
is the flat width of the document), the printer writes exactly
`left + t + " " + name_1 + ":" + e_1 + " " + ... + name_n + ":" + e_n + right`. -/
theorem flat_record (rt : Runtime) (enc : HNodeEncoder) (hs : enc.use_styles = false)
    (t left right : BigStr) (ht : t ≠ []) (unnamed : Option (List hnode_t))
    (hu : unnamed = none ∨ unnamed = some []) (named : List (BigStr × BigStr × color_e))
    (hne : named ≠ []) (max_width : Int)
    (hW : recordFlatWidth rt left t right named ≤ max_width) :
    (HNode rt enc (.Record t left right (leafFields named) unnamed)).measure.flat =
      recordFlatWidth rt left t right named ∧
    PrintDoc max_width (HNode rt enc (.Record t left right (leafFields named) unnamed)) =
      left ++ t ++ [' '] ++ joinWith [' '] (fieldTexts rt named) ++ right := by
  have hf := flat_leafRecord rt enc hs t left right ht unnamed hu named hne
  have hg : Good (HNode rt enc (.Record t left right (leafFields named) unnamed)) :=
    good_HNode rt enc _
  refine ⟨hf.1, ?_⟩
  rw [PrintDoc_wide max_width _ hg (by rw [hf.1]; exact hW), hf.2]

/-- Witness of C15: the record `Op` with the field `name: x` at width 80
prints `(Op name:x)`. -/
theorem flat_record_witness :
    PrintDoc 80 (HNode Runtime.sample (HNodeEncoder.config 4 false 22)
      (.Record ['O', 'p'] ['('] [')'] (leafFields [("name".toList, ['x'], .OtherConst)])
        none)) = "(Op name:x)".toList :=
  (flat_record Runtime.sample (HNodeEncoder.config 4 false 22) rfl ['O', 'p'] ['('] [')']
    (by simp) none (Or.inl rfl) [("name".toList, ['x'], .OtherConst)] (by simp) 80
    (by decide)).2

/-- C16: broken record rendering.  For every record with a non-empty type name
`t`, no unnamed field and `n ≥ 1` named leaf fields, every encoder with styles
off and indent step `k`, and every `max_width` smaller than the flat width of
the document, the printer writes `left + t`, then for each field in order a
newline, `k` spaces and `name_i + ":" + e_i`, then a newline and `right`. -/
theorem broken_record (rt : Runtime) (enc : HNodeEncoder) (hs : enc.use_styles = false)
    (t left right : BigStr) (ht : t ≠ []) (unnamed : Option (List hnode_t))
    (hu : unnamed = none ∨ unnamed = some []) (named : List (BigStr × BigStr × color_e))
    (hne : named ≠ []) (max_width : Int)
    (hW : max_width <
      (HNode rt enc (.Record t left right (leafFields named) unnamed)).measure.flat) :
    PrintDoc max_width (HNode rt enc (.Record t left right (leafFields named) unnamed)) =
      left ++ t ++
        ((fieldTexts rt named).map
          (fun x => '\n' :: List.replicate enc.indent.toNat ' ' ++ x)).flatten ++
        '\n' :: right := by
  have hg : Good (HNode rt enc (.Record t left right (leafFields named) unnamed)) :=
    good_HNode rt enc _
  rw [leafRecord_eq rt enc hs t left right ht unnamed hu named hne] at hg hW ⊢
  rw [_SurroundedAndPrefixed] at hg hW ⊢
  have hfit : _Fits max_width 0 (_Concat [AsciiText left, AsciiText t,
      _Indent enc.indent (_Concat [_Break [' '], _Join (named.map (leafFieldDoc rt)) [] [' ']]),
      _Break [], AsciiText right]) _EmptyMeasure = false := by
    rw [Bool.eq_false_iff]
    intro hfit
    have h0 := (fits_top max_width _ hg.wf.1).1 hfit
    exact absurd h0 (not_le.2 hW)
  rw [PrintDoc_Group_groupFree _ _ (built_groupFree (leafRecord_inner_built enc rt t left right
    named)), hfit, layout_leafRecord, layout_Break_nonflat, layout_Break_nonflat]
  cases hn : fieldTexts rt named with
  | nil => exact absurd (List.map_eq_nil_iff.1 hn) hne
  | cons a l =>
    rw [joinWith_cons]
    simp

/-- Witness of C16: the record `Op` with the fields `a: 1` and `b: 2` at
width 10. -/
theorem broken_record_witness :
    PrintDoc 10 (HNode Runtime.sample (HNodeEncoder.config 4 false 22)
      (.Record ['O', 'p'] ['('] [')']
        (leafFields [(['a'], ['1'], .OtherConst), (['b'], ['2'], .OtherConst)]) none)) =
      "(Op\n    a:1\n    b:2\n)".toList :=
  broken_record Runtime.sample (HNodeEncoder.config 4 false 22) rfl ['O', 'p'] ['('] [')']
    (by simp) none (Or.inl rfl) [(['a'], ['1'], .OtherConst), (['b'], ['2'], .OtherConst)]
    (by simp) 10 (by decide)

/-- C18: back-reference rendering.  With `hex_lower` as the specification
describes it, for every `heap_id`, every `max_width` and every encoder (styles
on or off) the printer writes, for `AlreadySeen(heap_id)`, exactly `...0x`
followed by `hex_lower(heap_id)`, whose characters are lower-case hexadecimal
digits that denote `heap_id` when it is not negative; the output holds no
newline and no escape character. -/
theorem back_reference (rt : Runtime) (hrt : rt.hex_lower = mylib.hex_lower)
    (enc : HNodeEncoder) (heap_id : Int) (max_width : Int) :
    PrintDoc max_width (HNode rt enc (.AlreadySeen heap_id)) =
      "...0x".toList ++ mylib.hex_lower heap_id ∧
    (∀ c ∈ mylib.hex_lower heap_id, c ∈ mylib.hexDigits) ∧
    (0 ≤ heap_id → (mylib.hexValue (mylib.hex_lower heap_id) : Int) = heap_id) ∧
    '\n' ∉ PrintDoc max_width (HNode rt enc (.AlreadySeen heap_id)) ∧
    ansi.ESC ∉ PrintDoc max_width (HNode rt enc (.AlreadySeen heap_id)) := by
  have e : PrintDoc max_width (HNode rt enc (.AlreadySeen heap_id)) =
      "...0x".toList ++ mylib.hex_lower heap_id := by
    rw [PrintDoc_eq, HNode, _HNode, AsciiText, render_text, hrt]
  have hd := mylib.hex_lower_digits heap_id
  refine ⟨e, hd, mylib.hex_lower_value heap_id, ?_, ?_⟩
  · rw [e]
    intro hc
    rcases List.mem_append.1 hc with h1 | h2
    · revert h1; decide
    · have h3 := hd _ h2
      revert h3; decide
  · rw [e]
    intro hc
    rcases List.mem_append.1 hc with h1 | h2
    · revert h1; decide
    · have h3 := hd _ h2
      revert h3; decide

/-- Witness of C18: `heap_id = 255` gives `...0xff`. -/
theorem back_reference_witness :
    PrintDoc 80 (HNode Runtime.sample (HNodeEncoder.config 4 true 22) (.AlreadySeen 255)) =
      "...0xff".toList :=
  (back_reference Runtime.sample rfl (HNodeEncoder.config 4 true 22) 255 80).1

/-- C19 (as amended): a record without fields never breaks.  For every record
whose fields list is empty and whose `unnamed_fields` is absent or empty, every
encoder with styles off and every `max_width`, the printer writes exactly
`left + node_type + right` (which is `left + right` when `node_type` is
empty); that output is on one line, that is, holds no newline, provided none
of `left`, `node_type` and `right` holds one. -/
theorem fieldless_record (rt : Runtime) (enc : HNodeEncoder) (hs : enc.use_styles = false)
    (node_type left right : BigStr) (unnamed : Option (List hnode_t))
    (hu : unnamed = none ∨ unnamed = some []) (max_width : Int) :
    PrintDoc max_width (HNode rt enc (.Record node_type left right [] unnamed)) =
      left ++ node_type ++ right ∧
    ('\n' ∉ left → '\n' ∉ node_type → '\n' ∉ right →
      '\n' ∉ PrintDoc max_width (HNode rt enc (.Record node_type left right [] unnamed))) := by
  have e : PrintDoc max_width (HNode rt enc (.Record node_type left right [] unnamed)) =
      left ++ node_type ++ right := by
    exact fieldless_eq rt enc hs node_type left right unnamed hu max_width
  refine ⟨e, ?_⟩
  intro h1 h2 h3
  rw [e]
  simp only [List.mem_append, not_or]
  exact ⟨⟨h1, h2⟩, h3⟩

/-- Witness of C19: the record `Op` without fields at width 0 prints `(Op)`. -/
theorem fieldless_record_witness :
    PrintDoc 0 (HNode Runtime.sample (HNodeEncoder.config 4 false 22)
      (.Record ['O', 'p'] ['('] [')'] [] none)) = "(Op)".toList :=
  (fieldless_record Runtime.sample (HNodeEncoder.config 4 false 22) rfl ['O', 'p'] ['('] [')']
    none (Or.inl rfl) 0).1

/-- Counterexample to C19 as stated: the record without fields whose type
name is `a`, newline, `b` prints `(a`, newline, `b)` at width 80 with styles
off: two lines. -/
theorem fieldless_record_counterexample :
    (HNodeEncoder.config 4 false 22).use_styles = false ∧
    PrintDoc 80 (HNode Runtime.sample (HNodeEncoder.config 4 false 22)
      (.Record ['a', '\n', 'b'] ['('] [')'] [] none)) = ['(', 'a', '\n', 'b', ')'] ∧
    '\n' ∈ PrintDoc 80 (HNode Runtime.sample (HNodeEncoder.config 4 false 22)
      (.Record ['a', '\n', 'b'] ['('] [')'] [] none)) := by
  decide

/-- C20: empty array.  For every encoder, an array without children encodes to
the single `Text` of `[]` with measure `(2, -1)`, and for every `max_width` the
printer writes exactly `[]`. -/
theorem empty_array (rt : Runtime) (enc : HNodeEncoder) (max_width : Int) :
    HNode rt enc (.Array []) = .mk (.Text ['[', ']']) ⟨2, -1⟩ ∧
    PrintDoc max_width (HNode rt enc (.Array [])) = ['[', ']'] := by
  have e : HNode rt enc (.Array []) = .mk (.Text ['[', ']']) ⟨2, -1⟩ := by
    rw [HNode, _HNode]; rfl
  refine ⟨e, ?_⟩
  rw [PrintDoc_eq, e, render_text]

/-- C21: tabular column alignment.  For every non-empty list of items and
every separator, with `max_flat_len` the largest flat width of an item:
`_Tabular` returns the plain join when
`max_flat_len + len(sep) + 1 > max_tabular_width`, and otherwise
`Group(IfFlat(plain join, tabular))` where the children of `tabular` are the
items wrapped in `Flat`, every one but the last followed by `Text(sep)` and a
`Group(Break(p spaces))` with `p = max_flat_len - item.flat + 1`; `p ≥ 1` and
every column cell has the flat width `max_flat_len + len(sep) + 1`. -/
theorem tabular_alignment (enc : HNodeEncoder) (items : List MeasuredDoc) (sep : BigStr)
    (hne : items ≠ []) :
    (enc.max_tabular_width < maxFlatLen items + len sep + 1 →
      _Tabular enc items sep = _Concat (plainSeq sep items)) ∧
    (maxFlatLen items + len sep + 1 ≤ enc.max_tabular_width →
      _Tabular enc items sep =
        _Group (_IfFlat (_Concat (plainSeq sep items))
          (_Concat (tabularSeq sep (maxFlatLen items) items)))) ∧
    (_Concat (tabularSeq sep (maxFlatLen items) items)).doc =
      .Concat (tabularSeq sep (maxFlatLen items) items) ∧
    (∀ x ∈ items, 1 ≤ padding (maxFlatLen items) x ∧
      (_Flat x).measure.flat + (AsciiText sep).measure.flat +
        (_Group (_Break (List.replicate (padding (maxFlatLen items) x).toNat ' '))).measure.flat =
          maxFlatLen items + len sep + 1) := by
  have h0 : ¬ items.length = 0 := fun h => hne (List.length_eq_zero.1 h)
  have e1 := tabular_loop1_plainSeq sep items
  have e2 : (_Tabular.loop1 sep items 0 [] 0).2 = maxFlatLen items :=
    tabular_loop1_snd sep items 0 [] 0
  have e3 := tabular_loop2_tabularSeq sep (maxFlatLen items) items.length items 0 []
    (by omega)
  rw [List.nil_append] at e3
  refine ⟨?_, ?_, ?_, ?_⟩
  · intro h
    unfold _Tabular
    rw [if_neg h0]
    simp only [e1, e2]
    rw [if_neg (by omega)]
  · intro h
    unfold _Tabular
    rw [if_neg h0]
    simp only [e1, e2]
    rw [if_pos h, e3]
  · rw [concat_eq, expands_of_no_concat _ (tabularSeq_no_concat sep _ items), doc_mk]
  · intro x hx
    have hge := (maxFlatLen_ge items).2 x hx
    have hp : 1 ≤ padding (maxFlatLen items) x := by unfold padding; omega
    refine ⟨hp, ?_⟩
    simp only [_Flat, _FlattenMeasure, AsciiText, _Group, _Break, measure_mk, len,
      List.length_replicate]
    unfold padding at hp ⊢
    rw [Int.toNat_of_nonneg (by omega)]
    omega

/-- Witness of C21: two items of flat widths 1 and 3 with the separator `,`
and `max_tabular_width = 22` give the column form. -/
theorem tabular_alignment_witness :
    _Tabular (HNodeEncoder.config 4 false 22) [AsciiText ['a'], AsciiText ['b', 'b', 'b']] [','] =
      _Group (_IfFlat (_Concat (plainSeq [','] [AsciiText ['a'], AsciiText ['b', 'b', 'b']]))
        (_Concat (tabularSeq [','] (maxFlatLen [AsciiText ['a'], AsciiText ['b', 'b', 'b']])
          [AsciiText ['a'], AsciiText ['b', 'b', 'b']]))) :=
  (tabular_alignment (HNodeEncoder.config 4 false 22)
    [AsciiText ['a'], AsciiText ['b', 'b', 'b']] [','] (by simp)).2.1 (by decide)

/-- C22: HTML escaping is a per-character substitution.  For every string,
`cgi::escape` (three whole-string replacements in sequence, `&` first) gives
the string obtained by mapping every character independently (`&` to `&amp;`,
`<` to `&lt;`, `>` to `&gt;`, any other character to itself); the result
contains no `<` and no `>`. -/
theorem escape_per_character (s : BigStr) :
    cgi.escape s = cgi.escape_spec s ∧ '<' ∉ cgi.escape s ∧ '>' ∉ cgi.escape s := by
  have e : cgi.escape s = cgi.escape_spec s := by
    induction s with
    | nil => rfl
    | cons c s ih =>
      rw [cgi.escape_cons, ih]
      simp [cgi.escape_spec]
  refine ⟨e, ?_, ?_⟩
  · rw [e]
    unfold cgi.escape_spec
    simp only [List.mem_flatten, List.mem_map, not_exists, not_and]
    rintro l ⟨c, _, rfl⟩
    exact (cgi.escapeChar_no_angle c).1
  · rw [e]
    unfold cgi.escape_spec
    simp only [List.mem_flatten, List.mem_map, not_exists, not_and]
    rintro l ⟨c, _, rfl⟩
    exact (cgi.escapeChar_no_angle c).2

/-- C23: output of `HNodePrettyPrint`.  For every node, writer and
`max_width`, `HNodePrettyPrint` appends to the writer exactly the bytes
`PrintDoc` writes at `max_width` for `HNode(node)`, encoded by a fresh encoder
with `use_styles = writer.isatty()` and indent step 2 (the constructor sets
4), followed by one newline; the array of the leaves `1`, `2`, `3` on a
writer that is not a terminal at `max_width = 3` gives
`"[\n  1\n  2\n  3\n]\n"`. -/
theorem hnode_pretty_print (rt : Runtime) (PrettyTree : MeasuredDoc → hnode_t) (node : hnode_t)
    (f : mylib.Writer) (max_width : Int) :
    format.HNodePrettyPrint rt PrettyTree node f max_width =
      ⟨f.isatty, f.written ++
        PrintDoc max_width (HNode rt ((HNodeEncoder.new.SetUseStyles f.isatty).SetIndent 2) node)
        ++ ['\n']⟩ ∧
    ((HNodeEncoder.new.SetUseStyles f.isatty).SetIndent 2).use_styles = f.isatty ∧
    ((HNodeEncoder.new.SetUseStyles f.isatty).SetIndent 2).indent = 2 ∧
    HNodeEncoder.new.indent = 4 ∧
    (format.HNodePrettyPrint Runtime.sample PrettyTree
      (.Array [.Leaf ['1'] .OtherConst, .Leaf ['2'] .OtherConst, .Leaf ['3'] .OtherConst])
      ⟨false, []⟩ 3).written = "[\n  1\n  2\n  3\n]\n".toList := by
  have e : ∀ (rt : Runtime) (node : hnode_t) (f : mylib.Writer) (max_width : Int),
      format.HNodePrettyPrint rt PrettyTree node f max_width =
      ⟨f.isatty, f.written ++
        PrintDoc max_width (HNode rt ((HNodeEncoder.new.SetUseStyles f.isatty).SetIndent 2) node)
        ++ ['\n']⟩ := by
    intro rt node f max_width
    simp [format.HNodePrettyPrint, format._HNodePrettyPrint, format._HNodePrettyPrint.body,
      mylib.Writer.write]
  refine ⟨e rt node f max_width, rfl, rfl, rfl, ?_⟩
  rw [e]
  decide

/-- C24: suffix-measure invariant of the printer stack.  In every state the
loop of `PrintDoc` reaches from any document (after any number `n` of
iterations), every fragment `u` lying directly on a fragment `l` stores
`_ConcatMeasure(l.mdoc.measure, l.measure)`, and the bottom fragment stores the
empty measure. -/
theorem suffix_invariant (max_width : Int) (d : MeasuredDoc) (n : Nat) :
    (∀ (i : Nat) (u l : DocFragment),
      (PrintDoc.run max_width n (PrintDoc.init d)).fragments.get? i = some u →
      (PrintDoc.run max_width n (PrintDoc.init d)).fragments.get? (i + 1) = some l →
      u.measure = _ConcatMeasure l.mdoc.measure l.measure) ∧
    (∀ b : DocFragment,
      (PrintDoc.run max_width n (PrintDoc.init d)).fragments.getLast? = some b →
      b.measure = _EmptyMeasure) ∧
    _EmptyMeasure = ⟨0, -1⟩ := by
  have h := suffixInv_run max_width d n
  exact ⟨fun i u l hu hl => suffixInv_adjacent _ h i u l hu hl,
    fun b hb => suffixInv_bottom _ h b hb, rfl⟩

/-- C25: the stack-driven printer equals the recursive reference renderer.
For every measured document `d` and every `max_width`, the bytes written by
the loop of `PrintDoc` are the bytes given by `render`, the structurally
recursive renderer that threads `prefix_len` from left to right, started on
`Group(d)` with indent 0, `is_flat = false`, the empty suffix and
`prefix_len = 0`. -/
theorem printer_refines_render (max_width : Int) (d : MeasuredDoc) :
    PrintDoc max_width d = (render max_width (_Group d) 0 false _EmptyMeasure 0).1 :=
  PrintDoc_eq_render max_width d

/-- C26: the layout changes only whitespace.  For every tree, every encoder
and any two widths, the outputs of `PrintDoc` on `HNode(h)` are equal once
every space and newline is deleted from both: each is then the flat text of the
document (all its `Text` and `Break` strings in order) without its spaces and
newlines, so no string is dropped, duplicated or reordered by the choice of
the flat, broken or column form. -/
theorem layout_whitespace_only (rt : Runtime) (enc : HNodeEncoder) (h : hnode_t)
    (W1 W2 : Int) :
    squeeze (PrintDoc W1 (HNode rt enc h)) = squeeze (PrintDoc W2 (HNode rt enc h)) ∧
    squeeze (PrintDoc W1 (HNode rt enc h)) = squeeze (flatText (HNode rt enc h)) := by
  have hs : Steady (HNode rt enc h) := steady_HNode rt enc h
  have e : ∀ W : Int, squeeze (PrintDoc W (HNode rt enc h)) =
      squeeze (flatText (HNode rt enc h)) := by
    intro W
    rw [PrintDoc_eq]
    exact (render_squeeze W).1 _ hs _ _ _ _
  exact ⟨by rw [e W1, e W2], e W1⟩

/-- C27: measures form a monoid on well-formed values.  For all measures `a`,
`b`, `c` with `flat ≥ 0` and `nonflat ≥ -1`, the empty measure is a left and a
right unit of `_ConcatMeasure`, and `_ConcatMeasure` is associative. -/
theorem measure_monoid (a b c : Measure) (ha : 0 ≤ a.flat ∧ -1 ≤ a.nonflat)
    (hb : 0 ≤ b.flat ∧ -1 ≤ b.nonflat) (hc : 0 ≤ c.flat ∧ -1 ≤ c.nonflat) :
    _ConcatMeasure _EmptyMeasure a = a ∧ a = _ConcatMeasure a _EmptyMeasure ∧
    _ConcatMeasure (_ConcatMeasure a b) c = _ConcatMeasure a (_ConcatMeasure b c) :=
  ⟨concat_empty_left a, (concat_empty_right a).symm, concat_assoc a b c ha hb hc⟩

/-- Witness of C27: the measures `(1, -1)`, `(2, 0)` and `(3, 1)`. -/
theorem measure_monoid_witness :
    _ConcatMeasure _EmptyMeasure ⟨1, -1⟩ = ⟨1, -1⟩ ∧
    (⟨1, -1⟩ : Measure) = _ConcatMeasure ⟨1, -1⟩ _EmptyMeasure ∧
    _ConcatMeasure (_ConcatMeasure ⟨1, -1⟩ ⟨2, 0⟩) ⟨3, 1⟩ =
      _ConcatMeasure ⟨1, -1⟩ (_ConcatMeasure ⟨2, 0⟩ ⟨3, 1⟩) :=
  measure_monoid ⟨1, -1⟩ ⟨2, 0⟩ ⟨3, 1⟩ (by decide) (by decide) (by decide)

/-- C28: the first-line width never exceeds the flat width in an encoded
document.  For every tree and every encoder, every sub-document of `HNode(h)`
(the `IfFlat` built by `_Tabular` included) has a measure with `nonflat = -1`
or `0 ≤ nonflat ≤ flat`. -/
theorem nonflat_le_flat (rt : Runtime) (enc : HNodeEncoder) (h : hnode_t) :
    ∀ x ∈ subdocs (HNode rt enc h),
      x.measure.nonflat = -1 ∨ (0 ≤ x.measure.nonflat ∧ x.measure.nonflat ≤ x.measure.flat) := by
  intro x hx
  have hw : x.measure.WF := (good_HNode rt enc h x hx).1
  unfold Measure.WF at hw
  omega

/-- Witness of C28: the document of the array of the leaves `1` and `2` has
the measure `(5, 1)`. -/
theorem nonflat_le_flat_witness :
    (HNode Runtime.sample (HNodeEncoder.config 4 false 22)
      (.Array [.Leaf ['1'] .OtherConst, .Leaf ['2'] .OtherConst])).measure.nonflat = -1 ∨
    (0 ≤ (HNode Runtime.sample (HNodeEncoder.config 4 false 22)
      (.Array [.Leaf ['1'] .OtherConst, .Leaf ['2'] .OtherConst])).measure.nonflat ∧
     (HNode Runtime.sample (HNodeEncoder.config 4 false 22)
      (.Array [.Leaf ['1'] .OtherConst, .Leaf ['2'] .OtherConst])).measure.nonflat ≤
     (HNode Runtime.sample (HNodeEncoder.config 4 false 22)
      (.Array [.Leaf ['1'] .OtherConst, .Leaf ['2'] .OtherConst])).measure.flat) :=
  nonflat_le_flat Runtime.sample (HNodeEncoder.config 4 false 22)
    (.Array [.Leaf ['1'] .OtherConst, .Leaf ['2'] .OtherConst]) _ (self_mem_subdocs _)

/-- C29: unnamed fields take precedence.  For every record whose
`unnamed_fields` is present and not empty, two records that differ only in the
named fields encode to the same document, hence print the same bytes at every
width, although `_HNodeCount` counts the children of both lists: every named
field adds the count of its value. -/
theorem unnamed_precedence (rt : Runtime) (enc : HNodeEncoder) (node_type left right : BigStr)
    (fields1 fields2 : List hnode_asdl.Field) (u : hnode_t) (us : List hnode_t)
    (max_width : Int) :
    HNode rt enc (.Record node_type left right fields1 (some (u :: us))) =
      HNode rt enc (.Record node_type left right fields2 (some (u :: us))) ∧
    PrintDoc max_width (HNode rt enc (.Record node_type left right fields1 (some (u :: us)))) =
      PrintDoc max_width (HNode rt enc (.Record node_type left right fields2 (some (u :: us)))) ∧
    format._HNodeCount (.Record node_type left right fields1 (some (u :: us))) =
      1 + format._HNodeCount.fields fields1 + format._HNodeCount.sum (u :: us) ∧
    (∀ (name : BigStr) (val : hnode_t),
      format._HNodeCount (.Record node_type left right (.mk name val :: fields1)
          (some (u :: us))) =
        format._HNodeCount (.Record node_type left right fields1 (some (u :: us))) +
          format._HNodeCount val) := by
  have e : HNode rt enc (.Record node_type left right fields1 (some (u :: us))) =
      HNode rt enc (.Record node_type left right fields2 (some (u :: us))) := by
    rw [HNode, HNode, record_eq, record_eq, recordMdocs_cons, recordMdocs_cons]
  refine ⟨e, by rw [e], ?_, ?_⟩
  · rw [format._HNodeCount, format._HNodeCount.opt]
  · intro name val
    rw [format._HNodeCount, format._HNodeCount, format._HNodeCount.fields,
      format._HNodeCount.field]
    omega

/-- C30: `str_cmp` is the lexicographic order on byte strings.  With a
`memcmp` that meets its contract, for all strings `a` and `b`: `str_cmp(a, b)`
is `0` exactly when `a` and `b` are the same string; the sign of
`str_cmp(a, b)` is the opposite of the sign of `str_cmp(b, a)`; a proper
prefix compares less than the string it starts (so the empty string is less
than every other string); and the sign of `str_cmp(a, b)` is the sign of the
lexicographic comparison. -/
theorem str_cmp_order (memcmp : BigStr → BigStr → Int → Int) (hm : MemcmpSpec memcmp)
    (a b : BigStr) :
    (str_cmp memcmp a b = 0 ↔ a = b) ∧
    Int.sign (str_cmp memcmp a b) = - Int.sign (str_cmp memcmp b a) ∧
    (∀ t : BigStr, t ≠ [] → str_cmp memcmp a (a ++ t) < 0) ∧
    (b ≠ [] → str_cmp memcmp [] b < 0) ∧
    Int.sign (str_cmp memcmp a b) = lexSign a b := by
  have hpre : ∀ (x t : BigStr), t ≠ [] → str_cmp memcmp x (x ++ t) < 0 := by
    intro x t ht
    have h := str_cmp_sign memcmp hm x (x ++ t)
    rw [lexSign_append x t ht] at h
    exact Int.sign_eq_neg_one_iff_neg.1 h
  refine ⟨?_, ?_, hpre a, fun hb => hpre [] b hb, str_cmp_sign memcmp hm a b⟩
  · rw [← lexSign_eq_zero, ← str_cmp_sign memcmp hm a b, Int.sign_eq_zero_iff_zero]
  · rw [str_cmp_sign memcmp hm a b, str_cmp_sign memcmp hm b a, lexSign_swap a b, neg_neg]

/-- Witness of C30: with a `memcmp` returning the sign, `ab` is less than
`abc`. -/
theorem str_cmp_order_witness : str_cmp memcmp_sample ['a', 'b'] (['a', 'b'] ++ ['c']) < 0 :=
  (str_cmp_order memcmp_sample memcmp_sample_spec ['a', 'b'] ['x']).2.2.1 ['c'] (by simp)

end claims
